import Mathlib

/-!
Link and colour detection in the terminal grid (`src/bin/termiolink.c`).

A shallow embedding of `termiolink.c` and the properties of its classifiers,
cell walker, link span finder and colour span finder.

Conventions of the embedding.

* A byte is a `Nat`; a C string is the `List Nat` of bytes stored from the
  pointer on.  Reading past the end of the list yields the terminating NUL
  (`0`), and a `0` inside the list terminates the string as well.  A pointer
  into a string is a suffix of the list, a `NULL` pointer is `none`.
* C `int` / `ssize_t` values are `Int`; codepoints are `Nat`.
* The loops of the two span finders are bounded by an explicit `fuel`
  argument; running out of it is the distinguished outcome `Outcome.fuel`.
* Reading a cell outside the cell array of a row is the distinguished
  outcome `Outcome.oob`.
-/

namespace Termiolink

/-! ## C strings -/

/-- Value of `p[i]` for a pointer `p` into a C string. -/
def charAt (p : List Nat) (i : Nat) : Nat := p.getD i 0

/-- Length of the C string stored in `s` (the bytes before the first NUL). -/
def strlen (s : List Nat) : Nat := (s.takeWhile (fun c => c != 0)).length

/-- Bytes of an ASCII string literal. -/
def bytes (s : String) : List Nat := s.toList.map Char.toNat

/-- `isalpha` of the C locale. -/
def isalpha (c : Nat) : Bool := (65 ≤ c && c ≤ 90) || (97 ≤ c && c ≤ 122)

/-- `tolower` of the C locale. -/
def tolower (c : Nat) : Nat := if 65 ≤ c ∧ c ≤ 90 then c + 32 else c

/-- `strchr(s, c)` for `c != 0`: the suffix starting at the first occurrence of
`c` before the terminating NUL, or `none` (NULL). -/
def strchr : List Nat → Nat → Option (List Nat)
  | [], _ => none
  | x :: xs, c => if x = c then some (x :: xs) else if x = 0 then none else strchr xs c

/-- Modelled from the spec: the `casestartswith(str, constref)` helper of
`utils.h` is not part of the sources at hand; the spec describes it as "starts
with ... case-insensitively".  The first `pre.length` bytes of `s` are compared
with `pre` up to ASCII case (a read past the end of `s` gives NUL). -/
def casestartswith (s pre : List Nat) : Bool :=
  (List.range pre.length).all (fun i => tolower (charAt s i) == tolower (charAt pre i))

/-! ## Classifiers -/

/-- `_isspace_unicode` (lines 11-80). -/
def _isspace_unicode (codepoint : Nat) : Bool :=
  codepoint ∈ [9, 10, 11, 12, 13, 32, 133, 160, 5760, 6158, 8192, 8193, 8194, 8195,
    8196, 8197, 8198, 8199, 8200, 8201, 8202, 8203, 8204, 8205, 8232, 8233,
    8239, 8287, 8288, 12288, 65279]

/-- Loop condition of `link_is_protocol`:
`isalpha(c) || (c == '.') || (c == '-') || (c == '+')`. -/
def scheme_cont (c : Nat) : Bool := isalpha c || c == 46 || c == 45 || c == 43

/-- The `do { p++; c = *p; } while (...)` loop of `link_is_protocol`: from the
pointer `p` before the loop to the pointer after it. -/
def scheme_loop : List Nat → List Nat
  | [] => []
  | _ :: p => if scheme_cont (charAt p 0) then scheme_loop p else p

/-- `link_is_protocol` (lines 119-147). -/
def link_is_protocol : Option (List Nat) → Bool
  | none => false
  | some str =>
    if !isalpha (charAt str 0) then false
    else
      let p := scheme_loop str
      charAt p 0 == 58 && charAt p 1 == 47 && charAt p 2 == 47

/-- `link_is_url` (lines 149-160). -/
def link_is_url : Option (List Nat) → Bool
  | none => false
  | some str =>
    if link_is_protocol (some str) || casestartswith str (bytes "www.")
        || casestartswith str (bytes "ftp.") then true
    else false

/-- `link_is_email` (lines 162-176). -/
def link_is_email : Option (List Nat) → Bool
  | none => false
  | some str =>
    match strchr str 64 with
    | some (_ :: at1) =>
      if (strchr at1 46).isSome then true
      else if casestartswith str (bytes "mailto:") then true
      else false
    | _ =>
      if casestartswith str (bytes "mailto:") then true
      else false

/-- `link_is_file` (lines 178-201). -/
def link_is_file : Option (List Nat) → Bool
  | none => false
  | some str =>
    if charAt str 0 = 47 then true
    else if charAt str 0 = 126 then
      if charAt str 1 = 47 then true else false
    else if charAt str 0 = 46 then
      if charAt str 1 = 47 then true
      else if charAt str 1 = 46 ∧ charAt str 2 = 47 then true
      else false
    else false

/-! ## Grid model -/

/-- Modelled from the spec: `codepoint_to_utf8` of `utf8.h` is not part of the
sources at hand; the spec describes the text of a cell as its UTF-8 encoding.
The result is the list of bytes written to `txt`, its length is the returned
`txtlen`.  Codepoints that UTF-8 cannot encode in four bytes give no byte. -/
def codepoint_to_utf8 (g : Nat) : List Nat :=
  if g < 128 then [g]
  else if g < 2048 then [192 + g / 64, 128 + g % 64]
  else if g < 65536 then [224 + g / 4096, 128 + g / 64 % 64, 128 + g % 64]
  else if g < 2097152 then
    [240 + g / 262144, 128 + g / 4096 % 64, 128 + g / 64 % 64, 128 + g % 64]
  else []

/-- The fields of `Termcell` read by `termiolink.c`: `codepoint`,
`att.dblwidth`, `att.autowrapped`, `att.link_id`. -/
structure Termcell where
  codepoint : Nat
  dblwidth : Bool
  autowrapped : Bool
  link_id : Nat
  deriving DecidableEq, Repr

/-- What `termpty_cellrow_get(ty, y, &w)` hands back for a present row: the
cell array and the width `w` stored through the third argument. -/
structure Cellrow where
  cells : List Termcell
  w : Int
  deriving DecidableEq, Repr

/-- The part of `Termpty` read by `termiolink.c`: the screen width `ty->w` and
the rows as served by `termpty_cellrow_get` (`none` is a NULL row). -/
structure Termpty where
  w : Int
  cellrow : Int → Option Cellrow

/-- The cell `cells[i]`; `none` when the index lies outside the array. -/
def cellAt (cells : List Termcell) (i : Int) : Option Termcell :=
  if 0 ≤ i then cells.get? i.toNat else none

/-- Values left in the out-parameters by one call of a `_txt_*` function:
the return value `res`, the position `*x`, `*y`, the bytes of `txt` (their
number is `*txtlenp`) and `*codepointp`. -/
structure Txt where
  res : Int
  x : Int
  y : Int
  txt : List Nat
  codepoint : Nat
  deriving DecidableEq, Repr

/-- Exit through the label `bad`: `*codepointp` keeps its old value `cp`. -/
def Txt.bad (x y : Int) (cp : Nat) : Txt := ⟨-1, x, y, [], cp⟩

/-- Exit through the label `empty`. -/
def Txt.empty (x y : Int) : Txt := ⟨0, x, y, [], 0⟩

/-- Common tail of the three `_txt_*` functions, from the test
`(cell.codepoint == 0) || (cell.att.link_id)` on. -/
def Txt.ofCell (cell : Termcell) (x y : Int) : Txt :=
  if cell.codepoint = 0 ∨ cell.link_id ≠ 0 then Txt.empty x y
  else ⟨0, x, y, codepoint_to_utf8 cell.codepoint, cell.codepoint⟩

/-- `_txt_at` (lines 203-242).  `cp` is the value of `*codepointp` on entry;
the result is `none` when a cell is read outside the cell array. -/
def _txt_at (ty : Termpty) (x y : Int) (cp : Nat) : Option Txt :=
  match ty.cellrow y with
  | none => some (Txt.bad x y cp)
  | some row =>
    if row.w = 0 then some (Txt.bad x y cp)
    else if x ≥ row.w then some (Txt.empty x y)
    else
      match cellAt row.cells x with
      | none => none
      | some cell =>
        if cell.codepoint = 0 ∧ cell.dblwidth = true then
          if x - 1 < 0 then some (Txt.bad (x - 1) y cp)
          else
            match cellAt row.cells (x - 1) with
            | none => none
            | some cell1 => some (Txt.ofCell cell1 (x - 1) y)
        else some (Txt.ofCell cell x y)

/-- The double-width back-up shared by both branches of `_txt_prev_at`
(lines 280-294). -/
def prev_tail (cells : List Termcell) (cell : Termcell) (x y : Int) (cp : Nat) :
    Option Txt :=
  if cell.codepoint = 0 ∧ cell.dblwidth = true then
    if x - 1 < 0 then some (Txt.bad (x - 1) y cp)
    else
      match cellAt cells (x - 1) with
      | none => none
      | some cell1 => some (Txt.ofCell cell1 (x - 1) y)
  else some (Txt.ofCell cell x y)

/-- `_txt_prev_at` (lines 244-306). -/
def _txt_prev_at (ty : Termpty) (x y : Int) (cp : Nat) : Option Txt :=
  if x - 1 < 0 then
    match ty.cellrow (y - 1) with
    | none => some (Txt.bad (ty.w - 1) (y - 1) cp)
    | some row =>
      if row.w = 0 then some (Txt.bad (ty.w - 1) (y - 1) cp)
      else if ty.w - 1 ≥ row.w then some (Txt.empty (ty.w - 1) (y - 1))
      else
        match cellAt row.cells (ty.w - 1) with
        | none => none
        | some cell =>
          if (cell.autowrapped = false ∧ y - 1 ≥ 0) ∨ row.w < ty.w then
            some (Txt.empty (ty.w - 1) (y - 1))
          else prev_tail row.cells cell (ty.w - 1) (y - 1) cp
  else
    match ty.cellrow y with
    | none => some (Txt.bad (x - 1) y cp)
    | some row =>
      if row.w = 0 then some (Txt.bad (x - 1) y cp)
      else if x - 1 ≥ row.w then some (Txt.empty (x - 1) y)
      else
        match cellAt row.cells (x - 1) with
        | none => none
        | some cell => prev_tail row.cells cell (x - 1) y cp

/-- Lines 336-361 of `_txt_next_at`: the code after the row has been settled,
reading `cells[*x]` of a row of width `w`. -/
def next_tail (ty : Termpty) (cells : List Termcell) (w : Int) (x y : Int) (cp : Nat) :
    Option Txt :=
  match cellAt cells x with
  | none => none
  | some cell =>
    if cell.codepoint = 0 ∧ cell.dblwidth = true then
      if x + 1 ≥ w then
        match cellAt cells (w - 1) with
        | none => none
        | some last =>
          if last.autowrapped = false ∧ w = ty.w then some (Txt.empty (x + 1) y)
          else some (Txt.bad 0 (y + 1) cp)
      else some (Txt.bad (x + 1) y cp)
    else some (Txt.ofCell cell x y)

/-- `_txt_next_at` (lines 308-373). -/
def _txt_next_at (ty : Termpty) (x y : Int) (cp : Nat) : Option Txt :=
  match ty.cellrow y with
  | none => some (Txt.bad (x + 1) y cp)
  | some row =>
    if row.w = 0 then some (Txt.bad (x + 1) y cp)
    else if x + 1 ≥ row.w then
      let go : Option Txt :=
        match ty.cellrow (y + 1) with
        | none => some (Txt.bad 0 (y + 1) cp)
        | some row1 =>
          if row1.w = 0 then some (Txt.bad 0 (y + 1) cp)
          else next_tail ty row1.cells row1.w 0 (y + 1) cp
      if x + 1 ≤ ty.w then
        match cellAt row.cells (row.w - 1) with
        | none => none
        | some last =>
          if last.autowrapped = false then some (Txt.empty (x + 1) (y + 1))
          else go
      else go
    else next_tail ty row.cells row.w (x + 1) y cp

/-! ## Token buffer, environment and outcomes -/

/-- Modelled from the spec: `ty_sb_add` of `sb.h` ("append adds bytes at the
logical end").  Allocation is taken to succeed, so the `res < 0` exits of the
callers are not taken. -/
def ty_sb_add (sb txt : List Nat) : List Nat := sb ++ txt

/-- Modelled from the spec: `ty_sb_prepend` of `sb.h` ("prepend adds bytes at
the logical start").  Allocation is taken to succeed. -/
def ty_sb_prepend (sb txt : List Nat) : List Nat := txt ++ sb

/-- Modelled from the spec: `ty_sb_lskip` of `sb.h` (skip-from-left removes
`len` bytes at the start). -/
def ty_sb_lskip (sb : List Nat) (len : Nat) : List Nat := sb.drop len

/-- Modelled from the spec: `ty_sb_rskip` of `sb.h` (skip-from-right removes
`len` bytes at the end). -/
def ty_sb_rskip (sb : List Nat) (len : Nat) : List Nat := sb.take (sb.length - len)

/-- Modelled from the spec: the lock of `backlog.h` is a counter that
`termpty_backlog_lock` increments. -/
def termpty_backlog_lock (lock : Int) : Int := lock + 1

/-- Modelled from the spec: the lock of `backlog.h` is a counter that
`termpty_backlog_unlock` decrements. -/
def termpty_backlog_unlock (lock : Int) : Int := lock - 1

/-- What the two span finders read from the widget `obj`: `termio_pty_get`
(`none` is NULL), `termio_size_get`, `termio_scroll_get`, `termio_cwd_get` and
`homedir_get` (`none` when the call fails). -/
structure Termio where
  pty : Option Termpty
  w : Int
  h : Int
  scroll : Int
  cwd : Option (List Nat)
  home : Option (List Nat)

/-- Outcome of a span finder of the embedding. -/
inductive Outcome (α : Type) where
  /-- The C function returns. -/
  | done (a : α) : Outcome α
  /-- A cell was read outside the cell array of its row. -/
  | oob : Outcome α
  /-- The loop bound of the embedding was used up. -/
  | fuel : Outcome α
  deriving DecidableEq, Repr

/-- Inclusive span written through `x1r`, `y1r`, `x2r`, `y2r`. -/
structure Span where
  x1 : Int
  y1 : Int
  x2 : Int
  y2 : Int
  deriving DecidableEq, Repr

/-! ## Link span finder -/

/-- Local variables of `termio_link_find` that live across loop iterations. -/
structure LinkSt where
  sb : List Nat
  x1 : Int
  y1 : Int
  x2 : Int
  y2 : Int
  endmatch1 : Nat
  endmatch2 : Nat
  was_protocol : Bool
  escaped : Bool
  codepoint : Nat
  deriving DecidableEq, Repr

/-- The cases of the `switch (codepoint)` of the backward loop (lines 440-465):
the case label with the values it assigns to `endmatch1` and `endmatch2`. -/
def endmatch_table : List (Nat × Nat × Nat) :=
  [(34, 34, 34), (39, 39, 39), (96, 96, 96), (60, 62, 62), (91, 93, 93), (93, 91, 91),
   (123, 125, 125), (40, 41, 41), (124, 124, 124), (0xab, 0xbb, 0xbb), (0xbb, 0xab, 0xab),
   (0x2018, 0x2019, 0x2019), (0x201b, 0x2019, 0x2019), (0x201c, 0x201d, 0x201d),
   (0x201e, 0x201c, 0x201d), (0x2039, 0x203a, 0x203a), (0x27e6, 0x27e7, 0x27e7),
   (0x27e8, 0x27e9, 0x27e9), (0x2329, 0x232a, 0x232a), (0x231c, 0x231d, 0x231f),
   (0x231e, 0x231d, 0x231f), (0x2308, 0x2309, 0x230b), (0x230a, 0x2309, 0x230b)]

/-- The `switch (codepoint)` of the backward loop (lines 440-465): the values
assigned to `endmatch1` and `endmatch2`, `none` when no case matches. -/
def endmatch_of (codepoint : Nat) : Option (Nat × Nat) :=
  match endmatch_table.find? (fun e => e.1 == codepoint) with
  | some e => some (e.2.1, e.2.2)
  | none => none

/-- The `switch (codepoint)` of the forward loop (lines 525-562): `true` for
the cases that `goto out`. -/
def forward_delim (codepoint : Nat) : Bool :=
  codepoint ∈ [34, 39, 96, 60, 62, 91, 93, 123, 125, 124, 0xab, 0xbb,
    0x2018, 0x2019, 0x201b, 0x201c, 0x201d, 0x201e, 0x2039, 0x203a,
    0x2308, 0x2309, 0x230a, 0x230b, 0x231c, 0x231d, 0x231e, 0x231f,
    0x2329, 0x232a, 0x27e6, 0x27e7, 0x27e8, 0x27e9]

/-- How one iteration of a scan loop ends. -/
inductive Iter where
  /-- The loop is left (`break`, or `goto out`). -/
  | brk (st : LinkSt) : Iter
  /-- The next iteration starts. -/
  | cont (st : LinkSt) : Iter
  deriving DecidableEq, Repr

/-- Lines 440-491 of the backward loop: the rest of an iteration once the
buffer `sb` holds the prepended text and `t` holds the out-parameters of the
last `_txt_prev_at` call (`new_x1`, `new_y1`, `txtlen`, `codepoint`). -/
def goback_rest (st : LinkSt) (sb : List Nat) (t : Txt) : Iter :=
  let em : Nat × Nat := (endmatch_of t.codepoint).getD (st.endmatch1, st.endmatch2)
  if em.1 ≠ 0 then
    Iter.brk { st with sb := ty_sb_lskip sb t.txt.length, endmatch1 := em.1,
                       endmatch2 := em.2, codepoint := t.codepoint }
  else if link_is_protocol (some sb) = false then
    if st.was_protocol = true then
      let em1 : Nat × Nat :=
        if _isspace_unicode t.codepoint = false then (t.codepoint, t.codepoint) else em
      Iter.brk { st with sb := ty_sb_lskip sb t.txt.length, endmatch1 := em1.1,
                         endmatch2 := em1.2, codepoint := t.codepoint }
    else
      Iter.cont { st with sb := sb, endmatch1 := em.1, endmatch2 := em.2,
                          codepoint := t.codepoint, x1 := t.x, y1 := t.y }
  else
    Iter.cont { st with sb := sb, endmatch1 := em.1, endmatch2 := em.2,
                        codepoint := t.codepoint, was_protocol := true,
                        x1 := t.x, y1 := t.y }

/-- One iteration of the backward loop `while (goback)` (lines 417-491);
`none` when a cell is read outside its row. -/
def goback_iter (ty : Termpty) (st : LinkSt) : Option Iter :=
  match _txt_prev_at ty st.x1 st.y1 st.codepoint with
  | none => none
  | some t =>
    if t.res ≠ 0 ∨ t.txt.length = 0 then some (Iter.brk { st with codepoint := t.codepoint })
    else
      let sb := ty_sb_prepend st.sb t.txt
      if _isspace_unicode t.codepoint = true then
        match _txt_prev_at ty t.x t.y t.codepoint with
        | none => none
        | some t2 =>
          if t2.res ≠ 0 ∨ t2.txt.length = 0 ∨ t2.codepoint ≠ 92 then
            some (Iter.brk { st with sb := ty_sb_lskip sb t.txt.length,
                                     codepoint := t2.codepoint })
          else some (goback_rest st sb t2)
      else some (goback_rest st sb t)

/-- The backward loop `while (goback)` (lines 415-492). -/
def link_goback (ty : Termpty) : Nat → LinkSt → Outcome LinkSt
  | 0, _ => Outcome.fuel
  | n + 1, st =>
    match goback_iter ty st with
    | none => Outcome.oob
    | some (Iter.brk st1) => Outcome.done st1
    | some (Iter.cont st1) => link_goback ty n st1

/-- One iteration of the forward loop `while (goforward)` (lines 496-580);
`none` when a cell is read outside its row. -/
def goforward_iter (ty : Termpty) (st : LinkSt) : Option Iter :=
  match _txt_next_at ty st.x2 st.y2 st.codepoint with
  | none => none
  | some t =>
    if t.res ≠ 0 ∨ t.txt.length = 0 then some (Iter.brk { st with codepoint := t.codepoint })
    else if t.codepoint = 92 then
      some (Iter.cont { st with x2 := t.x, y2 := t.y, escaped := true,
                                codepoint := t.codepoint })
    else
      let st1 : LinkSt :=
        if st.escaped = true then
          { st with x2 := t.x, y2 := t.y, escaped := false, codepoint := t.codepoint }
        else { st with codepoint := t.codepoint }
      if _isspace_unicode t.codepoint = true ∨ t.codepoint = st.endmatch1
          ∨ t.codepoint = st.endmatch2 then some (Iter.brk st1)
      else if forward_delim t.codepoint = true then some (Iter.brk st1)
      else
        let sb := ty_sb_add st1.sb t.txt
        if link_is_protocol (some sb) = false then
          if st1.was_protocol = true then
            some (Iter.cont { st1 with sb := ty_sb_rskip sb t.txt.length,
                                       x2 := t.x, y2 := t.y })
          else some (Iter.cont { st1 with sb := sb, x2 := t.x, y2 := t.y })
        else some (Iter.cont { st1 with sb := sb, was_protocol := true,
                                        x2 := t.x, y2 := t.y })

/-- The forward loop `while (goforward)` (lines 494-581). -/
def link_goforward (ty : Termpty) : Nat → LinkSt → Outcome LinkSt
  | 0, _ => Outcome.fuel
  | n + 1, st =>
    match goforward_iter ty st with
    | none => Outcome.oob
    | some (Iter.brk st1) => Outcome.done st1
    | some (Iter.cont st1) => link_goforward ty n st1

/-- Lines 396-581 of `termio_link_find` after the size test: the seed and the
two loops, for the seed `(cx, cy)` with `cy` already shifted by the scroll
offset.  `done none` is an exit through `goto end` at the seed. -/
def link_scan (ty : Termpty) (fuel : Nat) (cx cy : Int) : Outcome (Option LinkSt) :=
  match _txt_at ty cx cy 0 with
  | none => Outcome.oob
  | some t =>
    if t.res ≠ 0 ∨ t.txt.length = 0 then Outcome.done none
    else if _isspace_unicode t.codepoint = true then Outcome.done none
    else
      let st : LinkSt :=
        { sb := ty_sb_add [] t.txt, x1 := t.x, y1 := t.y, x2 := cx, y2 := cy,
          endmatch1 := 0, endmatch2 := 0, was_protocol := false, escaped := false,
          codepoint := t.codepoint }
      match link_goback ty fuel st with
      | Outcome.oob => Outcome.oob
      | Outcome.fuel => Outcome.fuel
      | Outcome.done st1 =>
        match link_goforward ty fuel st1 with
        | Outcome.oob => Outcome.oob
        | Outcome.fuel => Outcome.fuel
        | Outcome.done st2 => Outcome.done (some st2)

/-- `PATH_MAX` of the host (Linux). -/
def PATH_MAX : Nat := 4096

/-- Modelled from the spec: `eina_str_join(dst, size, sep, a, b)` is a library
call outside the sources at hand; it stores `a`, `sep`, `b` in a buffer of
`size` bytes, cutting the result to fit. -/
def eina_str_join (size sep : Nat) (a b : List Nat) : List Nat :=
  (a.take (strlen a) ++ sep :: b.take (strlen b)).take (size - 1)

/-- `_cwd_path_get` (lines 83-93). -/
def _cwd_path_get (obj : Termio) (relpath : List Nat) : Option (List Nat) :=
  match obj.cwd with
  | none => none
  | some cwdpath => some (eina_str_join PATH_MAX 47 cwdpath relpath)

/-- `_home_path_get` (lines 95-106). -/
def _home_path_get (obj : Termio) (relpath : List Nat) : Option (List Nat) :=
  match obj.home with
  | none => none
  | some homepath => some (eina_str_join PATH_MAX 47 homepath relpath)

/-- `_local_path_get` (lines 108-117). -/
def _local_path_get (obj : Termio) (relpath : List Nat) : Option (List Nat) :=
  if charAt relpath 0 = 47 then some (relpath.take (strlen relpath))
  else if charAt relpath 0 = 126 ∧ charAt relpath 1 = 47 then
    _home_path_get obj (relpath.drop 2)
  else _cwd_path_get obj relpath

/-- What a call of `termio_link_find` leaves behind: the returned string `s`
(`none` is NULL), the span written through `x1r`, `y1r`, `x2r`, `y2r` (`none`
when they are not written) and the lock counter. -/
structure LinkRet where
  s : Option (List Nat)
  span : Option Span
  lock : Int
  deriving DecidableEq, Repr

/-- Lines 583-616 of `termio_link_find`: validation and path resolution at the
label `out`, then the label `end`.  `sc` is the scroll offset, `lock` the lock
counter before `termpty_backlog_unlock`. -/
def link_out (obj : Termio) (sc : Int) (st : LinkSt) (lock : Int) : LinkRet :=
  if st.sb.length ≠ 0 then
    let is_file := link_is_file (some st.sb)
    if is_file = true ∨ link_is_email (some st.sb) = true ∨ link_is_url (some st.sb) = true then
      let span : Span := ⟨st.x1, st.y1 + sc, st.x2, st.y2 + sc⟩
      if is_file = true ∧ charAt st.sb 0 ≠ 47 then
        ⟨_local_path_get obj st.sb, some span, termpty_backlog_unlock lock⟩
      else ⟨some st.sb, some span, termpty_backlog_unlock lock⟩
    else ⟨none, none, termpty_backlog_unlock lock⟩
  else ⟨none, none, termpty_backlog_unlock lock⟩

/-- `termio_link_find` (lines 376-616), called with non-NULL `x1r`, `y1r`,
`x2r`, `y2r` and the lock counter `lock`. -/
def termio_link_find (obj : Termio) (fuel : Nat) (cx cy : Int) (lock : Int) :
    Outcome LinkRet :=
  match obj.pty with
  | none => Outcome.done ⟨none, none, lock⟩
  | some ty =>
    if obj.w ≤ 0 ∨ obj.h ≤ 0 then Outcome.done ⟨none, none, termpty_backlog_unlock lock⟩
    else
      match link_scan ty fuel cx (cy - obj.scroll) with
      | Outcome.oob => Outcome.oob
      | Outcome.fuel => Outcome.fuel
      | Outcome.done none =>
        Outcome.done ⟨none, none, termpty_backlog_unlock (termpty_backlog_lock lock)⟩
      | Outcome.done (some st) =>
        Outcome.done (link_out obj obj.scroll st (termpty_backlog_lock lock))

/-! ## Colour span finder -/

/-- `_is_authorized_in_color` (lines 618-649). -/
def _is_authorized_in_color (codepoint : Nat) : Bool :=
  codepoint ∈ [35, 48, 49, 50, 51, 52, 53, 54, 55, 56, 57, 97, 65, 98, 66, 99, 67,
    100, 68, 101, 69, 102, 70]

/-- `_parse_hex` (lines 651-676): `some v` when it returns true having stored
`v`, `none` when it returns false. -/
def _parse_hex (c : Nat) : Option Nat :=
  if c < 48 then none
  else if c ≤ 57 then some ((c - 48) % 256)
  else if c < 65 then none
  else if c ≤ 70 then some ((10 + c - 65) % 256)
  else if c < 97 then none
  else if c ≤ 102 then some ((10 + c - 97) % 256)
  else none

/-- `_parse_2hex` (lines 678-688) on the pointer `s`. -/
def _parse_2hex (s : List Nat) : Option Nat :=
  match _parse_hex (charAt s 0) with
  | none => none
  | some v0 =>
    match _parse_hex (charAt s 1) with
    | none => none
    | some v1 => some ((v0 <<< 4 ||| v1) % 256)

/-- Local variables of `termio_color_find` that live across loop iterations. -/
structure ColorSt where
  sb : List Nat
  x1 : Int
  y1 : Int
  x2 : Int
  y2 : Int
  codepoint : Nat
  deriving DecidableEq, Repr

/-- How one iteration of a loop of `termio_color_find` ends. -/
inductive ColorIter where
  /-- The loop is left. -/
  | brk (st : ColorSt) : ColorIter
  /-- The next iteration starts. -/
  | cont (st : ColorSt) : ColorIter
  deriving DecidableEq, Repr

/-- One iteration of the backward loop of `termio_color_find` (lines 734-754). -/
def color_goback_iter (ty : Termpty) (st : ColorSt) : Option ColorIter :=
  match _txt_prev_at ty st.x1 st.y1 st.codepoint with
  | none => none
  | some t =>
    if t.res ≠ 0 ∨ t.txt.length = 0 then
      some (ColorIter.brk { st with codepoint := t.codepoint })
    else
      let sb := ty_sb_prepend st.sb t.txt
      if _is_authorized_in_color t.codepoint = false then
        some (ColorIter.brk { st with sb := ty_sb_lskip sb t.txt.length,
                                      codepoint := t.codepoint })
      else some (ColorIter.cont { st with sb := sb, x1 := t.x, y1 := t.y,
                                          codepoint := t.codepoint })

/-- The backward loop of `termio_color_find` (lines 732-755). -/
def color_goback (ty : Termpty) : Nat → ColorSt → Outcome ColorSt
  | 0, _ => Outcome.fuel
  | n + 1, st =>
    match color_goback_iter ty st with
    | none => Outcome.oob
    | some (ColorIter.brk st1) => Outcome.done st1
    | some (ColorIter.cont st1) => color_goback ty n st1

/-- One iteration of the forward loop of `termio_color_find` (lines 759-779). -/
def color_goforward_iter (ty : Termpty) (st : ColorSt) : Option ColorIter :=
  match _txt_next_at ty st.x2 st.y2 st.codepoint with
  | none => none
  | some t =>
    if t.res ≠ 0 ∨ t.txt.length = 0 then
      some (ColorIter.brk { st with codepoint := t.codepoint })
    else if _is_authorized_in_color t.codepoint = false then
      some (ColorIter.brk { st with codepoint := t.codepoint })
    else some (ColorIter.cont { st with sb := ty_sb_add st.sb t.txt, x2 := t.x, y2 := t.y,
                                        codepoint := t.codepoint })

/-- The forward loop of `termio_color_find` (lines 757-780). -/
def color_goforward (ty : Termpty) : Nat → ColorSt → Outcome ColorSt
  | 0, _ => Outcome.fuel
  | n + 1, st =>
    match color_goforward_iter ty st with
    | none => Outcome.oob
    | some (ColorIter.brk st1) => Outcome.done st1
    | some (ColorIter.cont st1) => color_goforward ty n st1

/-- Lines 711-780 of `termio_color_find` after the size test: the seed and the
two loops, for the seed `(cx, cy)` with `cy` already shifted by the scroll
offset.  `done none` is an exit through `goto end` at the seed.  The
uninitialised `codepoint` is taken to be `0`. -/
def color_scan (ty : Termpty) (fuel : Nat) (cx cy : Int) : Outcome (Option ColorSt) :=
  match _txt_at ty cx cy 0 with
  | none => Outcome.oob
  | some t =>
    if t.res ≠ 0 ∨ t.txt.length = 0 then Outcome.done none
    else if _is_authorized_in_color t.codepoint = false then Outcome.done none
    else
      let st : ColorSt :=
        { sb := ty_sb_add [] t.txt, x1 := t.x, y1 := t.y, x2 := cx, y2 := cy,
          codepoint := t.codepoint }
      match color_goback ty fuel st with
      | Outcome.oob => Outcome.oob
      | Outcome.fuel => Outcome.fuel
      | Outcome.done st1 =>
        match color_goforward ty fuel st1 with
        | Outcome.oob => Outcome.oob
        | Outcome.fuel => Outcome.fuel
        | Outcome.done st2 => Outcome.done (some st2)

/-- The four channels stored through `rp`, `gp`, `bp`, `ap`. -/
structure Rgba where
  r : Nat
  g : Nat
  b : Nat
  a : Nat
  deriving DecidableEq, Repr

/-- Lines 782-827 of `termio_color_find`: the parse of the assembled buffer.
`some c` when `found` is set, with the values of `r`, `g`, `b`, `a`. -/
def color_parse (sb : List Nat) : Option Rgba :=
  if sb.length = 0 then none
  else if charAt sb 0 = 35 then
    let sb1 := ty_sb_lskip sb 1
    if sb1.length = 3 then
      match _parse_hex (charAt sb1 0), _parse_hex (charAt sb1 1), _parse_hex (charAt sb1 2) with
      | some r, some g, some b =>
        some ⟨(r <<< 4) % 256, (g <<< 4) % 256, (b <<< 4) % 256, 255⟩
      | _, _, _ => none
    else if sb1.length = 4 then
      match _parse_hex (charAt sb1 0), _parse_hex (charAt sb1 1), _parse_hex (charAt sb1 2),
          _parse_hex (charAt sb1 3) with
      | some r, some g, some b, some a =>
        some ⟨(r <<< 4) % 256, (g <<< 4) % 256, (b <<< 4) % 256, (a <<< 4) % 256⟩
      | _, _, _, _ => none
    else if sb1.length = 6 then
      match _parse_2hex sb1, _parse_2hex (sb1.drop 2), _parse_2hex (sb1.drop 4) with
      | some r, some g, some b => some ⟨r, g, b, 255⟩
      | _, _, _ => none
    else if sb1.length = 8 then
      match _parse_2hex sb1, _parse_2hex (sb1.drop 2), _parse_2hex (sb1.drop 4),
          _parse_2hex (sb1.drop 6) with
      | some r, some g, some b, some a => some ⟨r, g, b, a⟩
      | _, _, _, _ => none
    else none
  else none

/-- What a call of `termio_color_find` leaves behind: `found` is the returned
value, `color` and `span` are what was stored through the out-parameters
(`none` when they are not written), `lock` is the lock counter. -/
structure ColorRet where
  found : Bool
  color : Option Rgba
  span : Option Span
  lock : Int
  deriving DecidableEq, Repr

/-- Lines 782-844 of `termio_color_find`: the parse, then the label `end`. -/
def color_out (sc : Int) (st : ColorSt) (lock : Int) : ColorRet :=
  match color_parse st.sb with
  | none => ⟨false, none, none, termpty_backlog_unlock lock⟩
  | some c =>
    ⟨true, some c, some ⟨st.x1, st.y1 + sc, st.x2, st.y2 + sc⟩, termpty_backlog_unlock lock⟩

/-- `termio_color_find` (lines 690-844), called with non-NULL out-parameters
and the lock counter `lock`. -/
def termio_color_find (obj : Termio) (fuel : Nat) (cx cy : Int) (lock : Int) :
    Outcome ColorRet :=
  match obj.pty with
  | none => Outcome.done ⟨false, none, none, lock⟩
  | some ty =>
    if obj.w ≤ 0 ∨ obj.h ≤ 0 then
      Outcome.done ⟨false, none, none, termpty_backlog_unlock lock⟩
    else
      match color_scan ty fuel cx (cy - obj.scroll) with
      | Outcome.oob => Outcome.oob
      | Outcome.fuel => Outcome.fuel
      | Outcome.done none =>
        Outcome.done ⟨false, none, none, termpty_backlog_unlock (termpty_backlog_lock lock)⟩
      | Outcome.done (some st) =>
        Outcome.done (color_out obj.scroll st (termpty_backlog_lock lock))

/-! ## Concrete grids used by the examples -/

/-- A cell holding the codepoint `c` with no attribute set. -/
def mkcell (c : Nat) : Termcell := ⟨c, false, false, 0⟩

/-- A row holding the text `s`, one cell per byte, of width `s.length`. -/
def textrow (s : String) : Cellrow := ⟨(bytes s).map mkcell, s.length⟩

/-- A terminal of screen width `w` whose screen rows are `rows` (row `y` is
`rows[y]`), with no backlog. -/
def screen_pty (w : Int) (rows : List Cellrow) : Termpty :=
  ⟨w, fun y => if 0 ≤ y then rows.get? y.toNat else none⟩

/-- A widget of size `w x h` without scroll showing `screen_pty w rows`. -/
def screen (w h : Int) (rows : List Cellrow) : Termio :=
  { pty := some (screen_pty w rows), w := w, h := h, scroll := 0, cwd := none, home := none }

/-- The row `"http://a/b"` of the quoted-token example: a double quote, the ten
cells of `http://a/b`, a double quote; width 12. -/
def quoted_row : Cellrow :=
  ⟨mkcell 34 :: ((bytes "http://a/b").map mkcell ++ [mkcell 34]), 12⟩

/-- The row ` (www.a.org) ` : a space, `(`, the nine cells of `www.a.org`, `)`,
a space; width 13. -/
def paren_row : Cellrow :=
  ⟨mkcell 32 :: mkcell 40 :: ((bytes "www.a.org").map mkcell ++ [mkcell 41, mkcell 32]), 13⟩


/-- First row of the soft-wrapped example, as wide as the screen (8): a space,
then `http://` whose last cell carries the autowrapped flag. -/
def wrap_row1 : Cellrow :=
  ⟨mkcell 32 :: ((bytes "http:/").map mkcell ++ [⟨47, false, true, 0⟩]), 8⟩

/-- Second row of the soft-wrapped example: `a/b` followed by five spaces. -/
def wrap_row2 : Cellrow := ⟨(bytes "a/b     ").map mkcell, 8⟩

/-- A widget of size `w x h` without scroll showing `screen_pty w rows`, whose
host reports the working directory `cwd`. -/
def screen_cwd (w h : Int) (rows : List Cellrow) (cwd : List Nat) : Termio :=
  { pty := some (screen_pty w rows), w := w, h := h, scroll := 0, cwd := some cwd, home := none }

/-- The row `http://a`, as wide as a screen of width 8, whose last cell carries
the autowrapped flag. -/
def lone_row : Cellrow :=
  ⟨(bytes "http://").map mkcell ++ [⟨97, false, true, 0⟩], 8⟩

/-- The row `./a\ b` followed by two spaces: a backslash in column 3 escapes
the space in column 4. -/
def esc_space_row : Cellrow := ⟨(bytes "./a" ++ 92 :: bytes " b  ").map mkcell, 8⟩

/-- The row `"a@b.c` followed by two spaces: a double quote in column 0. -/
def quote_mail_row : Cellrow := ⟨(34 :: bytes "a@b.c  ").map mkcell, 8⟩

/-- The row holding a backslash, U+2003 (em space), `h://a@b.c` and a space: the
backslash in column 0 escapes the em space in column 1. -/
def em_space_row : Cellrow := ⟨(92 :: 8195 :: bytes "h://a@b.c ").map mkcell, 12⟩

/-- A cell holding the codepoint `c` that carries the link tag `id`. -/
def tagcell (c id : Nat) : Termcell := ⟨c, false, false, id⟩

/-- The row holding a link-tagged double-width glyph (U+4E2D in column 0, its
zero-codepoint half in column 1) followed by `www.x.org`. -/
def tagged_wide_row : Cellrow :=
  ⟨Termcell.mk 0x4e2d true false 1 :: Termcell.mk 0 true false 1
    :: (bytes "www.x.org").map mkcell, 11⟩

/-- The row `http://a/b` of width 10 whose cell array goes on for five cells
beyond the width. -/
def padded_row : Cellrow := ⟨(bytes "http://a/b zzzz").map mkcell, 10⟩

/-- The row `/`, U+4E2D (a double-width glyph in column 1, its zero-codepoint
half in column 2 carrying the link tag `id`), a space. -/
def wide_glyph_row (id : Nat) : Cellrow :=
  ⟨[mkcell 47, Termcell.mk 0x4e2d true false 0, Termcell.mk 0 true false id, mkcell 32], 4⟩

/-- The row holding the text `s` between two double quotes, one cell per byte,
of width `s.length + 2`. -/
def quoted (s : String) : Cellrow :=
  ⟨mkcell 34 :: ((bytes s).map mkcell ++ [mkcell 34]), s.length + 2⟩

/-- The row holding `/a`, a backslash and `b` between two double quotes. -/
def quoted_esc_row : Cellrow :=
  ⟨mkcell 34 :: ((bytes "/a" ++ 92 :: bytes "b").map mkcell ++ [mkcell 34]), 6⟩


/-- The row holding `http://`, the double-width glyph U+4E2D with its
zero-codepoint half, and `/b` between two double quotes. -/
def quoted_wide_row : Cellrow :=
  ⟨mkcell 34 :: ((bytes "http://").map mkcell
    ++ [Termcell.mk 0x4e2d true false 0, Termcell.mk 0 true false 0]
    ++ (bytes "/b").map mkcell ++ [mkcell 34]), 13⟩

/-- The row holding a link-tagged `(`, then `www.a.org)x` and a space. -/
def tagged_paren_row : Cellrow :=
  ⟨tagcell 40 1 :: (bytes "www.a.org)x ").map mkcell, 13⟩

/-- The row holding, between two double quotes, `http://a/b` whose `a` carries
a link tag. -/
def quoted_tagged_row : Cellrow :=
  ⟨mkcell 34 :: ((bytes "http://").map mkcell ++ [tagcell 97 1] ++ (bytes "/b").map mkcell
    ++ [mkcell 34]), 12⟩

/-- The second row of a soft-wrapped example: `a`, a backslash, `b` and five
spaces. -/
def wrap_esc_row : Cellrow := ⟨(97 :: 92 :: bytes "b     ").map mkcell, 8⟩

/-! ## Spec-side vocabulary for the colour literal -/

/-- Spec side: `c` is an ASCII hex digit (`0-9`, `A-F`, `a-f`). -/
def spec_is_hex (c : Nat) : Bool :=
  (48 ≤ c && c ≤ 57) || (65 ≤ c && c ≤ 70) || (97 ≤ c && c ≤ 102)

/-- Spec side: the value of the hex digit `c`. -/
def spec_hex_value (c : Nat) : Nat :=
  if c ≤ 57 then c - 48 else if c ≤ 70 then c - 55 else c - 87

/-! ## Auxiliary predicates -/

/-- Shape of the out-parameters of a `_txt_*` call: either no text, or the
call returned 0 with the UTF-8 text of a non-zero codepoint. -/
def Txt.wf (t : Txt) : Prop :=
  t.txt = [] ∨ (t.res = 0 ∧ t.codepoint ≠ 0 ∧ t.txt = codepoint_to_utf8 t.codepoint)

/-- A cell that cannot seed a link: it is empty (codepoint 0), link-tagged, or
holds a whitespace codepoint. -/
def Termcell.blank (cell : Termcell) : Prop :=
  cell.codepoint = 0 ∨ cell.link_id ≠ 0 ∨ _isspace_unicode cell.codepoint = true

/-- The seed cell at `(x, y)` is absent, empty or whitespace: the row is absent
or has width 0, or `x` lies at or beyond the width, or the cell is blank.  The
cell looked at is `cells[x]`, or `cells[x - 1]` when `cells[x]` is the
zero-codepoint trailing half of a double-width glyph (there is none when
`x - 1 < 0`). -/
def seed_absent_empty_or_space (ty : Termpty) (x y : Int) : Prop :=
  match ty.cellrow y with
  | none => True
  | some row =>
    row.w = 0 ∨ x ≥ row.w ∨
      ∃ cell, cellAt row.cells x = some cell ∧
        ((¬ (cell.codepoint = 0 ∧ cell.dblwidth = true) ∧ cell.blank)
          ∨ (cell.codepoint = 0 ∧ cell.dblwidth = true ∧
              (x - 1 < 0 ∨ ∃ cell1, cellAt row.cells (x - 1) = some cell1 ∧ cell1.blank)))

/-! ## Vocabulary for tokens laid out on the grid -/

/-- A cell of a token: its position and its codepoint. -/
structure Tok where
  x : Int
  y : Int
  c : Nat
  deriving DecidableEq, Repr

/-- UTF-8 text of a list of codepoints. -/
def utf8_of : List Nat → List Nat
  | [] => []
  | c :: cs => codepoint_to_utf8 c ++ utf8_of cs

/-- A codepoint that both scan loops take into the token: it has a UTF-8
text, is not 0, no whitespace, no backslash, no case of the backward `switch`
and no case of the forward `switch`. -/
@[reducible]
def token_char (c : Nat) : Prop :=
  codepoint_to_utf8 c ≠ [] ∧ c ≠ 0 ∧ _isspace_unicode c = false ∧ c ≠ 92
    ∧ endmatch_of c = none ∧ forward_delim c = false

/-- The backward scan never walks past the start of a URI scheme inside the
token `cs`: whenever a window of `cs` satisfies `link_is_protocol`, so does the
window extended by the codepoint to its left. -/
@[reducible]
def no_walk_past (cs : List Nat) : Prop :=
  ∀ k < cs.length, ∀ n < cs.length,
    link_is_protocol (some (utf8_of ((cs.drop (k + 1)).take n))) = true →
    link_is_protocol (some (utf8_of ((cs.drop k).take (n + 1)))) = true

/-- The cells `toks` follow each other on the grid: `_txt_prev_at` steps from
each cell to the one before it and `_txt_next_at` from each cell to the one
after it, reading its codepoint. -/
def linked (ty : Termpty) (toks : List Tok) : Prop :=
  ∀ j, j + 1 < toks.length →
    (∀ cp, _txt_prev_at ty (toks.getD (j + 1) ⟨0, 0, 0⟩).x (toks.getD (j + 1) ⟨0, 0, 0⟩).y cp
        = some ⟨0, (toks.getD j ⟨0, 0, 0⟩).x, (toks.getD j ⟨0, 0, 0⟩).y,
            codepoint_to_utf8 (toks.getD j ⟨0, 0, 0⟩).c, (toks.getD j ⟨0, 0, 0⟩).c⟩)
    ∧ (∀ cp, _txt_next_at ty (toks.getD j ⟨0, 0, 0⟩).x (toks.getD j ⟨0, 0, 0⟩).y cp
        = some ⟨0, (toks.getD (j + 1) ⟨0, 0, 0⟩).x, (toks.getD (j + 1) ⟨0, 0, 0⟩).y,
            codepoint_to_utf8 (toks.getD (j + 1) ⟨0, 0, 0⟩).c,
            (toks.getD (j + 1) ⟨0, 0, 0⟩).c⟩)

/-- The backward scan ends at `(x, y)` leaving `endmatch1 = e1`,
`endmatch2 = e2`: the step back from `(x, y)` fails or finds no text (then
`e1 = e2 = 0`), or finds whitespace that no backslash precedes (then
`e1 = e2 = 0`), or finds an opening delimiter whose closing delimiters are `e1`
and `e2`. -/
def back_end (ty : Termpty) (x y : Int) (e1 e2 : Nat) : Prop :=
  ∀ cp, ∃ t, _txt_prev_at ty x y cp = some t ∧
    (((t.res ≠ 0 ∨ t.txt.length = 0) ∧ e1 = 0 ∧ e2 = 0)
      ∨ (t.res = 0 ∧ t.txt.length ≠ 0 ∧ _isspace_unicode t.codepoint = true ∧ e1 = 0 ∧ e2 = 0
          ∧ ∃ t2, _txt_prev_at ty t.x t.y t.codepoint = some t2
              ∧ (t2.res ≠ 0 ∨ t2.txt.length = 0 ∨ t2.codepoint ≠ 92))
      ∨ (t.res = 0 ∧ t.txt.length ≠ 0 ∧ _isspace_unicode t.codepoint = false
          ∧ endmatch_of t.codepoint = some (e1, e2)))

/-- The forward scan ends at `(x, y)` when `endmatch1 = e1`, `endmatch2 = e2`:
the step forward from `(x, y)` fails or finds no text, or finds whitespace, one
of `e1`, `e2`, or a member of the forward delimiter set. -/
def fwd_end (ty : Termpty) (x y : Int) (e1 e2 : Nat) : Prop :=
  ∀ cp, ∃ t, _txt_next_at ty x y cp = some t ∧
    (t.res ≠ 0 ∨ t.txt.length = 0
      ∨ (t.codepoint ≠ 92 ∧ (_isspace_unicode t.codepoint = true ∨ t.codepoint = e1
          ∨ t.codepoint = e2 ∨ forward_delim t.codepoint = true)))

/-- The buffer `sb` passes the validation of `termio_link_find` and is returned
as it is: it satisfies `link_is_file`, `link_is_email` or `link_is_url`, and
when it satisfies `link_is_file` it starts with `/` (no path resolution). -/
@[reducible]
def returned_raw (sb : List Nat) : Prop :=
  (link_is_file (some sb) = true ∨ link_is_email (some sb) = true
      ∨ link_is_url (some sb) = true)
    ∧ (link_is_file (some sb) = true → charAt sb 0 = 47)

/-- The token cells of the row cells `cells` laid from column `x0` of row `y`
on. -/
def row_toks (x0 y : Int) : List Termcell → List Tok
  | [] => []
  | c :: cs => ⟨x0, y, c.codepoint⟩ :: row_toks (x0 + 1) y cs


/-- The grid `ty` with the row `r` replaced by `v`. -/
def Termpty.set_row (ty : Termpty) (r : Int) (v : Option Cellrow) : Termpty :=
  ⟨ty.w, fun k => if k = r then v else ty.cellrow k⟩

/-- The widget `obj` showing the grid `ty`. -/
def Termio.with_pty (obj : Termio) (ty : Termpty) : Termio :=
  ⟨some ty, obj.w, obj.h, obj.scroll, obj.cwd, obj.home⟩

/-- The buffer `sb` assembled by a scan that reached the label `out`. -/
def scan_sb (r : Outcome (Option LinkSt)) : Option (List Nat) :=
  match r with
  | Outcome.done (some st) => some st.sb
  | _ => none

/-! ## Reading the cells of a span (spec side) -/

/-- The grid has finitely many present rows: `termpty_cellrow_get` returns NULL
outside a finite range of `y`. -/
def finite_rows (ty : Termpty) : Prop :=
  ∃ lo hi : Int, ∀ y, y < lo ∨ hi < y → ty.cellrow y = none

/-- The local variables of `termio_link_find` when the backward loop starts,
for the seed `(cx, cy)` whose call of `_txt_at` left `t`. -/
def link_seed (t : Txt) (cx cy : Int) : LinkSt :=
  { sb := ty_sb_add [] t.txt, x1 := t.x, y1 := t.y, x2 := cx, y2 := cy,
    endmatch1 := 0, endmatch2 := 0, was_protocol := false, escaped := false,
    codepoint := t.codepoint }

/-- The local variables of `termio_color_find` when the backward loop starts. -/
def color_seed (t : Txt) (cx cy : Int) : ColorSt :=
  { sb := ty_sb_add [] t.txt, x1 := t.x, y1 := t.y, x2 := cx, y2 := cy,
    codepoint := t.codepoint }

/-! ## Vocabulary for the buffer, link tags and row bounds -/

/-- Spec side: the bytes `sb` are a concatenation of whole UTF-8 encoded
codepoints. -/
def whole_codepoints (sb : List Nat) : Prop := ∃ cs : List Nat, sb = utf8_of cs

/-- Every present row has at least `real_width` cells: its width `w` is a
count of cells (`0 ≤ w`) and the cell array holds at least `w` cells. -/
def rows_hold (ty : Termpty) : Prop :=
  ∀ y row, ty.cellrow y = some row → 0 ≤ row.w ∧ row.w ≤ row.cells.length

/-- The row cut to its first `w` cells: a read at an index outside `[0, w)`
finds no cell. -/
def Cellrow.trim (row : Cellrow) : Cellrow := ⟨row.cells.take row.w.toNat, row.w⟩

/-- The grid with every row cut to its first `w` cells. -/
def Termpty.trim (ty : Termpty) : Termpty :=
  ⟨ty.w, fun y => (ty.cellrow y).map Cellrow.trim⟩

/-! ## Shared lemmas on the classifiers -/

theorem bytes_www : bytes "www." = [119, 119, 119, 46] := by decide

theorem bytes_ftp : bytes "ftp." = [102, 116, 112, 46] := by decide

theorem bytes_mailto : bytes "mailto:" = [109, 97, 105, 108, 116, 111, 58] := by decide

theorem casestartswith_www (s : List Nat) :
    casestartswith s (bytes "www.") = true ↔ (s.take 4).map tolower = bytes "www." := by
  rw [bytes_www]
  rcases s with _ | ⟨a, _ | ⟨b, _ | ⟨c, _ | ⟨d, rest⟩⟩⟩⟩ <;>
    simp [casestartswith, charAt, List.range, List.range.loop, tolower]

theorem casestartswith_ftp (s : List Nat) :
    casestartswith s (bytes "ftp.") = true ↔ (s.take 4).map tolower = bytes "ftp." := by
  rw [bytes_ftp]
  rcases s with _ | ⟨a, _ | ⟨b, _ | ⟨c, _ | ⟨d, rest⟩⟩⟩⟩ <;>
    simp [casestartswith, charAt, List.range, List.range.loop, tolower]

theorem casestartswith_mailto (s : List Nat) :
    casestartswith s (bytes "mailto:") = true ↔ (s.take 7).map tolower = bytes "mailto:" := by
  rw [bytes_mailto]
  rcases s with _ | ⟨a, _ | ⟨b, _ | ⟨c, _ | ⟨d, _ | ⟨e, _ | ⟨f, _ | ⟨g, rest⟩⟩⟩⟩⟩⟩⟩ <;>
    simp [casestartswith, charAt, List.range, List.range.loop, tolower]

theorem strlen_nil : strlen [] = 0 := rfl

theorem strlen_cons_zero (xs : List Nat) : strlen (0 :: xs) = 0 := by
  simp [strlen, List.takeWhile]

theorem strlen_cons_ne (x : Nat) (xs : List Nat) (h : x ≠ 0) :
    strlen (x :: xs) = strlen xs + 1 := by
  simp [strlen, List.takeWhile_cons, h]

theorem charAt_cons_zero (x : Nat) (xs : List Nat) : charAt (x :: xs) 0 = x := rfl

theorem charAt_cons_succ (x : Nat) (xs : List Nat) (i : Nat) :
    charAt (x :: xs) (i + 1) = charAt xs i := by
  simp [charAt]

/-- `strchr` finds a byte exactly when the byte occurs before the terminator. -/
theorem strchr_isSome_iff (c : Nat) (hc : c ≠ 0) (s : List Nat) :
    (strchr s c).isSome = true ↔ ∃ j, j < strlen s ∧ charAt s j = c := by
  induction s with
  | nil => simp [strchr, strlen]
  | cons x xs ih =>
    by_cases hx : x = c
    · subst hx
      simp only [strchr, if_true, Option.isSome_some, true_iff]
      exact ⟨0, by rw [strlen_cons_ne x xs hc]; omega, rfl⟩
    · by_cases h0 : x = 0
      · subst h0
        simp [strchr, hx, strlen_cons_zero]
      · simp only [strchr, hx, h0, if_false]
        rw [ih, strlen_cons_ne x xs h0]
        constructor
        · rintro ⟨j, hj, hcj⟩
          exact ⟨j + 1, by omega, by rw [charAt_cons_succ]; exact hcj⟩
        · rintro ⟨j, hj, hcj⟩
          cases j with
          | zero => exact absurd hcj hx
          | succ j => exact ⟨j, by omega, by rw [charAt_cons_succ] at hcj; exact hcj⟩

/-- The `strchr` pair of `link_is_email` succeeds exactly when some `'@'` is
followed, later in the string, by a `'.'`. -/
theorem strchr_at_dot_iff (s : List Nat) :
    (match strchr s 64 with
      | some (_ :: at1) => (strchr at1 46).isSome
      | _ => false) = true
    ↔ ∃ i j, i < j ∧ j < strlen s ∧ charAt s i = 64 ∧ charAt s j = 46 := by
  induction s with
  | nil => simp [strchr, strlen]
  | cons x xs ih =>
    by_cases hx : x = 64
    · subst hx
      simp only [strchr, if_true]
      rw [strchr_isSome_iff 46 (by decide), strlen_cons_ne 64 xs (by decide)]
      constructor
      · rintro ⟨j, hj, hcj⟩
        exact ⟨0, j + 1, by omega, by omega, rfl, by rw [charAt_cons_succ]; exact hcj⟩
      · rintro ⟨i, j, hij, hj, _, hcj⟩
        cases j with
        | zero => omega
        | succ j => exact ⟨j, by omega, by rw [charAt_cons_succ] at hcj; exact hcj⟩
    · by_cases h0 : x = 0
      · subst h0
        simp [strchr, strlen_cons_zero]
      · simp only [strchr, hx, h0, if_false]
        rw [ih, strlen_cons_ne x xs h0]
        constructor
        · rintro ⟨i, j, hij, hj, hci, hcj⟩
          exact ⟨i + 1, j + 1, by omega, by omega, by rw [charAt_cons_succ]; exact hci,
            by rw [charAt_cons_succ]; exact hcj⟩
        · rintro ⟨i, j, hij, hj, hci, hcj⟩
          cases i with
          | zero => exact absurd hci hx
          | succ i =>
            cases j with
            | zero => omega
            | succ j =>
              rw [charAt_cons_succ] at hci hcj
              exact ⟨i, j, by omega, by omega, hci, hcj⟩

/-! ## The classifiers (C1 - C4) -/

/-- C1 (fails on the code): `link_is_protocol` rejects a scheme that holds a
digit, although the grammar quoted in its comment
(`scheme = ALPHA *( ALPHA / DIGIT / "+" / "-" / "." )`) admits it: the loop
condition tests `isalpha`, `'.'`, `'-'`, `'+'` only.  For `"s3://bucket"` and
`"h2://x"` the function returns false, while on the same strings with a letter
in place of the digit it returns true. -/
theorem link_is_protocol_rejects_digit_scheme :
    link_is_protocol (some (bytes "s3://bucket")) = false
    ∧ link_is_protocol (some (bytes "h2://x")) = false
    ∧ link_is_protocol (some (bytes "sx://bucket")) = true
    ∧ link_is_protocol (some (bytes "a+b-c.d://x")) = true := by
  decide

/-- C2: `link_is_url(s)` is true exactly when `link_is_protocol(s)` is true or
`s` starts with `"www."` or `"ftp."` compared case-insensitively; so it is true
for `"http://x"`, `"www.x"`, `"WWW.x"`, `"ftp.x"` and false for `"x"`. -/
theorem link_is_url_iff :
    (∀ s : List Nat, link_is_url (some s) = true ↔
      (link_is_protocol (some s) = true ∨ (s.take 4).map tolower = bytes "www."
        ∨ (s.take 4).map tolower = bytes "ftp."))
    ∧ link_is_url (some (bytes "http://x")) = true
    ∧ link_is_url (some (bytes "www.x")) = true
    ∧ link_is_url (some (bytes "WWW.x")) = true
    ∧ link_is_url (some (bytes "ftp.x")) = true
    ∧ link_is_url (some (bytes "x")) = false := by
  refine ⟨fun s => ?_, by decide, by decide, by decide, by decide, by decide⟩
  rw [← casestartswith_www, ← casestartswith_ftp]
  simp only [link_is_url]
  cases link_is_protocol (some s) <;> cases casestartswith s (bytes "www.") <;>
    cases casestartswith s (bytes "ftp.") <;> simp

/-- C3: `link_is_email(s)` is true exactly when the string holds an `'@'` at
some position `i` and a `'.'` at some later position `j` (any `'@'`, not only
the first), or starts with `"mailto:"` compared case-insensitively; so it is
true for `"a@b.com"` and `"mailto:a"` and false for `"noat"`. -/
theorem link_is_email_iff :
    (∀ s : List Nat, link_is_email (some s) = true ↔
      ((∃ i j, i < j ∧ j < strlen s ∧ charAt s i = 64 ∧ charAt s j = 46)
        ∨ (s.take 7).map tolower = bytes "mailto:"))
    ∧ link_is_email (some (bytes "a@b.com")) = true
    ∧ link_is_email (some (bytes "mailto:a")) = true
    ∧ link_is_email (some (bytes "noat")) = false := by
  refine ⟨fun s => ?_, by decide, by decide, by decide⟩
  rw [← casestartswith_mailto, ← strchr_at_dot_iff]
  simp only [link_is_email]
  rcases strchr s 64 with _ | _ | ⟨x, at1⟩
  · cases casestartswith s (bytes "mailto:") <;> simp
  · cases casestartswith s (bytes "mailto:") <;> simp
  · cases (strchr at1 46).isSome <;> cases casestartswith s (bytes "mailto:") <;> simp

/-- C4: `link_is_file(s)` is true exactly when `s` starts with `"/"`, `"~/"`,
`"./"` or `"../"`; so it is true for `"/a"`, `"~/a"`, `"./a"`, `"../a"` and
false for `"a"`, `"~a"`, `".a"`, `".."` and the empty string. -/
theorem link_is_file_iff :
    (∀ s : List Nat, link_is_file (some s) = true ↔
      (bytes "/" <+: s ∨ bytes "~/" <+: s ∨ bytes "./" <+: s ∨ bytes "../" <+: s))
    ∧ link_is_file (some (bytes "/a")) = true
    ∧ link_is_file (some (bytes "~/a")) = true
    ∧ link_is_file (some (bytes "./a")) = true
    ∧ link_is_file (some (bytes "../a")) = true
    ∧ link_is_file (some (bytes "a")) = false
    ∧ link_is_file (some (bytes "~a")) = false
    ∧ link_is_file (some (bytes ".a")) = false
    ∧ link_is_file (some (bytes "..")) = false
    ∧ link_is_file (some (bytes "")) = false := by
  refine ⟨fun s => ?_, by decide, by decide, by decide, by decide, by decide, by decide,
    by decide, by decide, by decide⟩
  have h1 : bytes "/" = [47] := by decide
  have h2 : bytes "~/" = [126, 47] := by decide
  have h3 : bytes "./" = [46, 47] := by decide
  have h4 : bytes "../" = [46, 46, 47] := by decide
  rw [h1, h2, h3, h4]
  rcases s with _ | ⟨a, _ | ⟨b, _ | ⟨c, rest⟩⟩⟩ <;>
    simp [link_is_file, charAt, List.cons_prefix_cons]
  all_goals first | omega | (split_ifs <;> omega)

/-! ## Shared lemmas on the colour parse -/

theorem parse_hex_of_hex (c : Nat) (h : spec_is_hex c = true) :
    _parse_hex c = some (spec_hex_value c) ∧ spec_hex_value c < 16 := by
  simp only [spec_is_hex, Bool.or_eq_true, Bool.and_eq_true, decide_eq_true_eq] at h
  unfold _parse_hex spec_hex_value
  constructor
  · split_ifs <;> first | omega | (simp only [Option.some.injEq]; omega)
  · split_ifs <;> omega

theorem parse_hex_isSome_iff (c : Nat) : (_parse_hex c).isSome = true ↔ spec_is_hex c = true := by
  simp only [spec_is_hex, Bool.or_eq_true, Bool.and_eq_true, decide_eq_true_eq]
  unfold _parse_hex
  split_ifs <;> simp <;> omega

theorem shl4_mod (v : Nat) (h : v < 16) : (v <<< 4) % 256 = 16 * v := by
  rw [Nat.shiftLeft_eq]; omega

theorem shl4_lor_mod : ∀ v0 < 16, ∀ v1 < 16, (v0 <<< 4 ||| v1) % 256 = 16 * v0 + v1 := by
  decide

theorem parse_2hex_of_hex (a b : Nat) (rest : List Nat) (ha : spec_is_hex a = true)
    (hb : spec_is_hex b = true) :
    _parse_2hex (a :: b :: rest) = some (16 * spec_hex_value a + spec_hex_value b) := by
  obtain ⟨pa, la⟩ := parse_hex_of_hex a ha
  obtain ⟨pb, lb⟩ := parse_hex_of_hex b hb
  simp only [_parse_2hex, charAt, List.getD_cons_zero, List.getD_cons_succ, pa, pb]
  rw [shl4_lor_mod _ la _ lb]

theorem parse_2hex_isSome_iff (a b : Nat) (rest : List Nat) :
    (_parse_2hex (a :: b :: rest)).isSome = true
      ↔ (spec_is_hex a = true ∧ spec_is_hex b = true) := by
  rw [← parse_hex_isSome_iff, ← parse_hex_isSome_iff]
  simp only [_parse_2hex, charAt, List.getD_cons_zero, List.getD_cons_succ]
  cases _parse_hex a <;> cases _parse_hex b <;> simp

/-- What `color_parse` computes on `#` followed by three hex digits. -/
theorem color_parse_3 (h0 h1 h2 : Nat) (a0 : spec_is_hex h0 = true)
    (a1 : spec_is_hex h1 = true) (a2 : spec_is_hex h2 = true) :
    color_parse [35, h0, h1, h2]
      = some ⟨spec_hex_value h0 * 16, spec_hex_value h1 * 16, spec_hex_value h2 * 16, 255⟩ := by
  obtain ⟨p0, l0⟩ := parse_hex_of_hex h0 a0
  obtain ⟨p1, l1⟩ := parse_hex_of_hex h1 a1
  obtain ⟨p2, l2⟩ := parse_hex_of_hex h2 a2
  simp [color_parse, ty_sb_lskip, charAt, p0, p1, p2, shl4_mod _ l0, shl4_mod _ l1,
    shl4_mod _ l2, Nat.mul_comm]

/-- What `color_parse` computes on `#` followed by four hex digits. -/
theorem color_parse_4 (h0 h1 h2 h3 : Nat) (a0 : spec_is_hex h0 = true)
    (a1 : spec_is_hex h1 = true) (a2 : spec_is_hex h2 = true) (a3 : spec_is_hex h3 = true) :
    color_parse [35, h0, h1, h2, h3]
      = some ⟨spec_hex_value h0 * 16, spec_hex_value h1 * 16, spec_hex_value h2 * 16,
          spec_hex_value h3 * 16⟩ := by
  obtain ⟨p0, l0⟩ := parse_hex_of_hex h0 a0
  obtain ⟨p1, l1⟩ := parse_hex_of_hex h1 a1
  obtain ⟨p2, l2⟩ := parse_hex_of_hex h2 a2
  obtain ⟨p3, l3⟩ := parse_hex_of_hex h3 a3
  simp [color_parse, ty_sb_lskip, charAt, p0, p1, p2, p3, shl4_mod _ l0, shl4_mod _ l1,
    shl4_mod _ l2, shl4_mod _ l3, Nat.mul_comm]

/-- What `color_parse` computes on `#` followed by six hex digits. -/
theorem color_parse_6 (h0 h1 h2 h3 h4 h5 : Nat) (a0 : spec_is_hex h0 = true)
    (a1 : spec_is_hex h1 = true) (a2 : spec_is_hex h2 = true) (a3 : spec_is_hex h3 = true)
    (a4 : spec_is_hex h4 = true) (a5 : spec_is_hex h5 = true) :
    color_parse [35, h0, h1, h2, h3, h4, h5]
      = some ⟨16 * spec_hex_value h0 + spec_hex_value h1,
          16 * spec_hex_value h2 + spec_hex_value h3,
          16 * spec_hex_value h4 + spec_hex_value h5, 255⟩ := by
  simp [color_parse, ty_sb_lskip, charAt_cons_zero, parse_2hex_of_hex, a0, a1, a2, a3, a4, a5]

/-- What `color_parse` computes on `#` followed by eight hex digits. -/
theorem color_parse_8 (h0 h1 h2 h3 h4 h5 h6 h7 : Nat) (a0 : spec_is_hex h0 = true)
    (a1 : spec_is_hex h1 = true) (a2 : spec_is_hex h2 = true) (a3 : spec_is_hex h3 = true)
    (a4 : spec_is_hex h4 = true) (a5 : spec_is_hex h5 = true) (a6 : spec_is_hex h6 = true)
    (a7 : spec_is_hex h7 = true) :
    color_parse [35, h0, h1, h2, h3, h4, h5, h6, h7]
      = some ⟨16 * spec_hex_value h0 + spec_hex_value h1,
          16 * spec_hex_value h2 + spec_hex_value h3,
          16 * spec_hex_value h4 + spec_hex_value h5,
          16 * spec_hex_value h6 + spec_hex_value h7⟩ := by
  simp [color_parse, ty_sb_lskip, charAt_cons_zero, parse_2hex_of_hex, a0, a1, a2, a3, a4, a5, a6, a7]

/-- `termio_color_find` once the scan has returned its state. -/
theorem termio_color_find_of_scan (obj : Termio) (ty : Termpty) (fuel : Nat) (cx cy lock : Int)
    (st : ColorSt) (hpty : obj.pty = some ty) (hw : 0 < obj.w) (hh : 0 < obj.h)
    (hscan : color_scan ty fuel cx (cy - obj.scroll) = Outcome.done (some st)) :
    termio_color_find obj fuel cx cy lock
      = Outcome.done (color_out obj.scroll st (termpty_backlog_lock lock)) := by
  have h1 : ¬ (obj.w ≤ 0 ∨ obj.h ≤ 0) := by omega
  simp [termio_color_find, hpty, h1, hscan]

/-! ## Shared lemmas on the cell walker -/

theorem Txt.wf_bad (x y : Int) (cp : Nat) : (Txt.bad x y cp).wf := Or.inl rfl

theorem Txt.wf_empty (x y : Int) : (Txt.empty x y).wf := Or.inl rfl

theorem Txt.wf_ofCell (cell : Termcell) (x y : Int) : (Txt.ofCell cell x y).wf := by
  unfold Txt.ofCell
  split_ifs with h
  · exact Txt.wf_empty x y
  · right
    refine ⟨rfl, ?_, rfl⟩
    intro h0
    exact h (Or.inl h0)

theorem prev_tail_wf (cells : List Termcell) (cell : Termcell) (x y : Int) (cp : Nat) (t : Txt)
    (h : prev_tail cells cell x y cp = some t) : t.wf := by
  unfold prev_tail at h
  repeat' split at h
  all_goals first
    | (cases h; first | exact Txt.wf_bad _ _ _ | exact Txt.wf_empty _ _ | exact Txt.wf_ofCell _ _ _)
    | cases h

theorem next_tail_wf (ty : Termpty) (cells : List Termcell) (w x y : Int) (cp : Nat) (t : Txt)
    (h : next_tail ty cells w x y cp = some t) : t.wf := by
  unfold next_tail at h
  repeat' split at h
  all_goals first
    | (cases h; first | exact Txt.wf_bad _ _ _ | exact Txt.wf_empty _ _ | exact Txt.wf_ofCell _ _ _)
    | cases h

theorem txt_at_wf (ty : Termpty) (x y : Int) (cp : Nat) (t : Txt)
    (h : _txt_at ty x y cp = some t) : t.wf := by
  unfold _txt_at at h
  repeat' split at h
  all_goals first
    | (cases h; first | exact Txt.wf_bad _ _ _ | exact Txt.wf_empty _ _ | exact Txt.wf_ofCell _ _ _)
    | cases h

theorem txt_prev_at_wf (ty : Termpty) (x y : Int) (cp : Nat) (t : Txt)
    (h : _txt_prev_at ty x y cp = some t) : t.wf := by
  unfold _txt_prev_at at h
  repeat' split at h
  all_goals first
    | exact prev_tail_wf _ _ _ _ _ _ h
    | (cases h; first | exact Txt.wf_bad _ _ _ | exact Txt.wf_empty _ _ | exact Txt.wf_ofCell _ _ _)
    | cases h

theorem txt_next_at_wf (ty : Termpty) (x y : Int) (cp : Nat) (t : Txt)
    (h : _txt_next_at ty x y cp = some t) : t.wf := by
  unfold _txt_next_at at h
  simp only at h
  repeat' split at h
  all_goals first
    | exact next_tail_wf _ _ _ _ _ _ _ h
    | (cases h; first | exact Txt.wf_bad _ _ _ | exact Txt.wf_empty _ _ | exact Txt.wf_ofCell _ _ _)
    | cases h

/-- The text of an accepted colour character is that one byte. -/
theorem txt_of_authorized (t : Txt) (hwf : t.wf) (hlen : ¬ t.txt.length = 0)
    (ha : _is_authorized_in_color t.codepoint = true) : t.txt = [t.codepoint] := by
  rcases hwf with h | ⟨_, _, h⟩
  · simp [h] at hlen
  · rw [h]
    have : t.codepoint < 128 := by
      simp only [_is_authorized_in_color, List.mem_cons, List.mem_singleton,
        decide_eq_true_eq, List.not_mem_nil, or_false] at ha
      omega
    simp [codepoint_to_utf8, this]

/-! ## Shared lemmas on the colour scan -/

theorem lskip_prepend (sb txt : List Nat) :
    ty_sb_lskip (ty_sb_prepend sb txt) txt.length = sb := by
  simp [ty_sb_lskip, ty_sb_prepend]

theorem color_goback_iter_auth (ty : Termpty) (st : ColorSt) (it : ColorIter)
    (hst : ∀ c ∈ st.sb, _is_authorized_in_color c = true)
    (h : color_goback_iter ty st = some it) :
    ∀ c ∈ (match it with | ColorIter.brk s => s.sb | ColorIter.cont s => s.sb),
      _is_authorized_in_color c = true := by
  unfold color_goback_iter at h
  split at h
  · cases h
  · rename_i t ht
    have hwf := txt_prev_at_wf _ _ _ _ _ ht
    split_ifs at h with h1 h2
    · cases h; exact hst
    · cases h
      simp only [lskip_prepend]
      exact hst
    · cases h
      have ha : _is_authorized_in_color t.codepoint = true := by simpa using h2
      have h3 : ¬ t.txt.length = 0 := fun h0 => h1 (Or.inr h0)
      simp only [ty_sb_prepend, txt_of_authorized t hwf h3 ha]
      intro c hc
      rcases List.mem_append.1 hc with hc | hc
      · rw [List.mem_singleton.1 hc]; exact ha
      · exact hst c hc

theorem color_goback_auth (ty : Termpty) :
    ∀ (fuel : Nat) (st st1 : ColorSt), (∀ c ∈ st.sb, _is_authorized_in_color c = true) →
      color_goback ty fuel st = Outcome.done st1 →
      ∀ c ∈ st1.sb, _is_authorized_in_color c = true := by
  intro fuel
  induction fuel with
  | zero => intro st st1 _ h; simp [color_goback] at h
  | succ n ih =>
    intro st st1 hst h
    unfold color_goback at h
    split at h
    · cases h
    · rename_i s hi
      cases h
      exact color_goback_iter_auth ty st _ hst hi
    · rename_i s hi
      exact ih s st1 (color_goback_iter_auth ty st _ hst hi) h

theorem color_goforward_iter_auth (ty : Termpty) (st : ColorSt) (it : ColorIter)
    (hst : ∀ c ∈ st.sb, _is_authorized_in_color c = true)
    (h : color_goforward_iter ty st = some it) :
    ∀ c ∈ (match it with | ColorIter.brk s => s.sb | ColorIter.cont s => s.sb),
      _is_authorized_in_color c = true := by
  unfold color_goforward_iter at h
  split at h
  · cases h
  · rename_i t ht
    have hwf := txt_next_at_wf _ _ _ _ _ ht
    split_ifs at h with h1 h2
    · cases h; exact hst
    · cases h; exact hst
    · cases h
      have ha : _is_authorized_in_color t.codepoint = true := by simpa using h2
      have h3 : ¬ t.txt.length = 0 := fun h0 => h1 (Or.inr h0)
      simp only [ty_sb_add, txt_of_authorized t hwf h3 ha]
      intro c hc
      rcases List.mem_append.1 hc with hc | hc
      · exact hst c hc
      · rw [List.mem_singleton.1 hc]; exact ha

theorem color_goforward_auth (ty : Termpty) :
    ∀ (fuel : Nat) (st st1 : ColorSt), (∀ c ∈ st.sb, _is_authorized_in_color c = true) →
      color_goforward ty fuel st = Outcome.done st1 →
      ∀ c ∈ st1.sb, _is_authorized_in_color c = true := by
  intro fuel
  induction fuel with
  | zero => intro st st1 _ h; simp [color_goforward] at h
  | succ n ih =>
    intro st st1 hst h
    unfold color_goforward at h
    split at h
    · cases h
    · rename_i s hi
      cases h
      exact color_goforward_iter_auth ty st _ hst hi
    · rename_i s hi
      exact ih s st1 (color_goforward_iter_auth ty st _ hst hi) h

/-- The buffer assembled by the colour scan holds colour-alphabet bytes only
and is not empty. -/
theorem color_scan_auth (ty : Termpty) (fuel : Nat) (cx cy : Int) (st : ColorSt)
    (h : color_scan ty fuel cx cy = Outcome.done (some st)) :
    ∀ c ∈ st.sb, _is_authorized_in_color c = true := by
  unfold color_scan at h
  split at h
  · cases h
  · rename_i t ht
    have hwf := txt_at_wf _ _ _ _ _ ht
    by_cases h1 : t.res ≠ 0 ∨ t.txt.length = 0
    · rw [if_pos h1] at h; cases h
    by_cases h2 : _is_authorized_in_color t.codepoint = false
    · rw [if_neg h1, if_pos h2] at h; cases h
    rw [if_neg h1, if_neg h2] at h
    have ha : _is_authorized_in_color t.codepoint = true := by simpa using h2
    have h3 : ¬ t.txt.length = 0 := fun h0 => h1 (Or.inr h0)
    have h0 : ∀ c ∈ ty_sb_add [] t.txt, _is_authorized_in_color c = true := by
      simp only [ty_sb_add, txt_of_authorized t hwf h3 ha, List.nil_append,
        List.mem_singleton]
      intro c hc; rw [hc]; exact ha
    simp only at h
    split at h
    · cases h
    · cases h
    · rename_i st1 hb
      split at h
      · cases h
      · cases h
      · rename_i st2 hf
        cases h
        exact color_goforward_auth ty fuel st1 st
          (color_goback_auth ty fuel _ st1 h0 hb) hf

/-- `color_parse` succeeds exactly on `#` followed by 3, 4, 6 or 8 hex digits. -/
theorem color_parse_isSome_iff (sb : List Nat) :
    (color_parse sb).isSome = true ↔
      ∃ h, sb = 35 :: h ∧ (h.length = 3 ∨ h.length = 4 ∨ h.length = 6 ∨ h.length = 8)
        ∧ ∀ c ∈ h, spec_is_hex c = true := by
  rcases sb with _ | ⟨c0, h⟩
  · simp [color_parse]
  · by_cases hc : c0 = 35
    · subst hc
      rcases h with _ | ⟨a0, _ | ⟨a1, _ | ⟨a2, _ | ⟨a3, _ | ⟨a4, _ | ⟨a5, _ | ⟨a6, _ |
        ⟨a7, _ | ⟨a8, rest⟩⟩⟩⟩⟩⟩⟩⟩⟩
      · simp [color_parse, ty_sb_lskip, charAt]
      · simp [color_parse, ty_sb_lskip, charAt]
      · simp [color_parse, ty_sb_lskip, charAt]
      · simp only [color_parse, ty_sb_lskip, charAt, List.length_cons, List.length_nil,
          List.drop_succ_cons, List.drop_zero, List.getD_cons_zero, List.getD_cons_succ,
          List.mem_cons, List.mem_singleton, List.not_mem_nil, or_false,
          forall_eq_or_imp, forall_eq, ← parse_hex_isSome_iff]
        rcases h0 : _parse_hex a0 with _ | v0 <;> rcases h1 : _parse_hex a1 with _ | v1 <;>
          rcases h2 : _parse_hex a2 with _ | v2 <;> simp [h0, h1, h2]
      · simp only [color_parse, ty_sb_lskip, charAt, List.length_cons, List.length_nil,
          List.drop_succ_cons, List.drop_zero, List.getD_cons_zero, List.getD_cons_succ,
          List.mem_cons, List.mem_singleton, List.not_mem_nil, or_false,
          forall_eq_or_imp, forall_eq, ← parse_hex_isSome_iff]
        rcases h0 : _parse_hex a0 with _ | v0 <;> rcases h1 : _parse_hex a1 with _ | v1 <;>
          rcases h2 : _parse_hex a2 with _ | v2 <;> rcases h3 : _parse_hex a3 with _ | v3 <;>
          simp [h0, h1, h2, h3]
      · simp [color_parse, ty_sb_lskip, charAt]
      · have e0 := parse_2hex_isSome_iff a0 a1 [a2, a3, a4, a5]
        have e1 := parse_2hex_isSome_iff a2 a3 [a4, a5]
        have e2 := parse_2hex_isSome_iff a4 a5 []
        simp only [color_parse, ty_sb_lskip, charAt, List.length_cons, List.length_nil,
          List.drop_succ_cons, List.drop_zero, List.getD_cons_zero]
        cases h0 : _parse_2hex [a0, a1, a2, a3, a4, a5] <;>
          cases h1 : _parse_2hex [a2, a3, a4, a5] <;>
          cases h2 : _parse_2hex [a4, a5] <;>
          simp [h0, h1, h2] at e0 e1 e2 ⊢ <;> simp_all
      · simp [color_parse, ty_sb_lskip, charAt]
      · have e0 := parse_2hex_isSome_iff a0 a1 [a2, a3, a4, a5, a6, a7]
        have e1 := parse_2hex_isSome_iff a2 a3 [a4, a5, a6, a7]
        have e2 := parse_2hex_isSome_iff a4 a5 [a6, a7]
        have e3 := parse_2hex_isSome_iff a6 a7 []
        simp only [color_parse, ty_sb_lskip, charAt, List.length_cons, List.length_nil,
          List.drop_succ_cons, List.drop_zero, List.getD_cons_zero]
        cases h0 : _parse_2hex [a0, a1, a2, a3, a4, a5, a6, a7] <;>
          cases h1 : _parse_2hex [a2, a3, a4, a5, a6, a7] <;>
          cases h2 : _parse_2hex [a4, a5, a6, a7] <;>
          cases h3 : _parse_2hex [a6, a7] <;>
          simp [h0, h1, h2, h3] at e0 e1 e2 e3 ⊢ <;> simp_all
      · simp only [color_parse, ty_sb_lskip, charAt, List.length_cons,
          List.drop_succ_cons, List.drop_zero, List.getD_cons_zero]
        simp
    · simp [color_parse, charAt, hc]

/-! ## The colour span finder (C5, C6) -/

/-- C5: when the scan of `termio_color_find` has assembled `#` followed by hex
digits `h`, the call reports, for three digits, the channels
`value(h0)*16, value(h1)*16, value(h2)*16` and alpha 255; for four digits the
same with alpha `value(h3)*16`; for six digits the channels
`16*value(h0)+value(h1)`, `16*value(h2)+value(h3)`, `16*value(h4)+value(h5)` and
alpha 255; for eight digits the same with alpha `16*value(h6)+value(h7)`.
Every reported channel is below 256, and the span is the one of the scan. -/
theorem termio_color_find_channels (obj : Termio) (ty : Termpty) (fuel : Nat)
    (cx cy lock : Int) (st : ColorSt) (hpty : obj.pty = some ty) (hw : 0 < obj.w)
    (hh : 0 < obj.h)
    (hscan : color_scan ty fuel cx (cy - obj.scroll) = Outcome.done (some st)) :
    (∀ h0 h1 h2, st.sb = [35, h0, h1, h2] → spec_is_hex h0 = true → spec_is_hex h1 = true →
      spec_is_hex h2 = true →
      termio_color_find obj fuel cx cy lock
        = Outcome.done ⟨true,
            some ⟨spec_hex_value h0 * 16, spec_hex_value h1 * 16, spec_hex_value h2 * 16, 255⟩,
            some ⟨st.x1, st.y1 + obj.scroll, st.x2, st.y2 + obj.scroll⟩, lock⟩
      ∧ spec_hex_value h0 * 16 < 256 ∧ spec_hex_value h1 * 16 < 256
      ∧ spec_hex_value h2 * 16 < 256)
    ∧ (∀ h0 h1 h2 h3, st.sb = [35, h0, h1, h2, h3] → spec_is_hex h0 = true →
      spec_is_hex h1 = true → spec_is_hex h2 = true → spec_is_hex h3 = true →
      termio_color_find obj fuel cx cy lock
        = Outcome.done ⟨true,
            some ⟨spec_hex_value h0 * 16, spec_hex_value h1 * 16, spec_hex_value h2 * 16,
              spec_hex_value h3 * 16⟩,
            some ⟨st.x1, st.y1 + obj.scroll, st.x2, st.y2 + obj.scroll⟩, lock⟩
      ∧ spec_hex_value h0 * 16 < 256 ∧ spec_hex_value h1 * 16 < 256
      ∧ spec_hex_value h2 * 16 < 256 ∧ spec_hex_value h3 * 16 < 256)
    ∧ (∀ h0 h1 h2 h3 h4 h5, st.sb = [35, h0, h1, h2, h3, h4, h5] → spec_is_hex h0 = true →
      spec_is_hex h1 = true → spec_is_hex h2 = true → spec_is_hex h3 = true →
      spec_is_hex h4 = true → spec_is_hex h5 = true →
      termio_color_find obj fuel cx cy lock
        = Outcome.done ⟨true,
            some ⟨16 * spec_hex_value h0 + spec_hex_value h1,
              16 * spec_hex_value h2 + spec_hex_value h3,
              16 * spec_hex_value h4 + spec_hex_value h5, 255⟩,
            some ⟨st.x1, st.y1 + obj.scroll, st.x2, st.y2 + obj.scroll⟩, lock⟩
      ∧ 16 * spec_hex_value h0 + spec_hex_value h1 < 256
      ∧ 16 * spec_hex_value h2 + spec_hex_value h3 < 256
      ∧ 16 * spec_hex_value h4 + spec_hex_value h5 < 256)
    ∧ (∀ h0 h1 h2 h3 h4 h5 h6 h7, st.sb = [35, h0, h1, h2, h3, h4, h5, h6, h7] →
      spec_is_hex h0 = true → spec_is_hex h1 = true → spec_is_hex h2 = true →
      spec_is_hex h3 = true → spec_is_hex h4 = true → spec_is_hex h5 = true →
      spec_is_hex h6 = true → spec_is_hex h7 = true →
      termio_color_find obj fuel cx cy lock
        = Outcome.done ⟨true,
            some ⟨16 * spec_hex_value h0 + spec_hex_value h1,
              16 * spec_hex_value h2 + spec_hex_value h3,
              16 * spec_hex_value h4 + spec_hex_value h5,
              16 * spec_hex_value h6 + spec_hex_value h7⟩,
            some ⟨st.x1, st.y1 + obj.scroll, st.x2, st.y2 + obj.scroll⟩, lock⟩
      ∧ 16 * spec_hex_value h0 + spec_hex_value h1 < 256
      ∧ 16 * spec_hex_value h2 + spec_hex_value h3 < 256
      ∧ 16 * spec_hex_value h4 + spec_hex_value h5 < 256
      ∧ 16 * spec_hex_value h6 + spec_hex_value h7 < 256) := by
  have hfind := termio_color_find_of_scan obj ty fuel cx cy lock st hpty hw hh hscan
  have hlock : termpty_backlog_unlock (termpty_backlog_lock lock) = lock := by
    simp [termpty_backlog_unlock, termpty_backlog_lock]
  refine ⟨?_, ?_, ?_, ?_⟩
  · intro h0 h1 h2 hsb a0 a1 a2
    have b0 := (parse_hex_of_hex h0 a0).2
    have b1 := (parse_hex_of_hex h1 a1).2
    have b2 := (parse_hex_of_hex h2 a2).2
    refine ⟨?_, by omega, by omega, by omega⟩
    rw [hfind, color_out, hsb, color_parse_3 h0 h1 h2 a0 a1 a2, hlock]
  · intro h0 h1 h2 h3 hsb a0 a1 a2 a3
    have b0 := (parse_hex_of_hex h0 a0).2
    have b1 := (parse_hex_of_hex h1 a1).2
    have b2 := (parse_hex_of_hex h2 a2).2
    have b3 := (parse_hex_of_hex h3 a3).2
    refine ⟨?_, by omega, by omega, by omega, by omega⟩
    rw [hfind, color_out, hsb, color_parse_4 h0 h1 h2 h3 a0 a1 a2 a3, hlock]
  · intro h0 h1 h2 h3 h4 h5 hsb a0 a1 a2 a3 a4 a5
    have b0 := (parse_hex_of_hex h0 a0).2
    have b1 := (parse_hex_of_hex h1 a1).2
    have b2 := (parse_hex_of_hex h2 a2).2
    have b3 := (parse_hex_of_hex h3 a3).2
    have b4 := (parse_hex_of_hex h4 a4).2
    have b5 := (parse_hex_of_hex h5 a5).2
    refine ⟨?_, by omega, by omega, by omega⟩
    rw [hfind, color_out, hsb, color_parse_6 h0 h1 h2 h3 h4 h5 a0 a1 a2 a3 a4 a5, hlock]
  · intro h0 h1 h2 h3 h4 h5 h6 h7 hsb a0 a1 a2 a3 a4 a5 a6 a7
    have b0 := (parse_hex_of_hex h0 a0).2
    have b1 := (parse_hex_of_hex h1 a1).2
    have b2 := (parse_hex_of_hex h2 a2).2
    have b3 := (parse_hex_of_hex h3 a3).2
    have b4 := (parse_hex_of_hex h4 a4).2
    have b5 := (parse_hex_of_hex h5 a5).2
    have b6 := (parse_hex_of_hex h6 a6).2
    have b7 := (parse_hex_of_hex h7 a7).2
    refine ⟨?_, by omega, by omega, by omega, by omega⟩
    rw [hfind, color_out, hsb,
      color_parse_8 h0 h1 h2 h3 h4 h5 h6 h7 a0 a1 a2 a3 a4 a5 a6 a7, hlock]

/-- C5, at concrete inputs: seeded inside ` #fff ` the call reports
`(0xf0, 0xf0, 0xf0, 255)`, seeded inside ` #12345678 ` it reports
`(0x12, 0x34, 0x56, 0x78)`; seeded inside ` #FfF0 ` it reports
`(0xf0, 0xf0, 0xf0, 0)`. -/
theorem termio_color_find_channels_witness :
    termio_color_find (screen 6 1 [textrow " #fff "]) 10 2 0 0
      = Outcome.done ⟨true, some ⟨0xf0, 0xf0, 0xf0, 255⟩, some ⟨1, 0, 4, 0⟩, 0⟩
    ∧ termio_color_find (screen 11 1 [textrow " #12345678 "]) 10 5 0 0
      = Outcome.done ⟨true, some ⟨0x12, 0x34, 0x56, 0x78⟩, some ⟨1, 0, 9, 0⟩, 0⟩
    ∧ termio_color_find (screen 7 1 [textrow " #FfF0 "]) 10 1 0 0
      = Outcome.done ⟨true, some ⟨0xf0, 0xf0, 0xf0, 0⟩, some ⟨1, 0, 5, 0⟩, 0⟩ :=
  ⟨((termio_color_find_channels (screen 6 1 [textrow " #fff "])
        (screen_pty 6 [textrow " #fff "]) 10 2 0 0 ⟨[35, 102, 102, 102], 1, 0, 4, 0, 32⟩
        rfl (by decide) (by decide) (by decide)).1 102 102 102 rfl (by decide) (by decide)
        (by decide)).1,
   ((termio_color_find_channels (screen 11 1 [textrow " #12345678 "])
        (screen_pty 11 [textrow " #12345678 "]) 10 5 0 0
        ⟨[35, 49, 50, 51, 52, 53, 54, 55, 56], 1, 0, 9, 0, 32⟩
        rfl (by decide) (by decide) (by decide)).2.2.2 49 50 51 52 53 54 55 56 rfl
        (by decide) (by decide) (by decide) (by decide) (by decide) (by decide) (by decide)
        (by decide)).1,
   ((termio_color_find_channels (screen 7 1 [textrow " #FfF0 "])
        (screen_pty 7 [textrow " #FfF0 "]) 10 1 0 0 ⟨[35, 70, 102, 70, 48], 1, 0, 5, 0, 32⟩
        rfl (by decide) (by decide) (by decide)).2.1 70 102 70 48 rfl (by decide) (by decide)
        (by decide) (by decide)).1⟩

/-- C6: `termio_color_find` returns true exactly when the run assembled by the
scan starts with `#` and the rest after that `#` has length 3, 4, 6 or 8 and
holds hex digits only; in every other case it returns false and stores nothing
through its out-parameters.  The assembled run holds colour-alphabet characters
only.  So ` #12 `, ` #12345 `, ` #ff# `, ` abc#fff ` and a seed on a character
outside the colour alphabet give false with no output written. -/
theorem termio_color_find_found_iff :
    (∀ (obj : Termio) (fuel : Nat) (cx cy lock : Int) (r : ColorRet),
      termio_color_find obj fuel cx cy lock = Outcome.done r →
      (r.found = true ↔
        ∃ ty st h, obj.pty = some ty ∧ 0 < obj.w ∧ 0 < obj.h
          ∧ color_scan ty fuel cx (cy - obj.scroll) = Outcome.done (some st)
          ∧ st.sb = 35 :: h
          ∧ (h.length = 3 ∨ h.length = 4 ∨ h.length = 6 ∨ h.length = 8)
          ∧ ∀ c ∈ h, spec_is_hex c = true)
      ∧ (r.found = false → r.color = none ∧ r.span = none)
      ∧ (r.found = true → r.color ≠ none ∧ r.span ≠ none))
    ∧ (∀ (ty : Termpty) (fuel : Nat) (cx cy : Int) (st : ColorSt),
      color_scan ty fuel cx cy = Outcome.done (some st) →
      ∀ c ∈ st.sb, _is_authorized_in_color c = true)
    ∧ termio_color_find (screen 5 1 [textrow " #12 "]) 10 2 0 0
      = Outcome.done ⟨false, none, none, 0⟩
    ∧ termio_color_find (screen 8 1 [textrow " #12345 "]) 10 2 0 0
      = Outcome.done ⟨false, none, none, 0⟩
    ∧ termio_color_find (screen 6 1 [textrow " #ff# "]) 10 2 0 0
      = Outcome.done ⟨false, none, none, 0⟩
    ∧ termio_color_find (screen 9 1 [textrow " abc#fff "]) 10 5 0 0
      = Outcome.done ⟨false, none, none, 0⟩
    ∧ termio_color_find (screen 6 1 [textrow " #fgf "]) 10 3 0 0
      = Outcome.done ⟨false, none, none, 0⟩ := by
  refine ⟨?_, color_scan_auth, by decide, by decide, by decide, by decide, by decide⟩
  intro obj fuel cx cy lock r hr
  unfold termio_color_find at hr
  rcases hp : obj.pty with _ | ty
  · rw [hp] at hr
    cases hr
    simp
  · rw [hp] at hr
    simp only at hr
    by_cases hsz : obj.w ≤ 0 ∨ obj.h ≤ 0
    · rw [if_pos hsz] at hr
      cases hr
      simp only [Bool.false_eq_true, false_iff, not_exists, not_and, true_and,
        false_implies, and_true, implies_true]
      intro ty1 st h _ hw hh
      omega
    · rw [if_neg hsz] at hr
      have hw : 0 < obj.w := by omega
      have hh : 0 < obj.h := by omega
      rcases hs : color_scan ty fuel cx (cy - obj.scroll) with o | _ | _
      · rcases o with _ | st
        · rw [hs] at hr
          cases hr
          simp only [Bool.false_eq_true, false_iff, not_exists, not_and, true_and,
            false_implies, and_true, implies_true]
          intro ty1 st h hty _ _ hs1
          cases hty
          rw [hs] at hs1
          cases hs1
        · rw [hs] at hr
          simp only at hr
          cases hr
          have key := color_parse_isSome_iff st.sb
          unfold color_out
          rcases hcp : color_parse st.sb with _ | c
          · rw [hcp] at key
            simp only [Bool.false_eq_true, false_iff, not_exists, not_and, true_and,
              false_implies, and_true, implies_true]
            intro ty1 st1 h hty _ _ hs1 hsb hlen hhex
            cases hty
            rw [hs] at hs1
            cases hs1
            have := key.2 ⟨h, hsb, hlen, hhex⟩
            simp at this
          · rw [hcp] at key
            simp only [true_iff, Bool.true_eq_false, false_implies, true_and, ne_eq,
              not_false_eq_true, and_self, implies_true, and_true, reduceCtorEq]
            obtain ⟨h, hsb, hlen, hhex⟩ := key.1 rfl
            exact ⟨ty, st, h, rfl, hw, hh, hs, hsb, hlen, hhex⟩
      · rw [hs] at hr; cases hr
      · rw [hs] at hr; cases hr

/-- C6, at a concrete input: seeded inside ` #fff ` the call returns true, and
the run it assembled is `#` followed by the three hex digits `fff`. -/
theorem termio_color_find_found_iff_witness :
    termio_color_find (screen 6 1 [textrow " #fff "]) 10 2 0 0
      = Outcome.done ⟨true, some ⟨0xf0, 0xf0, 0xf0, 255⟩, some ⟨1, 0, 4, 0⟩, 0⟩
    ∧ ∃ ty st h, (screen 6 1 [textrow " #fff "]).pty = some ty
        ∧ 0 < (screen 6 1 [textrow " #fff "]).w ∧ 0 < (screen 6 1 [textrow " #fff "]).h
        ∧ color_scan ty 10 2 (0 - (screen 6 1 [textrow " #fff "]).scroll)
            = Outcome.done (some st)
        ∧ st.sb = 35 :: h
        ∧ (h.length = 3 ∨ h.length = 4 ∨ h.length = 6 ∨ h.length = 8)
        ∧ ∀ c ∈ h, spec_is_hex c = true :=
  ⟨by decide,
   ((termio_color_find_found_iff.1 (screen 6 1 [textrow " #fff "]) 10 2 0 0
      ⟨true, some ⟨0xf0, 0xf0, 0xf0, 255⟩, some ⟨1, 0, 4, 0⟩, 0⟩ (by decide)).1).1 rfl⟩

/-! ## The seed of the link span finder (C7) -/

theorem ofCell_blank (cell : Termcell) (x y : Int) (h : cell.blank) :
    (Txt.ofCell cell x y).res ≠ 0 ∨ (Txt.ofCell cell x y).txt.length = 0
      ∨ _isspace_unicode (Txt.ofCell cell x y).codepoint = true := by
  unfold Txt.ofCell
  rcases h with h | h | h
  · simp [h, Txt.empty]
  · simp [h, Txt.empty]
  · split_ifs
    · simp [Txt.empty]
    · right; right; exact h

/-- A seed that is absent, empty or whitespace is rejected by the seed test. -/
theorem txt_at_of_seed_blank (ty : Termpty) (x y : Int)
    (h : seed_absent_empty_or_space ty x y) :
    ∃ t, _txt_at ty x y 0 = some t ∧
      (t.res ≠ 0 ∨ t.txt.length = 0 ∨ _isspace_unicode t.codepoint = true) := by
  unfold seed_absent_empty_or_space at h
  unfold _txt_at
  rcases hr : ty.cellrow y with _ | row
  · exact ⟨_, rfl, Or.inl (by simp [Txt.bad])⟩
  · rw [hr] at h
    simp only at h ⊢
    by_cases hw : row.w = 0
    · rw [if_pos hw]
      exact ⟨_, rfl, Or.inl (by simp [Txt.bad])⟩
    · rw [if_neg hw]
      by_cases hx : x ≥ row.w
      · rw [if_pos hx]
        exact ⟨_, rfl, Or.inr (Or.inl rfl)⟩
      · rw [if_neg hx]
        rcases h with h | h | ⟨cell, hc, h⟩
        · exact absurd h hw
        · exact absurd h hx
        · rw [hc]
          simp only
          rcases h with ⟨hnd, hb⟩ | ⟨h0, hd, h1⟩
          · rw [if_neg hnd]
            exact ⟨_, rfl, ofCell_blank cell x y hb⟩
          · rw [if_pos ⟨h0, hd⟩]
            rcases h1 with h1 | ⟨cell1, hc1, hb1⟩
            · rw [if_pos h1]
              exact ⟨_, rfl, Or.inl (by simp [Txt.bad])⟩
            · by_cases hx1 : x - 1 < 0
              · rw [if_pos hx1]
                exact ⟨_, rfl, Or.inl (by simp [Txt.bad])⟩
              · rw [if_neg hx1, hc1]
                exact ⟨_, rfl, ofCell_blank cell1 (x - 1) y hb1⟩

theorem link_scan_of_seed_blank (ty : Termpty) (fuel : Nat) (x y : Int)
    (h : seed_absent_empty_or_space ty x y) :
    link_scan ty fuel x y = Outcome.done none := by
  obtain ⟨t, ht, hc⟩ := txt_at_of_seed_blank ty x y h
  unfold link_scan
  rw [ht]
  simp only
  by_cases h1 : t.res ≠ 0 ∨ t.txt.length = 0
  · rw [if_pos h1]
  · rw [if_neg h1]
    have h2 : _isspace_unicode t.codepoint = true := by
      rcases hc with hc | hc | hc
      · exact absurd (Or.inl hc) h1
      · exact absurd (Or.inr hc) h1
      · exact hc
    rw [if_pos h2]

/-- C7 fails for a seed on the zero-codepoint half of a double-width glyph: in
the row `/`, U+4E2D, half, space the seed cell in column 2 has codepoint 0 (and
may carry a link tag), `_txt_at` backs up to the glyph in column 1, and the
token `/` U+4E2D is returned with the span from column 0 to column 2. -/
theorem termio_link_find_seed_on_half :
    (cellAt (wide_glyph_row 0).cells 2).map Termcell.codepoint = some 0
    ∧ _txt_at (screen_pty 4 [wide_glyph_row 0]) 2 0 0
        = some ⟨0, 1, 0, codepoint_to_utf8 0x4e2d, 0x4e2d⟩
    ∧ termio_link_find (screen 4 1 [wide_glyph_row 0]) 20 2 0 0
        = Outcome.done ⟨some (47 :: codepoint_to_utf8 0x4e2d), some ⟨0, 0, 2, 0⟩, 0⟩
    ∧ (cellAt (wide_glyph_row 7).cells 2).map Termcell.link_id = some 7
    ∧ termio_link_find (screen 4 1 [wide_glyph_row 7]) 20 2 0 0
        = Outcome.done ⟨some (47 :: codepoint_to_utf8 0x4e2d), some ⟨0, 0, 2, 0⟩, 0⟩ := by
  decide

/-- C7, amended: for every grid, every seed position and every loop bound, if
the seed cell is absent (boundary), or the cell read at the seed is empty
(codepoint 0 or link-tagged) or holds a codepoint for which `_isspace_unicode`
is true, `termio_link_find` returns NULL and does not write the span outputs.
The cell read at the seed is the seed cell, or the cell before it when the seed
cell is the zero-codepoint half of a double-width glyph (in column 0 there is
none, which is a boundary). -/
theorem termio_link_find_seed_blank (obj : Termio) (ty : Termpty) (fuel : Nat)
    (cx cy lock : Int) (hpty : obj.pty = some ty)
    (hseed : seed_absent_empty_or_space ty cx (cy - obj.scroll)) :
    ∃ l, termio_link_find obj fuel cx cy lock = Outcome.done ⟨none, none, l⟩ := by
  unfold termio_link_find
  rw [hpty]
  simp only
  by_cases hsz : obj.w ≤ 0 ∨ obj.h ≤ 0
  · rw [if_pos hsz]
    exact ⟨_, rfl⟩
  · rw [if_neg hsz, link_scan_of_seed_blank ty fuel cx (cy - obj.scroll) hseed]
    exact ⟨_, rfl⟩

/-- C7 amended, at concrete inputs: in the row ` x` the seed on the space
(U+0020) gives NULL with no span written; so do a seed on an empty cell, on a
link-tagged cell, on the ideographic space U+3000, beyond the row, on an
absent row, on the half of a link-tagged double-width glyph and on a half in
column 0. -/
theorem termio_link_find_seed_blank_witness :
    seed_absent_empty_or_space (screen_pty 2 [textrow " x"]) 0 (0 - 0)
    ∧ (∃ l, termio_link_find (screen 2 1 [textrow " x"]) 5 0 0 0
        = Outcome.done ⟨none, none, l⟩)
    ∧ termio_link_find (screen 2 1 [textrow " x"]) 5 0 0 0 = Outcome.done ⟨none, none, 0⟩
    ∧ termio_link_find (screen 2 1 [⟨[⟨0, false, false, 0⟩, mkcell 47], 2⟩]) 5 0 0 0
        = Outcome.done ⟨none, none, 0⟩
    ∧ termio_link_find (screen 2 1 [⟨[⟨47, false, false, 7⟩, mkcell 47], 2⟩]) 5 0 0 0
        = Outcome.done ⟨none, none, 0⟩
    ∧ termio_link_find (screen 2 1 [⟨[mkcell 12288, mkcell 47], 2⟩]) 5 0 0 0
        = Outcome.done ⟨none, none, 0⟩
    ∧ termio_link_find (screen 2 1 [textrow "/x"]) 5 2 0 0 = Outcome.done ⟨none, none, 0⟩
    ∧ termio_link_find (screen 2 1 [textrow "/x"]) 5 0 1 0 = Outcome.done ⟨none, none, 0⟩
    ∧ termio_link_find (screen 11 1 [tagged_wide_row]) 5 1 0 0 = Outcome.done ⟨none, none, 0⟩
    ∧ termio_link_find (screen 2 1 [⟨[Termcell.mk 0 true false 0, mkcell 47], 2⟩]) 5 0 0 0
        = Outcome.done ⟨none, none, 0⟩
    ∧ termio_link_find (screen 2 1 [textrow "/x"]) 5 0 0 0
        = Outcome.done ⟨some (bytes "/x"), some ⟨0, 0, 1, 0⟩, 0⟩ :=
  have hs : seed_absent_empty_or_space (screen_pty 2 [textrow " x"]) 0 (0 - 0) :=
    Or.inr (Or.inr ⟨mkcell 32, rfl, Or.inl ⟨by decide, Or.inr (Or.inr (by decide))⟩⟩)
  ⟨hs, termio_link_find_seed_blank (screen 2 1 [textrow " x"]) (screen_pty 2 [textrow " x"])
      5 0 0 0 rfl hs,
    by decide, by decide, by decide, by decide, by decide, by decide, by decide, by decide,
    by decide⟩

/-! ## Shared lemmas on `link_is_protocol` -/

theorem scheme_cont_zero : scheme_cont 0 = false := by decide

theorem charAt_append_of_ne (p t : List Nat) (i : Nat) (h : charAt p i ≠ 0) :
    charAt (p ++ t) i = charAt p i := by
  unfold charAt at *
  by_cases hi : i < p.length
  · simp [List.getD_eq_getElem?_getD, List.getElem?_append_left hi]
  · exfalso
    apply h
    simp [List.getD_eq_getElem?_getD, List.getElem?_eq_none (Nat.le_of_not_lt hi)]

theorem scheme_loop_cons (x : Nat) (p : List Nat) :
    scheme_loop (x :: p) = if scheme_cont (charAt p 0) = true then scheme_loop p else p := rfl

theorem link_is_protocol_iff (s : List Nat) :
    link_is_protocol (some s) = true ↔
      isalpha (charAt s 0) = true ∧ charAt (scheme_loop s) 0 = 58
        ∧ charAt (scheme_loop s) 1 = 47 ∧ charAt (scheme_loop s) 2 = 47 := by
  unfold link_is_protocol
  cases h : isalpha (charAt s 0) <;> simp [h, and_assoc]

theorem scheme_loop_append (t : List Nat) :
    ∀ s : List Nat, charAt (scheme_loop s) 0 = 58 → scheme_loop (s ++ t) = scheme_loop s ++ t := by
  intro s
  induction s with
  | nil => intro h; simp [scheme_loop, charAt] at h
  | cons x p ih =>
    intro h
    rw [List.cons_append, scheme_loop_cons x (p ++ t), scheme_loop_cons x p]
    rw [scheme_loop_cons] at h
    by_cases hc : scheme_cont (charAt p 0) = true
    · have hne : charAt p 0 ≠ 0 := by
        intro h0; rw [h0, scheme_cont_zero] at hc; cases hc
      rw [if_pos hc] at h
      rw [charAt_append_of_ne p t 0 hne, if_pos hc, if_pos hc]
      exact ih h
    · rw [if_neg hc] at h
      have hne : charAt p 0 ≠ 0 := by rw [h]; decide
      rw [charAt_append_of_ne p t 0 hne, if_neg hc, if_neg hc]

/-- Appending bytes keeps a buffer that satisfies `link_is_protocol` so. -/
theorem link_is_protocol_append (s t : List Nat) (h : link_is_protocol (some s) = true) :
    link_is_protocol (some (s ++ t)) = true := by
  rw [link_is_protocol_iff] at h ⊢
  obtain ⟨ha, h0, h1, h2⟩ := h
  have hne : charAt s 0 ≠ 0 := by
    intro hz; rw [hz] at ha; revert ha; decide
  rw [charAt_append_of_ne s t 0 hne, scheme_loop_append t s h0,
    charAt_append_of_ne _ t 0 (by rw [h0]; decide),
    charAt_append_of_ne _ t 1 (by rw [h1]; decide),
    charAt_append_of_ne _ t 2 (by rw [h2]; decide)]
  exact ⟨ha, h0, h1, h2⟩

/-! ## Shared lemmas on the loops of the link span finder -/

theorem endmatch_of_ne_zero (c e1 e2 : Nat) (h : endmatch_of c = some (e1, e2)) : e1 ≠ 0 := by
  unfold endmatch_of at h
  split at h
  · rename_i e he
    have hmem := List.mem_of_find?_eq_some he
    have hall : ∀ e ∈ endmatch_table, e.2.1 ≠ 0 := by decide
    cases h
    exact hall e hmem
  · cases h

/-- A backward iteration that reads a token character prepends it and goes on. -/
theorem goback_iter_cont (ty : Termpty) (st : LinkSt) (x1 y1 : Int) (c : Nat)
    (h : _txt_prev_at ty st.x1 st.y1 st.codepoint = some ⟨0, x1, y1, codepoint_to_utf8 c, c⟩)
    (hc : codepoint_to_utf8 c ≠ []) (hs : _isspace_unicode c = false)
    (he : endmatch_of c = none) (h0 : st.endmatch1 = 0)
    (hw : st.was_protocol = true →
      link_is_protocol (some (codepoint_to_utf8 c ++ st.sb)) = true) :
    goback_iter ty st = some (Iter.cont
      { st with sb := codepoint_to_utf8 c ++ st.sb, x1 := x1, y1 := y1, codepoint := c,
                was_protocol := link_is_protocol (some (codepoint_to_utf8 c ++ st.sb)) }) := by
  have hlen : ¬ ((0 : Int) ≠ 0 ∨ (codepoint_to_utf8 c).length = 0) := by
    simp [hc]
  unfold goback_iter
  rw [h]
  simp only
  rw [if_neg hlen]
  simp only [hs, Bool.false_eq_true, if_false]
  unfold goback_rest
  simp only [he, Option.getD_none, h0, ne_eq, not_true_eq_false, if_false, ty_sb_prepend]
  rcases hp : link_is_protocol (some (codepoint_to_utf8 c ++ st.sb)) with _ | _
  · have hwf : st.was_protocol = false := by
      rcases hq : st.was_protocol with _ | _
      · rfl
      · rw [hw hq] at hp; cases hp
    simp only [if_true, hwf, Bool.false_eq_true, if_false]
  · simp only [Bool.true_eq_false, if_false]

/-- A backward iteration at the left end of a token leaves the loop with the
buffer and the span start as they are. -/
theorem goback_iter_end (ty : Termpty) (st : LinkSt) (e1 e2 : Nat)
    (h : back_end ty st.x1 st.y1 e1 e2) (h1 : st.endmatch1 = 0) (h2 : st.endmatch2 = 0) :
    ∃ cp, goback_iter ty st
      = some (Iter.brk { st with endmatch1 := e1, endmatch2 := e2, codepoint := cp }) := by
  obtain ⟨t, ht, hcase⟩ := h st.codepoint
  unfold goback_iter
  rw [ht]
  simp only
  rcases hcase with ⟨hbad, he1, he2⟩ | ⟨hres, hlen, hsp, he1, he2, t2, ht2, hc2⟩ |
    ⟨hres, hlen, hsp, hem⟩
  · rw [if_pos hbad]
    refine ⟨t.codepoint, ?_⟩
    subst he1 he2
    cases st
    simp_all
  · have hn : ¬ (t.res ≠ 0 ∨ t.txt.length = 0) := by
      intro hh; rcases hh with hh | hh
      · exact hh hres
      · exact hlen hh
    rw [if_neg hn, if_pos hsp, ht2]
    simp only
    rw [if_pos hc2, lskip_prepend]
    refine ⟨t2.codepoint, ?_⟩
    subst he1 he2
    cases st
    simp_all
  · have hn : ¬ (t.res ≠ 0 ∨ t.txt.length = 0) := by
      intro hh; rcases hh with hh | hh
      · exact hh hres
      · exact hlen hh
    have hsp1 : ¬ (_isspace_unicode t.codepoint = true) := by simp [hsp]
    rw [if_neg hn, if_neg hsp1]
    unfold goback_rest
    have hne := endmatch_of_ne_zero _ _ _ hem
    simp only [hem, Option.getD_some, ne_eq, hne, not_false_eq_true, if_true, lskip_prepend]
    exact ⟨t.codepoint, rfl⟩

/-- A forward iteration that reads a token character appends it and goes on. -/
theorem goforward_iter_cont (ty : Termpty) (st : LinkSt) (x2 y2 : Int) (c : Nat)
    (h : _txt_next_at ty st.x2 st.y2 st.codepoint = some ⟨0, x2, y2, codepoint_to_utf8 c, c⟩)
    (hc : codepoint_to_utf8 c ≠ []) (hs : _isspace_unicode c = false) (hb : c ≠ 92)
    (hf : forward_delim c = false) (h1 : c ≠ st.endmatch1) (h2 : c ≠ st.endmatch2)
    (hesc : st.escaped = false)
    (hw : st.was_protocol = true → link_is_protocol (some st.sb) = true) :
    goforward_iter ty st = some (Iter.cont
      { st with sb := st.sb ++ codepoint_to_utf8 c, x2 := x2, y2 := y2, codepoint := c,
                was_protocol := link_is_protocol (some (st.sb ++ codepoint_to_utf8 c)) }) := by
  have hlen : ¬ ((0 : Int) ≠ 0 ∨ (codepoint_to_utf8 c).length = 0) := by
    simp [hc]
  have hstop : ¬ (_isspace_unicode c = true ∨ c = st.endmatch1 ∨ c = st.endmatch2) := by
    simp [hs, h1, h2]
  unfold goforward_iter
  rw [h]
  simp only
  rw [if_neg hlen, if_neg hb]
  simp only [hesc, Bool.false_eq_true, if_false]
  rw [if_neg hstop]
  simp only [hf, Bool.false_eq_true, if_false, ty_sb_add]
  rcases hp : link_is_protocol (some (st.sb ++ codepoint_to_utf8 c)) with _ | _
  · have hwf : st.was_protocol = false := by
      rcases hq : st.was_protocol with _ | _
      · rfl
      · rw [link_is_protocol_append _ _ (hw hq)] at hp; cases hp
    simp only [if_true, hwf, Bool.false_eq_true, if_false]
  · simp only [Bool.true_eq_false, if_false]

/-- A forward iteration at the right end of a token leaves the loop with the
buffer and the span end as they are. -/
theorem goforward_iter_end (ty : Termpty) (st : LinkSt)
    (h : fwd_end ty st.x2 st.y2 st.endmatch1 st.endmatch2) (hesc : st.escaped = false) :
    ∃ cp, goforward_iter ty st = some (Iter.brk { st with codepoint := cp }) := by
  obtain ⟨t, ht, hcase⟩ := h st.codepoint
  unfold goforward_iter
  rw [ht]
  simp only
  by_cases hbad : t.res ≠ 0 ∨ t.txt.length = 0
  · rw [if_pos hbad]
    exact ⟨t.codepoint, rfl⟩
  · rw [if_neg hbad]
    rcases hcase with hh | hh | ⟨hb, hstop⟩
    · exact absurd (Or.inl hh) hbad
    · exact absurd (Or.inr hh) hbad
    · rw [if_neg hb]
      simp only [hesc, Bool.false_eq_true, if_false]
      by_cases hs : _isspace_unicode t.codepoint = true ∨ t.codepoint = st.endmatch1
          ∨ t.codepoint = st.endmatch2
      · rw [if_pos hs]
        exact ⟨t.codepoint, rfl⟩
      · rw [if_neg hs]
        have hf : forward_delim t.codepoint = true := by
          rcases hstop with h' | h' | h' | h'
          · exact absurd (Or.inl h') hs
          · exact absurd (Or.inr (Or.inl h')) hs
          · exact absurd (Or.inr (Or.inr h')) hs
          · exact h'
        rw [if_pos hf]
        exact ⟨t.codepoint, rfl⟩

/-! ## Shared lemmas on a token laid out on the grid -/

theorem utf8_of_append (a b : List Nat) : utf8_of (a ++ b) = utf8_of a ++ utf8_of b := by
  induction a with
  | nil => rfl
  | cons x xs ih => simp [utf8_of, ih]

theorem utf8_of_window_step (cs : List Nat) (k n : Nat) (hk : k < cs.length) :
    utf8_of ((cs.drop k).take (n + 1))
      = codepoint_to_utf8 (cs.getD k 0) ++ utf8_of ((cs.drop (k + 1)).take n) := by
  rw [List.drop_eq_getElem_cons hk, List.take_succ_cons, utf8_of,
    List.getD_eq_getElem _ _ hk]

theorem utf8_of_take_step (cs : List Nat) (j : Nat) (hj : j < cs.length) :
    utf8_of (cs.take (j + 1)) = utf8_of (cs.take j) ++ codepoint_to_utf8 (cs.getD j 0) := by
  rw [List.take_succ, utf8_of_append, List.getD_eq_getElem _ _ hj,
    List.getElem?_eq_getElem hj]
  simp [utf8_of]

theorem tok_c_getD (toks : List Tok) (k : Nat) (hk : k < toks.length) :
    (toks.map Tok.c).getD k 0 = (toks.getD k ⟨0, 0, 0⟩).c := by
  rw [List.getD_eq_getElem _ _ (by simpa using hk), List.getD_eq_getElem _ _ hk]
  simp

theorem tok_getD_mem (toks : List Tok) (k : Nat) (hk : k < toks.length) :
    toks.getD k ⟨0, 0, 0⟩ ∈ toks := by
  rw [List.getD_eq_getElem _ _ hk]
  exact List.getElem_mem hk

theorem link_goback_succ (ty : Termpty) (n : Nat) (st : LinkSt) :
    link_goback ty (n + 1) st =
      match goback_iter ty st with
      | none => Outcome.oob
      | some (Iter.brk st1) => Outcome.done st1
      | some (Iter.cont st1) => link_goback ty n st1 := rfl

theorem link_goforward_succ (ty : Termpty) (n : Nat) (st : LinkSt) :
    link_goforward ty (n + 1) st =
      match goforward_iter ty st with
      | none => Outcome.oob
      | some (Iter.brk st1) => Outcome.done st1
      | some (Iter.cont st1) => link_goforward ty n st1 := rfl

/-- The backward loop started inside a token walks to its first cell,
collecting the text of the cells it passes. -/
theorem link_goback_run (ty : Termpty) (toks : List Tok) (i : Nat) (hi : i < toks.length)
    (hl : linked ty toks) (hch : ∀ t ∈ toks, token_char t.c)
    (hm : no_walk_past (toks.map Tok.c)) :
    ∀ k, k ≤ i → ∀ (st : LinkSt) (fuel : Nat),
      st.x1 = (toks.getD k ⟨0, 0, 0⟩).x → st.y1 = (toks.getD k ⟨0, 0, 0⟩).y →
      st.sb = utf8_of (((toks.map Tok.c).drop k).take (i + 1 - k)) →
      st.endmatch1 = 0 →
      (st.was_protocol = true → link_is_protocol (some st.sb) = true) →
      ∃ st1, link_goback ty (fuel + k) st = link_goback ty fuel st1
        ∧ st1.x1 = (toks.getD 0 ⟨0, 0, 0⟩).x ∧ st1.y1 = (toks.getD 0 ⟨0, 0, 0⟩).y
        ∧ st1.sb = utf8_of ((toks.map Tok.c).take (i + 1))
        ∧ st1.endmatch1 = 0 ∧ st1.endmatch2 = st.endmatch2
        ∧ st1.x2 = st.x2 ∧ st1.y2 = st.y2 ∧ st1.escaped = st.escaped
        ∧ (st1.was_protocol = true → link_is_protocol (some st1.sb) = true) := by
  intro k
  induction k with
  | zero =>
    intro _ st fuel hx hy hsb h0 hw
    exact ⟨st, rfl, hx, hy, by simpa using hsb, h0, rfl, rfl, rfl, rfl, hw⟩
  | succ k ih =>
    intro hk st fuel hx hy hsb h0 hw
    have hklen : k < toks.length := by omega
    have hklen1 : k < (toks.map Tok.c).length := by simpa using hklen
    have hread := (hl k (by omega)).1 st.codepoint
    rw [← hx, ← hy] at hread
    obtain ⟨hc, _, hs, _, he, _⟩ := hch _ (tok_getD_mem toks k hklen)
    have hnew : codepoint_to_utf8 (toks.getD k ⟨0, 0, 0⟩).c ++ st.sb
        = utf8_of (((toks.map Tok.c).drop k).take (i + 1 - k)) := by
      have e1 : i + 1 - k = (i - k) + 1 := by omega
      have e2 : i + 1 - (k + 1) = i - k := by omega
      rw [e1, utf8_of_window_step _ k (i - k) hklen1, tok_c_getD toks k hklen, hsb, e2]
    have hw1 : st.was_protocol = true →
        link_is_protocol (some (codepoint_to_utf8 (toks.getD k ⟨0, 0, 0⟩).c ++ st.sb))
          = true := by
      intro hq
      have hp := hw hq
      have e1 : i + 1 - k = (i - k) + 1 := by omega
      have e2 : i + 1 - (k + 1) = i - k := by omega
      rw [hnew, e1]
      rw [hsb, e2] at hp
      exact hm k hklen1 (i - k) (by simp; omega) hp
    have hiter := goback_iter_cont ty st _ _ _ hread hc hs he h0 hw1
    obtain ⟨st1, hrun, r1, r2, r3, r4, r5, r6, r7, r8, r9⟩ :=
      ih (by omega)
        { st with sb := codepoint_to_utf8 (toks.getD k ⟨0, 0, 0⟩).c ++ st.sb,
                  x1 := (toks.getD k ⟨0, 0, 0⟩).x, y1 := (toks.getD k ⟨0, 0, 0⟩).y,
                  codepoint := (toks.getD k ⟨0, 0, 0⟩).c,
                  was_protocol := link_is_protocol
                    (some (codepoint_to_utf8 (toks.getD k ⟨0, 0, 0⟩).c ++ st.sb)) }
        fuel rfl rfl hnew h0 (fun h => h)
    refine ⟨st1, ?_, r1, r2, r3, r4, r5, r6, r7, r8, r9⟩
    show link_goback ty ((fuel + k) + 1) st = _
    rw [link_goback_succ, hiter]
    exact hrun

/-- The forward loop started inside a token walks to its last cell,
collecting the text of the cells it passes. -/
theorem link_goforward_run (ty : Termpty) (toks : List Tok)
    (hl : linked ty toks) (hch : ∀ t ∈ toks, token_char t.c) (e1 e2 : Nat)
    (hne : ∀ t ∈ toks, t.c ≠ e1 ∧ t.c ≠ e2) :
    ∀ n j, j + n + 1 = toks.length → ∀ (st : LinkSt) (fuel : Nat),
      st.x2 = (toks.getD j ⟨0, 0, 0⟩).x → st.y2 = (toks.getD j ⟨0, 0, 0⟩).y →
      st.sb = utf8_of ((toks.map Tok.c).take (j + 1)) →
      st.endmatch1 = e1 → st.endmatch2 = e2 → st.escaped = false →
      (st.was_protocol = true → link_is_protocol (some st.sb) = true) →
      ∃ st1, link_goforward ty (fuel + n) st = link_goforward ty fuel st1
        ∧ st1.x2 = (toks.getD (toks.length - 1) ⟨0, 0, 0⟩).x
        ∧ st1.y2 = (toks.getD (toks.length - 1) ⟨0, 0, 0⟩).y
        ∧ st1.sb = utf8_of (toks.map Tok.c)
        ∧ st1.endmatch1 = e1 ∧ st1.endmatch2 = e2
        ∧ st1.x1 = st.x1 ∧ st1.y1 = st.y1 ∧ st1.escaped = false := by
  intro n
  induction n with
  | zero =>
    intro j hj st fuel hx hy hsb h1 h2 hesc _
    have hj1 : toks.length - 1 = j := by omega
    have hsb1 : st.sb = utf8_of (toks.map Tok.c) := by
      rw [hsb, List.take_of_length_le (by simp; omega)]
    exact ⟨st, rfl, by rw [hj1]; exact hx, by rw [hj1]; exact hy, hsb1, h1, h2, rfl, rfl, hesc⟩
  | succ n ih =>
    intro j hj st fuel hx hy hsb h1 h2 hesc hw
    have hjlen : j + 1 < toks.length := by omega
    have hjlen1 : j + 1 < (toks.map Tok.c).length := by simpa using hjlen
    have hread := (hl j hjlen).2 st.codepoint
    rw [← hx, ← hy] at hread
    obtain ⟨hc, _, hs, hb, _, hf⟩ := hch _ (tok_getD_mem toks (j + 1) hjlen)
    obtain ⟨n1, n2⟩ := hne _ (tok_getD_mem toks (j + 1) hjlen)
    have hnew : st.sb ++ codepoint_to_utf8 (toks.getD (j + 1) ⟨0, 0, 0⟩).c
        = utf8_of ((toks.map Tok.c).take (j + 1 + 1)) := by
      rw [utf8_of_take_step _ (j + 1) hjlen1, tok_c_getD toks (j + 1) hjlen, hsb]
    have hiter := goforward_iter_cont ty st _ _ _ hread hc hs hb hf (by rw [h1]; exact n1)
      (by rw [h2]; exact n2) hesc hw
    obtain ⟨st1, hrun, r1, r2, r3, r4, r5, r6, r7, r8⟩ :=
      ih (j + 1) (by omega)
        { st with sb := st.sb ++ codepoint_to_utf8 (toks.getD (j + 1) ⟨0, 0, 0⟩).c,
                  x2 := (toks.getD (j + 1) ⟨0, 0, 0⟩).x, y2 := (toks.getD (j + 1) ⟨0, 0, 0⟩).y,
                  codepoint := (toks.getD (j + 1) ⟨0, 0, 0⟩).c,
                  was_protocol := link_is_protocol
                    (some (st.sb ++ codepoint_to_utf8 (toks.getD (j + 1) ⟨0, 0, 0⟩).c)) }
        fuel rfl rfl hnew h1 h2 hesc (fun h => h)
    refine ⟨st1, ?_, r1, r2, r3, r4, r5, r6, r7, r8⟩
    show link_goforward ty ((fuel + n) + 1) st = _
    rw [link_goforward_succ, hiter]
    exact hrun

/-- The scan seeded on any cell of a token that is delimited on both sides
returns the whole token and the positions of its first and last cell. -/
theorem link_scan_token (ty : Termpty) (toks : List Tok) (i : Nat) (hi : i < toks.length)
    (hl : linked ty toks) (hch : ∀ t ∈ toks, token_char t.c)
    (hm : no_walk_past (toks.map Tok.c)) (e1 e2 : Nat)
    (hne : ∀ t ∈ toks, t.c ≠ e1 ∧ t.c ≠ e2)
    (hseed : _txt_at ty (toks.getD i ⟨0, 0, 0⟩).x (toks.getD i ⟨0, 0, 0⟩).y 0
      = some ⟨0, (toks.getD i ⟨0, 0, 0⟩).x, (toks.getD i ⟨0, 0, 0⟩).y,
          codepoint_to_utf8 (toks.getD i ⟨0, 0, 0⟩).c, (toks.getD i ⟨0, 0, 0⟩).c⟩)
    (hb : back_end ty (toks.getD 0 ⟨0, 0, 0⟩).x (toks.getD 0 ⟨0, 0, 0⟩).y e1 e2)
    (hf : fwd_end ty (toks.getD (toks.length - 1) ⟨0, 0, 0⟩).x
      (toks.getD (toks.length - 1) ⟨0, 0, 0⟩).y e1 e2)
    (fuel : Nat) (hfuel : toks.length < fuel) :
    ∃ st, link_scan ty fuel (toks.getD i ⟨0, 0, 0⟩).x (toks.getD i ⟨0, 0, 0⟩).y
        = Outcome.done (some st)
      ∧ st.sb = utf8_of (toks.map Tok.c)
      ∧ st.x1 = (toks.getD 0 ⟨0, 0, 0⟩).x ∧ st.y1 = (toks.getD 0 ⟨0, 0, 0⟩).y
      ∧ st.x2 = (toks.getD (toks.length - 1) ⟨0, 0, 0⟩).x
      ∧ st.y2 = (toks.getD (toks.length - 1) ⟨0, 0, 0⟩).y := by
  obtain ⟨hc, _, hs, _, _, _⟩ := hch _ (tok_getD_mem toks i hi)
  have hlen : ¬ ((0 : Int) ≠ 0 ∨ (codepoint_to_utf8 (toks.getD i ⟨0, 0, 0⟩).c).length = 0) := by
    intro h
    rcases h with h | h
    · exact h rfl
    · exact hc (List.length_eq_zero.1 h)
  have hilen1 : i < (toks.map Tok.c).length := by simpa using hi
  -- the backward loop
  have hsb0 : ty_sb_add [] (codepoint_to_utf8 (toks.getD i ⟨0, 0, 0⟩).c)
      = utf8_of (((toks.map Tok.c).drop i).take (i + 1 - i)) := by
    have e : i + 1 - i = 0 + 1 := by omega
    rw [e, utf8_of_window_step _ i 0 hilen1, tok_c_getD toks i hi]
    simp [ty_sb_add, utf8_of]
  obtain ⟨f1, hf1⟩ : ∃ f1, fuel = (f1 + 1) + i := ⟨fuel - 1 - i, by omega⟩
  obtain ⟨st1, hrun, b1, b2, b3, b4, b5, b6, b7, b8, b9⟩ :=
    link_goback_run ty toks i hi hl hch hm i (Nat.le_refl i)
      { sb := ty_sb_add [] (codepoint_to_utf8 (toks.getD i ⟨0, 0, 0⟩).c),
        x1 := (toks.getD i ⟨0, 0, 0⟩).x, y1 := (toks.getD i ⟨0, 0, 0⟩).y,
        x2 := (toks.getD i ⟨0, 0, 0⟩).x, y2 := (toks.getD i ⟨0, 0, 0⟩).y,
        endmatch1 := 0, endmatch2 := 0, was_protocol := false, escaped := false,
        codepoint := (toks.getD i ⟨0, 0, 0⟩).c }
      (f1 + 1) rfl rfl hsb0 rfl (fun h => by cases h)
  simp only at b5 b6 b7 b8
  obtain ⟨cp1, hend1⟩ := goback_iter_end ty st1 e1 e2 (by rw [b1, b2]; exact hb) b4 b5
  -- the forward loop
  obtain ⟨f2, hf2⟩ : ∃ f2, fuel = (f2 + 1) + (toks.length - 1 - i) :=
    ⟨fuel - 1 - (toks.length - 1 - i), by omega⟩
  obtain ⟨st2, hrun2, c1, c2, c3, c4, c5, c6, c7, c8⟩ :=
    link_goforward_run ty toks hl hch e1 e2 hne (toks.length - 1 - i) i (by omega)
      { st1 with endmatch1 := e1, endmatch2 := e2, codepoint := cp1 }
      (f2 + 1) b6 b7 b3 rfl rfl b8 b9
  simp only at c6 c7
  obtain ⟨cp2, hend2⟩ := goforward_iter_end ty st2
    (by rw [c1, c2, c4, c5]; exact hf) c8
  refine ⟨{ st2 with codepoint := cp2 }, ?_, c3, by rw [c6, b1], by rw [c7, b2], c1, c2⟩
  unfold link_scan
  rw [hseed]
  simp only
  rw [if_neg hlen]
  simp only [hs, Bool.false_eq_true, if_false]
  have hback : link_goback ty fuel
      { sb := ty_sb_add [] (codepoint_to_utf8 (toks.getD i ⟨0, 0, 0⟩).c),
        x1 := (toks.getD i ⟨0, 0, 0⟩).x, y1 := (toks.getD i ⟨0, 0, 0⟩).y,
        x2 := (toks.getD i ⟨0, 0, 0⟩).x, y2 := (toks.getD i ⟨0, 0, 0⟩).y,
        endmatch1 := 0, endmatch2 := 0, was_protocol := false, escaped := false,
        codepoint := (toks.getD i ⟨0, 0, 0⟩).c }
      = Outcome.done { st1 with endmatch1 := e1, endmatch2 := e2, codepoint := cp1 } := by
    rw [hf1, hrun, link_goback_succ, hend1]
  have hfwd : link_goforward ty fuel
      { st1 with endmatch1 := e1, endmatch2 := e2, codepoint := cp1 }
      = Outcome.done { st2 with codepoint := cp2 } := by
    rw [hf2, hrun2, link_goforward_succ, hend2]
  rw [hback]
  simp only
  rw [hfwd]

theorem utf8_of_ne_nil (cs : List Nat) (h : cs ≠ [])
    (hc : ∀ c ∈ cs, codepoint_to_utf8 c ≠ []) : utf8_of cs ≠ [] := by
  rcases cs with _ | ⟨c, rest⟩
  · exact absurd rfl h
  · intro h0
    rw [utf8_of, List.append_eq_nil] at h0
    exact hc c (List.mem_cons_self _ _) h0.1

/-- `termio_link_find` seeded on any cell of a token that is delimited on both
sides returns the text of the token with the span of its cells. -/
theorem termio_link_find_token (obj : Termio) (ty : Termpty) (toks : List Tok) (i : Nat)
    (lock : Int) (hpty : obj.pty = some ty) (hw : 0 < obj.w) (hh : 0 < obj.h)
    (hi : i < toks.length)
    (hl : linked ty toks) (hch : ∀ t ∈ toks, token_char t.c)
    (hm : no_walk_past (toks.map Tok.c)) (e1 e2 : Nat)
    (hne : ∀ t ∈ toks, t.c ≠ e1 ∧ t.c ≠ e2)
    (hseed : _txt_at ty (toks.getD i ⟨0, 0, 0⟩).x (toks.getD i ⟨0, 0, 0⟩).y 0
      = some ⟨0, (toks.getD i ⟨0, 0, 0⟩).x, (toks.getD i ⟨0, 0, 0⟩).y,
          codepoint_to_utf8 (toks.getD i ⟨0, 0, 0⟩).c, (toks.getD i ⟨0, 0, 0⟩).c⟩)
    (hb : back_end ty (toks.getD 0 ⟨0, 0, 0⟩).x (toks.getD 0 ⟨0, 0, 0⟩).y e1 e2)
    (hf : fwd_end ty (toks.getD (toks.length - 1) ⟨0, 0, 0⟩).x
      (toks.getD (toks.length - 1) ⟨0, 0, 0⟩).y e1 e2)
    (hv : returned_raw (utf8_of (toks.map Tok.c)))
    (fuel : Nat) (hfuel : toks.length < fuel) :
    termio_link_find obj fuel (toks.getD i ⟨0, 0, 0⟩).x
        ((toks.getD i ⟨0, 0, 0⟩).y + obj.scroll) lock
      = Outcome.done ⟨some (utf8_of (toks.map Tok.c)),
          some ⟨(toks.getD 0 ⟨0, 0, 0⟩).x, (toks.getD 0 ⟨0, 0, 0⟩).y + obj.scroll,
            (toks.getD (toks.length - 1) ⟨0, 0, 0⟩).x,
            (toks.getD (toks.length - 1) ⟨0, 0, 0⟩).y + obj.scroll⟩, lock⟩ := by
  obtain ⟨st, hscan, s1, s2, s3, s4, s5⟩ :=
    link_scan_token ty toks i hi hl hch hm e1 e2 hne hseed hb hf fuel hfuel
  have hsz : ¬ (obj.w ≤ 0 ∨ obj.h ≤ 0) := by omega
  have hne0 : ¬ (utf8_of (toks.map Tok.c)).length = 0 := by
    have hnil : toks.map Tok.c ≠ [] := by
      intro h0
      have : toks.length = 0 := by simpa using congrArg List.length h0
      omega
    have := utf8_of_ne_nil (toks.map Tok.c) hnil (by
      intro c hc
      obtain ⟨t, ht, rfl⟩ := List.mem_map.1 hc
      exact (hch t ht).1)
    intro h0
    exact this (List.length_eq_zero.1 h0)
  have hlock : termpty_backlog_unlock (termpty_backlog_lock lock) = lock := by
    simp [termpty_backlog_unlock, termpty_backlog_lock]
  have hcy : (toks.getD i ⟨0, 0, 0⟩).y + obj.scroll - obj.scroll = (toks.getD i ⟨0, 0, 0⟩).y := by
    omega
  unfold termio_link_find
  rw [hpty]
  simp only
  rw [if_neg hsz, hcy, hscan]
  simp only
  unfold link_out
  rw [s1, s2, s3, s4, s5, hlock]
  obtain ⟨hv1, hv2⟩ := hv
  simp only [ne_eq]
  rw [if_pos hne0, if_pos hv1]
  by_cases hfile : link_is_file (some (utf8_of (toks.map Tok.c))) = true
  · have h47 := hv2 hfile
    have hn : ¬ (link_is_file (some (utf8_of (toks.map Tok.c))) = true
        ∧ ¬ charAt (utf8_of (toks.map Tok.c)) 0 = 47) := by
      intro hh; exact hh.2 h47
    rw [if_neg hn]
  · have hn : ¬ (link_is_file (some (utf8_of (toks.map Tok.c))) = true
        ∧ ¬ charAt (utf8_of (toks.map Tok.c)) 0 = 47) := by
      intro hh; exact hfile hh.1
    rw [if_neg hn]

/-! ## Shared lemmas on the walker inside a row -/

theorem cellAt_nat (l : List Termcell) (n : Nat) : cellAt l (n : Int) = l.get? n := by
  simp [cellAt]

theorem cellAt_append_right (a b : List Termcell) (j : Nat) :
    cellAt (a ++ b) ((a.length + j : Nat) : Int) = b.get? j := by
  rw [cellAt_nat, List.get?_eq_getElem?, List.get?_eq_getElem?,
    List.getElem?_append_right (by omega)]
  simp

theorem row_toks_length (x0 y : Int) (cells : List Termcell) :
    (row_toks x0 y cells).length = cells.length := by
  induction cells generalizing x0 with
  | nil => rfl
  | cons c cs ih => simp [row_toks, ih]

theorem row_toks_map_c (x0 y : Int) (cells : List Termcell) :
    (row_toks x0 y cells).map Tok.c = cells.map Termcell.codepoint := by
  induction cells generalizing x0 with
  | nil => rfl
  | cons c cs ih => simp [row_toks, ih]

theorem row_toks_cons (x0 y : Int) (c : Termcell) (cs : List Termcell) :
    row_toks x0 y (c :: cs) = ⟨x0, y, c.codepoint⟩ :: row_toks (x0 + 1) y cs := rfl

theorem row_toks_append (x0 y : Int) (a b : List Termcell) :
    row_toks x0 y (a ++ b) = row_toks x0 y a ++ row_toks (x0 + a.length) y b := by
  induction a generalizing x0 with
  | nil => simp [row_toks]
  | cons c cs ih =>
    have e : x0 + 1 + (cs.length : Int) = x0 + ((cs.length + 1 : Nat) : Int) := by
      push_cast; omega
    rw [List.cons_append, row_toks_cons, row_toks_cons, ih, List.length_cons, ← e,
      List.cons_append]

theorem row_toks_getD (x0 y : Int) (cells : List Termcell) (j : Nat) (hj : j < cells.length) :
    (row_toks x0 y cells).getD j ⟨0, 0, 0⟩
      = ⟨x0 + j, y, (cells.getD j ⟨0, false, false, 0⟩).codepoint⟩ := by
  induction cells generalizing x0 j with
  | nil => simp at hj
  | cons c cs ih =>
    cases j with
    | zero => simp [row_toks]
    | succ j =>
      simp only [row_toks, List.getD_cons_succ]
      rw [ih (x0 + 1) j (by simpa using hj)]
      simp only [Nat.cast_add, Nat.cast_one, Tok.mk.injEq, and_true]
      omega

theorem row_toks_mem (x0 y : Int) (cells : List Termcell) (t : Tok)
    (h : t ∈ row_toks x0 y cells) : ∃ cell ∈ cells, t.c = cell.codepoint := by
  induction cells generalizing x0 with
  | nil => simp [row_toks] at h
  | cons c cs ih =>
    simp only [row_toks, List.mem_cons] at h
    rcases h with h | h
    · exact ⟨c, List.mem_cons_self _ _, by rw [h]⟩
    · obtain ⟨cell, hm, hc⟩ := ih (x0 + 1) h
      exact ⟨cell, List.mem_cons_of_mem _ hm, hc⟩

theorem ofCell_tok (cell : Termcell) (x y : Int) (hc : cell.codepoint ≠ 0)
    (hl : cell.link_id = 0) :
    Txt.ofCell cell x y = ⟨0, x, y, codepoint_to_utf8 cell.codepoint, cell.codepoint⟩ := by
  unfold Txt.ofCell
  rw [if_neg]
  intro h
  rcases h with h | h
  · exact hc h
  · exact h hl

/-- `_txt_at` on a cell inside the row. -/
theorem txt_at_cell (ty : Termpty) (row : Cellrow) (cell : Termcell) (x y : Int) (cp : Nat)
    (hrow : ty.cellrow y = some row) (hx : 0 ≤ x) (hw : x < row.w)
    (hcell : cellAt row.cells x = some cell)
    (hnd : ¬ (cell.codepoint = 0 ∧ cell.dblwidth = true)) :
    _txt_at ty x y cp = some (Txt.ofCell cell x y) := by
  unfold _txt_at
  rw [hrow]
  simp only
  rw [if_neg (by omega), if_neg (by omega), hcell]
  simp only
  rw [if_neg hnd]

/-- `_txt_prev_at` stepping to the cell on its left in the same row. -/
theorem txt_prev_cell (ty : Termpty) (row : Cellrow) (cell : Termcell) (x y : Int) (cp : Nat)
    (hrow : ty.cellrow y = some row) (hx : 0 ≤ x - 1) (hw : x - 1 < row.w)
    (hcell : cellAt row.cells (x - 1) = some cell)
    (hnd : ¬ (cell.codepoint = 0 ∧ cell.dblwidth = true)) :
    _txt_prev_at ty x y cp = some (Txt.ofCell cell (x - 1) y) := by
  unfold _txt_prev_at
  rw [if_neg (by omega), hrow]
  simp only
  rw [if_neg (by omega), if_neg (by omega), hcell]
  simp only
  unfold prev_tail
  rw [if_neg hnd]

/-- `_txt_next_at` stepping to the cell on its right in the same row. -/
theorem txt_next_cell (ty : Termpty) (row : Cellrow) (cell : Termcell) (x y : Int) (cp : Nat)
    (hrow : ty.cellrow y = some row) (hx : 0 ≤ x + 1) (hw : x + 1 < row.w)
    (hcell : cellAt row.cells (x + 1) = some cell)
    (hnd : ¬ (cell.codepoint = 0 ∧ cell.dblwidth = true)) :
    _txt_next_at ty x y cp = some (Txt.ofCell cell (x + 1) y) := by
  unfold _txt_next_at
  rw [hrow]
  simp only
  rw [if_neg (by omega), if_neg (by omega)]
  unfold next_tail
  rw [hcell]
  simp only
  rw [if_neg hnd]

/-! ## A token between delimiters (C8) -/

theorem endmatch_of_props (c e1 e2 : Nat) (h : endmatch_of c = some (e1, e2)) :
    c ≠ 0 ∧ codepoint_to_utf8 c ≠ [] ∧ _isspace_unicode c = false
      ∧ e1 ≠ 0 ∧ e2 ≠ 0 ∧ e1 ≠ 92 ∧ e2 ≠ 92 := by
  unfold endmatch_of at h
  split at h
  · rename_i e he
    have hmem := List.mem_of_find?_eq_some he
    have hc : e.1 = c := by
      have := List.find?_some he
      simpa using this
    have hall : ∀ e ∈ endmatch_table, e.1 ≠ 0 ∧ codepoint_to_utf8 e.1 ≠ []
        ∧ _isspace_unicode e.1 = false ∧ e.2.1 ≠ 0 ∧ e.2.2 ≠ 0 ∧ e.2.1 ≠ 92 ∧ e.2.2 ≠ 92 := by
      decide
    cases h
    rw [← hc]
    exact hall e hmem
  · cases h

theorem cell_open (pre rest : List Termcell) (o : Termcell) :
    cellAt (pre ++ o :: rest) ((pre.length : Nat) : Int) = some o := by
  have := cellAt_append_right pre (o :: rest) 0
  simpa using this

theorem cell_body (pre body rest : List Termcell) (o : Termcell) (j : Nat)
    (hj : j < body.length) :
    cellAt (pre ++ o :: (body ++ rest)) ((pre.length + 1 + j : Nat) : Int)
      = some (body.getD j ⟨0, false, false, 0⟩) := by
  have := cellAt_append_right pre (o :: (body ++ rest)) (1 + j)
  rw [show pre.length + (1 + j) = pre.length + 1 + j by omega] at this
  rw [this, List.get?_eq_getElem?, show 1 + j = j + 1 by omega, List.getElem?_cons_succ,
    List.getElem?_append_left hj, List.getD_eq_getElem _ _ hj, List.getElem?_eq_getElem hj]

theorem cell_close (pre body post : List Termcell) (o c : Termcell) :
    cellAt (pre ++ o :: (body ++ c :: post)) ((pre.length + 1 + body.length : Nat) : Int)
      = some c := by
  have := cellAt_append_right pre (o :: (body ++ c :: post)) (1 + body.length)
  rw [show pre.length + (1 + body.length) = pre.length + 1 + body.length by omega] at this
  rw [this, List.get?_eq_getElem?, show 1 + body.length = body.length + 1 by omega,
    List.getElem?_cons_succ, List.getElem?_append_right (Nat.le_refl _)]
  simp

/-- C8 fails for bodies that the scan cuts or rewrites.  Between two double
quotes: in `http://a/?u=http://x` the seed on the last `x` returns `http://x`
(the backward scan stops where the buffer stops being a URI scheme) while the
seed on the first `p` returns the whole body; in `http://a/(b)` the seed on `b`
returns NULL (the backward scan stops at `(`); in `http://a>b` and in
`http://a b` the forward scan stops at `>` and at the space; after a
double-width glyph and before a link-tagged cell the forward scan stops as
well; in `/a`, backslash, `b` the backslash is left out of the returned `/ab`;
the relative path `./a/b` is returned resolved against the working directory;
the body `abc` fails the validation.  After a link-tagged `(` the forward scan
does not stop at `)`. -/
theorem termio_link_find_delimited_cut :
    termio_link_find (screen 22 1 [quoted "http://a/?u=http://x"]) 40 20 0 0
        = Outcome.done ⟨some (bytes "http://x"), some ⟨13, 0, 20, 0⟩, 0⟩
    ∧ termio_link_find (screen 22 1 [quoted "http://a/?u=http://x"]) 40 4 0 0
        = Outcome.done ⟨some (bytes "http://a/?u=http://x"), some ⟨1, 0, 20, 0⟩, 0⟩
    ∧ termio_link_find (screen 14 1 [quoted "http://a/(b)"]) 40 11 0 0
        = Outcome.done ⟨none, none, 0⟩
    ∧ termio_link_find (screen 14 1 [quoted "http://a/(b)"]) 40 4 0 0
        = Outcome.done ⟨some (bytes "http://a/(b)"), some ⟨1, 0, 12, 0⟩, 0⟩
    ∧ termio_link_find (screen 12 1 [quoted "http://a>b"]) 40 4 0 0
        = Outcome.done ⟨some (bytes "http://a"), some ⟨1, 0, 8, 0⟩, 0⟩
    ∧ termio_link_find (screen 12 1 [quoted "http://a b"]) 40 4 0 0
        = Outcome.done ⟨some (bytes "http://a"), some ⟨1, 0, 8, 0⟩, 0⟩
    ∧ termio_link_find (screen 13 1 [quoted_wide_row]) 40 4 0 0
        = Outcome.done ⟨some (bytes "http://" ++ codepoint_to_utf8 0x4e2d),
            some ⟨1, 0, 8, 0⟩, 0⟩
    ∧ termio_link_find (screen 12 1 [quoted_tagged_row]) 40 4 0 0
        = Outcome.done ⟨some (bytes "http://"), some ⟨1, 0, 7, 0⟩, 0⟩
    ∧ termio_link_find (screen 6 1 [quoted_esc_row]) 40 1 0 0
        = Outcome.done ⟨some (bytes "/ab"), some ⟨1, 0, 4, 0⟩, 0⟩
    ∧ termio_link_find (screen_cwd 7 1 [quoted "./a/b"] (bytes "/home/u")) 40 3 0 0
        = Outcome.done ⟨some (bytes "/home/u/./a/b"), some ⟨1, 0, 5, 0⟩, 0⟩
    ∧ termio_link_find (screen 5 1 [quoted "abc"]) 40 2 0 0 = Outcome.done ⟨none, none, 0⟩
    ∧ termio_link_find (screen 13 1 [tagged_paren_row]) 40 3 0 0
        = Outcome.done ⟨some (bytes "www.a.org)x"), some ⟨1, 0, 11, 0⟩, 0⟩ := by
  decide

/-- C8, amended: on a widget of positive size, in a row holding within its
width an opening delimiter of the pairing table (not link-tagged), then a token
body, then a matching closing delimiter, `termio_link_find` seeded on any cell
of the body returns exactly the text of the body, with `(x1, y1)` the cell just
after the opening delimiter and `(x2, y2)` the cell just before the closing
one, provided that: every cell of the body is without link tag and holds a
token character (a non-zero codepoint with a UTF-8 text that is no whitespace,
no backslash, no case of the backward `switch` and no case of the forward
`switch`) other than the closing delimiters; the body satisfies `link_is_file`,
`link_is_email` or `link_is_url` and starts with `/` when it satisfies
`link_is_file` (no path resolution); and whenever a window of the body
satisfies `link_is_protocol`, so does the window extended by the character to
its left (the backward scan never walks past a URI scheme). -/
theorem termio_link_find_delimited (obj : Termio) (ty : Termpty) (lock : Int) (fuel : Nat)
    (y : Int) (row : Cellrow) (pre body post : List Termcell) (o c : Termcell)
    (e1 e2 : Nat) (i : Nat)
    (hpty : obj.pty = some ty) (hw : 0 < obj.w) (hh : 0 < obj.h)
    (hrow : ty.cellrow y = some row)
    (hcells : row.cells = pre ++ o :: (body ++ c :: post))
    (hwidth : ((pre.length + 1 + body.length + 1 : Nat) : Int) ≤ row.w)
    (ho : endmatch_of o.codepoint = some (e1, e2)) (hol : o.link_id = 0)
    (hc : c.codepoint = e1 ∨ c.codepoint = e2)
    (hbody : ∀ b ∈ body, token_char b.codepoint ∧ b.link_id = 0
      ∧ b.codepoint ≠ e1 ∧ b.codepoint ≠ e2)
    (hm : no_walk_past (body.map Termcell.codepoint))
    (hv : returned_raw (utf8_of (body.map Termcell.codepoint)))
    (hi : i < body.length) (hfuel : body.length < fuel) :
    termio_link_find obj fuel ((pre.length + 1 + i : Nat) : Int) (y + obj.scroll) lock
      = Outcome.done ⟨some (utf8_of (body.map Termcell.codepoint)),
          some ⟨((pre.length + 1 : Nat) : Int), y + obj.scroll,
            ((pre.length + body.length : Nat) : Int), y + obj.scroll⟩, lock⟩ := by
  obtain ⟨o0, outf, osp, e10, e20, e1b, e2b⟩ := endmatch_of_props _ _ _ ho
  have hlen := row_toks_length ((pre.length + 1 : Nat) : Int) y body
  have hget : ∀ j, j < body.length →
      (row_toks ((pre.length + 1 : Nat) : Int) y body).getD j ⟨0, 0, 0⟩
        = ⟨((pre.length + 1 + j : Nat) : Int), y,
            (body.getD j ⟨0, false, false, 0⟩).codepoint⟩ := by
    intro j hj
    rw [row_toks_getD _ _ _ _ hj]
    simp only [Tok.mk.injEq, and_true]
    push_cast
    rfl
  have hbj : ∀ j, j < body.length →
      token_char (body.getD j ⟨0, false, false, 0⟩).codepoint
        ∧ (body.getD j ⟨0, false, false, 0⟩).link_id = 0 := by
    intro j hj
    have hmem : body.getD j ⟨0, false, false, 0⟩ ∈ body := by
      rw [List.getD_eq_getElem _ _ hj]; exact List.getElem_mem hj
    exact ⟨(hbody _ hmem).1, (hbody _ hmem).2.1⟩
  have hofc : ∀ j, j < body.length → ∀ x : Int,
      Txt.ofCell (body.getD j ⟨0, false, false, 0⟩) x y
        = ⟨0, x, y, codepoint_to_utf8 (body.getD j ⟨0, false, false, 0⟩).codepoint,
            (body.getD j ⟨0, false, false, 0⟩).codepoint⟩ := by
    intro j hj x
    exact ofCell_tok _ x y (hbj j hj).1.2.1 (hbj j hj).2
  have hnd : ∀ j, j < body.length →
      ¬ ((body.getD j ⟨0, false, false, 0⟩).codepoint = 0
        ∧ (body.getD j ⟨0, false, false, 0⟩).dblwidth = true) := by
    intro j hj hh
    exact (hbj j hj).1.2.1 hh.1
  have hcellj : ∀ j, j < body.length →
      cellAt row.cells ((pre.length + 1 + j : Nat) : Int)
        = some (body.getD j ⟨0, false, false, 0⟩) := by
    intro j hj
    rw [hcells]
    exact cell_body pre body (c :: post) o j hj
  have hres := termio_link_find_token obj ty (row_toks ((pre.length + 1 : Nat) : Int) y body) i
    lock hpty hw hh (by rw [hlen]; exact hi) ?_ ?_ ?_ e1 e2 ?_ ?_ ?_ ?_ ?_ fuel
    (by rw [hlen]; exact hfuel)
  · rw [hget i hi, hget 0 (by omega), hlen, hget (body.length - 1) (by omega),
      row_toks_map_c] at hres
    simp only at hres
    rw [show pre.length + 1 + 0 = pre.length + 1 by omega,
      show pre.length + 1 + (body.length - 1) = pre.length + body.length by omega] at hres
    exact hres
  · -- linked
    intro j hj
    rw [hlen] at hj
    rw [hget j (by omega), hget (j + 1) hj]
    simp only
    constructor
    · intro cp
      have hx : (((pre.length + 1 + (j + 1) : Nat) : Int)) - 1 = ((pre.length + 1 + j : Nat) : Int) := by
        push_cast; omega
      have := txt_prev_cell ty row _ ((pre.length + 1 + (j + 1) : Nat) : Int) y cp hrow
        (by rw [hx]; omega) (by rw [hx]; omega) (by rw [hx]; exact hcellj j (by omega))
        (hnd j (by omega))
      rw [this, hx, hofc j (by omega)]
    · intro cp
      have hx : (((pre.length + 1 + j : Nat) : Int)) + 1 = ((pre.length + 1 + (j + 1) : Nat) : Int) := by
        push_cast; omega
      have := txt_next_cell ty row _ ((pre.length + 1 + j : Nat) : Int) y cp hrow
        (by rw [hx]; omega) (by rw [hx]; omega) (by rw [hx]; exact hcellj (j + 1) hj)
        (hnd (j + 1) hj)
      rw [this, hx, hofc (j + 1) hj]
  · -- token characters
    intro t ht
    obtain ⟨cell, hmem, hceq⟩ := row_toks_mem _ _ _ _ ht
    rw [hceq]
    exact (hbody cell hmem).1
  · -- no walk past
    rw [row_toks_map_c]
    exact hm
  · -- not a closing delimiter
    intro t ht
    obtain ⟨cell, hmem, hceq⟩ := row_toks_mem _ _ _ _ ht
    rw [hceq]
    exact ⟨(hbody cell hmem).2.2.1, (hbody cell hmem).2.2.2⟩
  · -- seed
    rw [hget i hi]
    simp only
    rw [txt_at_cell ty row _ _ y 0 hrow (by omega) (by omega) (hcellj i hi) (hnd i hi),
      hofc i hi]
  · -- the opening delimiter ends the backward scan
    rw [hget 0 (by omega)]
    simp only
    intro cp
    have hx : (((pre.length + 1 + 0 : Nat) : Int)) - 1 = ((pre.length : Nat) : Int) := by
      push_cast; omega
    have hco : cellAt row.cells (((pre.length + 1 + 0 : Nat) : Int) - 1) = some o := by
      rw [hx, hcells]; exact cell_open pre _ o
    have := txt_prev_cell ty row o ((pre.length + 1 + 0 : Nat) : Int) y cp hrow
      (by rw [hx]; omega) (by rw [hx]; omega) hco (fun hh => o0 hh.1)
    refine ⟨_, this, Or.inr (Or.inr ?_)⟩
    rw [ofCell_tok o _ y o0 hol]
    refine ⟨rfl, ?_, osp, ho⟩
    simp only [ne_eq, List.length_eq_zero]
    exact outf
  · -- the closing delimiter ends the forward scan
    rw [hlen, hget (body.length - 1) (by omega)]
    simp only
    intro cp
    have hx : (((pre.length + 1 + (body.length - 1) : Nat) : Int)) + 1
        = ((pre.length + 1 + body.length : Nat) : Int) := by
      push_cast; omega
    have hc0 : c.codepoint ≠ 0 := by
      rcases hc with hc | hc <;> rw [hc] <;> assumption
    have hcc : cellAt row.cells (((pre.length + 1 + (body.length - 1) : Nat) : Int) + 1)
        = some c := by
      rw [hx, hcells]; exact cell_close pre body post o c
    have := txt_next_cell ty row c ((pre.length + 1 + (body.length - 1) : Nat) : Int) y cp hrow
      (by rw [hx]; omega) (by rw [hx]; push_cast at hwidth ⊢; omega) hcc (fun hh => hc0 hh.1)
    refine ⟨_, this, ?_⟩
    unfold Txt.ofCell
    split_ifs with hl
    · right; left; rfl
    · right; right
      refine ⟨?_, ?_⟩
      · rcases hc with hc | hc <;> simp only [hc] <;> assumption
      · rcases hc with hc | hc
        · right; left; exact hc
        · right; right; left; exact hc
  · -- validation
    rw [row_toks_map_c]
    exact hv

/-- C8 amended, at concrete inputs: in the row `"http://a/b"` every seed inside the
body returns `http://a/b` with the span from column 1 to column 10, the quote
cells excluded; in the row ` (www.a.org) ` a seed inside the body returns
`www.a.org` with the span from column 2 to column 10. -/
theorem termio_link_find_delimited_witness :
    termio_link_find (screen 12 1 [quoted_row]) 20 4 0 0
      = Outcome.done ⟨some (bytes "http://a/b"), some ⟨1, 0, 10, 0⟩, 0⟩
    ∧ (∀ i < 10, termio_link_find (screen 12 1 [quoted_row]) 20 ((1 + i : Nat) : Int) 0 0
      = Outcome.done ⟨some (bytes "http://a/b"), some ⟨1, 0, 10, 0⟩, 0⟩)
    ∧ termio_link_find (screen 13 1 [paren_row]) 20 5 0 0
      = Outcome.done ⟨some (bytes "www.a.org"), some ⟨2, 0, 10, 0⟩, 0⟩ :=
  ⟨termio_link_find_delimited (screen 12 1 [quoted_row]) (screen_pty 12 [quoted_row]) 0 20 0
      quoted_row [] ((bytes "http://a/b").map mkcell) [] (mkcell 34) (mkcell 34) 34 34 3
      rfl (by decide) (by decide) rfl rfl (by decide) (by decide) rfl (by decide) (by decide)
      (by decide) (by decide) (by decide) (by decide),
    by decide,
    termio_link_find_delimited (screen 13 1 [paren_row]) (screen_pty 13 [paren_row]) 0 20 0
      paren_row [mkcell 32] ((bytes "www.a.org").map mkcell) [mkcell 32] (mkcell 40) (mkcell 41)
      41 41 3
      rfl (by decide) (by decide) rfl rfl (by decide) (by decide) rfl (by decide) (by decide)
      (by decide) (by decide) (by decide) (by decide)⟩

/-! ## A token soft-wrapped over two rows (C9) -/

/-- A URL is no relative path: a buffer that satisfies `link_is_url` does not
satisfy `link_is_file`, so the validation returns it as it is. -/
theorem url_returned_raw (s : List Nat) (h : link_is_url (some s) = true) :
    returned_raw s := by
  refine ⟨Or.inr (Or.inr h), fun hf => ?_⟩
  exfalso
  have h0 : isalpha (charAt s 0) = true ∨ tolower (charAt s 0) = 119
      ∨ tolower (charAt s 0) = 102 := by
    unfold link_is_url at h
    by_cases hp : link_is_protocol (some s) = true
    · left
      unfold link_is_protocol at hp
      by_cases ha : isalpha (charAt s 0) = true
      · exact ha
      · simp only [ha, Bool.not_false, if_true] at hp
        cases hp
    · right
      by_cases hw : casestartswith s (bytes "www.") = true
      · left
        unfold casestartswith at hw
        rw [List.all_eq_true] at hw
        have := hw 0 (by decide)
        simpa using this
      · by_cases hf2 : casestartswith s (bytes "ftp.") = true
        · right
          unfold casestartswith at hf2
          rw [List.all_eq_true] at hf2
          have := hf2 0 (by decide)
          simpa using this
        · simp only [hp, hw, hf2, Bool.or_self] at h
          cases h
  have hfile : charAt s 0 = 47 ∨ charAt s 0 = 126 ∨ charAt s 0 = 46 := by
    unfold link_is_file at hf
    by_cases c1 : charAt s 0 = 47
    · exact Or.inl c1
    · by_cases c2 : charAt s 0 = 126
      · exact Or.inr (Or.inl c2)
      · by_cases c3 : charAt s 0 = 46
        · exact Or.inr (Or.inr c3)
        · simp only [c1, c2, c3, if_false] at hf
          cases hf
  rcases hfile with c | c | c <;> rw [c] at h0 <;> revert h0 <;> decide

/-- `_txt_prev_at` from column 0 crosses to the last cell of the row above when
that row is as wide as the screen and its last cell is autowrapped. -/
theorem txt_prev_cross (ty : Termpty) (row : Cellrow) (cell : Termcell) (y : Int) (cp : Nat)
    (hrow : ty.cellrow (y - 1) = some row) (hw : row.w = ty.w) (hpos : 0 < row.w)
    (hcell : cellAt row.cells (ty.w - 1) = some cell) (hwrap : cell.autowrapped = true)
    (hnd : ¬ (cell.codepoint = 0 ∧ cell.dblwidth = true)) :
    _txt_prev_at ty 0 y cp = some (Txt.ofCell cell (ty.w - 1) (y - 1)) := by
  unfold _txt_prev_at
  rw [if_pos (by omega), hrow]
  simp only
  rw [if_neg (by omega), if_neg (by omega), hcell]
  simp only
  rw [if_neg (by
    intro h
    rcases h with h | h
    · rw [hwrap] at h; exact Bool.noConfusion h.1
    · omega)]
  unfold prev_tail
  rw [if_neg hnd]

/-- `_txt_next_at` from the last cell of a row crosses to column 0 of the row
below when the row is no wider than the screen and its last cell is
autowrapped. -/
theorem txt_next_cross (ty : Termpty) (row row1 : Cellrow) (last cell : Termcell) (x y : Int)
    (cp : Nat) (hrow : ty.cellrow y = some row) (hx : x + 1 = row.w) (hpos : 0 < row.w)
    (hw : row.w ≤ ty.w) (hlast : cellAt row.cells (row.w - 1) = some last)
    (hwrap : last.autowrapped = true) (hrow1 : ty.cellrow (y + 1) = some row1)
    (hpos1 : row1.w ≠ 0) (hcell : cellAt row1.cells 0 = some cell)
    (hnd : ¬ (cell.codepoint = 0 ∧ cell.dblwidth = true)) :
    _txt_next_at ty x y cp = some (Txt.ofCell cell 0 (y + 1)) := by
  unfold _txt_next_at
  rw [hrow]
  simp only
  rw [if_neg (by omega), if_pos (by omega), if_pos (by omega), hlast]
  simp only
  rw [if_neg (by rw [hwrap]; exact Bool.noConfusion), hrow1]
  simp only
  rw [if_neg hpos1]
  unfold next_tail
  rw [hcell]
  simp only
  rw [if_neg hnd]

/-- C9 fails for tokens that the scan cuts or rewrites.  On a screen of width 8
whose first row is a space and `http://` with the autowrapped flag on its last
cell: with `a?h://b` in the second row the seed on `b` returns `h://b` with
`y1` on the second row (the backward scan stops where the buffer stops being a
URI scheme) while a seed in the first row returns `http://a?h://b` over both
rows; with `a(b)` in the second row the seed on `b` returns NULL (the backward
scan stops at `(`) while a seed in the first row returns `http://a(b)`; with
`a`, backslash, `b` in the second row a seed in the first row returns
`http://ab` and the seed on `b` returns the text with the backslash. -/
theorem termio_link_find_wrapped_cut :
    termio_link_find (screen 8 2 [wrap_row1, textrow "a?h://b "]) 40 6 1 0
        = Outcome.done ⟨some (bytes "h://b"), some ⟨2, 1, 6, 1⟩, 0⟩
    ∧ termio_link_find (screen 8 2 [wrap_row1, textrow "a?h://b "]) 40 3 0 0
        = Outcome.done ⟨some (bytes "http://a?h://b"), some ⟨1, 0, 6, 1⟩, 0⟩
    ∧ termio_link_find (screen 8 2 [wrap_row1, textrow "a(b)    "]) 40 2 1 0
        = Outcome.done ⟨none, none, 0⟩
    ∧ termio_link_find (screen 8 2 [wrap_row1, textrow "a(b)    "]) 40 3 0 0
        = Outcome.done ⟨some (bytes "http://a(b)"), some ⟨1, 0, 3, 1⟩, 0⟩
    ∧ termio_link_find (screen 8 2 [wrap_row1, wrap_esc_row]) 40 3 0 0
        = Outcome.done ⟨some (bytes "http://ab"), some ⟨1, 0, 2, 1⟩, 0⟩
    ∧ termio_link_find (screen 8 2 [wrap_row1, wrap_esc_row]) 40 2 1 0
        = Outcome.done ⟨some (bytes "http://a" ++ 92 :: bytes "b"), some ⟨1, 0, 2, 1⟩, 0⟩ := by
  decide

/-- C9, amended: on a widget of positive size, when a row is as wide as the
screen, its last cell carries the autowrapped flag, and a token starts in that
row and goes on from column 0 of the next row, `termio_link_find` returns one
token covering the cells of both rows, with `y1` the first row and `y2` the
second, for every seed in the first row (the forward scan crosses through
`_txt_next_at`) and for every seed in the second row (the backward scan crosses
through `_txt_prev_at`), provided that: every cell of the token is without link
tag and holds a token character (a non-zero codepoint with a UTF-8 text that
is no whitespace, no backslash, no case of the backward `switch` and no case
of the forward `switch`) other than the expected terminators; the token is bounded on
both sides (the step back from its first cell and the step forward from its
last cell end the scans); the token satisfies `link_is_file`, `link_is_email`
or `link_is_url` and starts with `/` when it satisfies `link_is_file`, as every
URL does; and whenever a window of the token satisfies `link_is_protocol`, so
does the window extended by the character to its left. -/
theorem termio_link_find_wrapped (obj : Termio) (ty : Termpty) (lock : Int) (fuel : Nat)
    (y : Int) (row1 row2 : Cellrow) (pre b1 b2 post : List Termcell) (e1 e2 : Nat)
    (hpty : obj.pty = some ty) (hw : 0 < obj.w) (hh : 0 < obj.h)
    (hrow1 : ty.cellrow y = some row1) (hcells1 : row1.cells = pre ++ b1)
    (hw1 : row1.w = ty.w) (hwP : row1.w = ((pre.length + b1.length : Nat) : Int))
    (hn1 : 0 < b1.length)
    (hwrap : (b1.getD (b1.length - 1) ⟨0, false, false, 0⟩).autowrapped = true)
    (hrow2 : ty.cellrow (y + 1) = some row2) (hcells2 : row2.cells = b2 ++ post)
    (hn2 : 0 < b2.length) (hw2 : ((b2.length : Nat) : Int) ≤ row2.w)
    (hbody : ∀ b ∈ b1 ++ b2, token_char b.codepoint ∧ b.link_id = 0
      ∧ b.codepoint ≠ e1 ∧ b.codepoint ≠ e2)
    (hback : back_end ty ((pre.length : Nat) : Int) y e1 e2)
    (hfwd : fwd_end ty ((b2.length - 1 : Nat) : Int) (y + 1) e1 e2)
    (hm : no_walk_past ((b1 ++ b2).map Termcell.codepoint))
    (hv : returned_raw (utf8_of ((b1 ++ b2).map Termcell.codepoint)))
    (hfuel : b1.length + b2.length < fuel) :
    (∀ i, i < b1.length →
      termio_link_find obj fuel ((pre.length + i : Nat) : Int) (y + obj.scroll) lock
        = Outcome.done ⟨some (utf8_of ((b1 ++ b2).map Termcell.codepoint)),
            some ⟨((pre.length : Nat) : Int), y + obj.scroll,
              ((b2.length - 1 : Nat) : Int), y + 1 + obj.scroll⟩, lock⟩)
    ∧ (∀ j, j < b2.length →
      termio_link_find obj fuel ((j : Nat) : Int) (y + 1 + obj.scroll) lock
        = Outcome.done ⟨some (utf8_of ((b1 ++ b2).map Termcell.codepoint)),
            some ⟨((pre.length : Nat) : Int), y + obj.scroll,
              ((b2.length - 1 : Nat) : Int), y + 1 + obj.scroll⟩, lock⟩) := by
  -- the cells of the token, in reading order
  have hl1 := row_toks_length ((pre.length : Nat) : Int) y b1
  have hl2 := row_toks_length 0 (y + 1) b2
  have hlen : (row_toks ((pre.length : Nat) : Int) y b1 ++ row_toks 0 (y + 1) b2).length
      = b1.length + b2.length := by
    rw [List.length_append, hl1, hl2]
  have hget1 : ∀ j, j < b1.length →
      (row_toks ((pre.length : Nat) : Int) y b1 ++ row_toks 0 (y + 1) b2).getD j ⟨0, 0, 0⟩
        = ⟨((pre.length + j : Nat) : Int), y,
            (b1.getD j ⟨0, false, false, 0⟩).codepoint⟩ := by
    intro j hj
    rw [List.getD_append _ _ _ _ (by rw [hl1]; exact hj), row_toks_getD _ _ _ _ hj]
    simp only [Tok.mk.injEq, and_true]
    push_cast
    rfl
  have hget2 : ∀ j, j < b2.length →
      (row_toks ((pre.length : Nat) : Int) y b1 ++ row_toks 0 (y + 1) b2).getD
          (b1.length + j) ⟨0, 0, 0⟩
        = ⟨((j : Nat) : Int), y + 1, (b2.getD j ⟨0, false, false, 0⟩).codepoint⟩ := by
    intro j hj
    rw [List.getD_append_right _ _ _ _ (by rw [hl1]; omega), hl1,
      show b1.length + j - b1.length = j by omega, row_toks_getD _ _ _ _ hj]
    simp only [Tok.mk.injEq, and_true]
    omega
  have hmap : (row_toks ((pre.length : Nat) : Int) y b1 ++ row_toks 0 (y + 1) b2).map Tok.c
      = (b1 ++ b2).map Termcell.codepoint := by
    rw [List.map_append, row_toks_map_c, row_toks_map_c, List.map_append]
  have hmem : ∀ t ∈ row_toks ((pre.length : Nat) : Int) y b1 ++ row_toks 0 (y + 1) b2,
      ∃ cell ∈ b1 ++ b2, t.c = cell.codepoint := by
    intro t ht
    rcases List.mem_append.1 ht with h | h
    · obtain ⟨cell, hm1, hc⟩ := row_toks_mem _ _ _ _ h
      exact ⟨cell, List.mem_append_left _ hm1, hc⟩
    · obtain ⟨cell, hm1, hc⟩ := row_toks_mem _ _ _ _ h
      exact ⟨cell, List.mem_append_right _ hm1, hc⟩
  -- the cells of the two rows
  have hm1 : ∀ j, j < b1.length → b1.getD j ⟨0, false, false, 0⟩ ∈ b1 ++ b2 := by
    intro j hj
    rw [List.getD_eq_getElem _ _ hj]
    exact List.mem_append_left _ (List.getElem_mem hj)
  have hm2 : ∀ j, j < b2.length → b2.getD j ⟨0, false, false, 0⟩ ∈ b1 ++ b2 := by
    intro j hj
    rw [List.getD_eq_getElem _ _ hj]
    exact List.mem_append_right _ (List.getElem_mem hj)
  have hof : ∀ cell ∈ b1 ++ b2, ∀ x yy : Int,
      Txt.ofCell cell x yy = ⟨0, x, yy, codepoint_to_utf8 cell.codepoint, cell.codepoint⟩ := by
    intro cell hc x yy
    exact ofCell_tok _ x yy (hbody cell hc).1.2.1 (hbody cell hc).2.1
  have hnd : ∀ cell ∈ b1 ++ b2, ¬ (cell.codepoint = 0 ∧ cell.dblwidth = true) := by
    intro cell hc hh
    exact (hbody cell hc).1.2.1 hh.1
  have hc1 : ∀ j, j < b1.length →
      cellAt row1.cells ((pre.length + j : Nat) : Int)
        = some (b1.getD j ⟨0, false, false, 0⟩) := by
    intro j hj
    rw [hcells1, cellAt_append_right, List.get?_eq_getElem?, List.getD_eq_getElem _ _ hj,
      List.getElem?_eq_getElem hj]
  have hc2 : ∀ j, j < b2.length →
      cellAt row2.cells ((j : Nat) : Int) = some (b2.getD j ⟨0, false, false, 0⟩) := by
    intro j hj
    rw [hcells2, cellAt_nat, List.get?_eq_getElem?, List.getElem?_append_left hj,
      List.getD_eq_getElem _ _ hj, List.getElem?_eq_getElem hj]
  -- the cells follow each other
  have hlinked : linked ty (row_toks ((pre.length : Nat) : Int) y b1 ++ row_toks 0 (y + 1) b2) := by
    intro j hj
    rw [hlen] at hj
    by_cases hcase : j + 1 < b1.length
    · rw [hget1 j (by omega), hget1 (j + 1) hcase]
      simp only
      constructor
      · intro cp
        have hx : (((pre.length + (j + 1) : Nat) : Int)) - 1 = ((pre.length + j : Nat) : Int) := by
          push_cast; omega
        rw [txt_prev_cell ty row1 _ _ y cp hrow1 (by rw [hx]; omega)
          (by rw [hx, hwP]; push_cast; omega) (by rw [hx]; exact hc1 j (by omega))
          (hnd _ (hm1 j (by omega))), hx, hof _ (hm1 j (by omega))]
      · intro cp
        have hx : (((pre.length + j : Nat) : Int)) + 1 = ((pre.length + (j + 1) : Nat) : Int) := by
          push_cast; omega
        rw [txt_next_cell ty row1 _ _ y cp hrow1 (by rw [hx]; omega)
          (by rw [hx, hwP]; push_cast; omega) (by rw [hx]; exact hc1 (j + 1) hcase)
          (hnd _ (hm1 (j + 1) hcase)), hx, hof _ (hm1 (j + 1) hcase)]
    · by_cases hcase2 : j + 1 = b1.length
      · have hj1 : j = b1.length - 1 := by omega
        have hidx : j + 1 = b1.length + 0 := by omega
        rw [hget1 j (by omega), hidx, hget2 0 hn2]
        simp only
        have hlastcell : cellAt row1.cells (ty.w - 1)
            = some (b1.getD j ⟨0, false, false, 0⟩) := by
          rw [← hw1, hwP, show (((pre.length + b1.length : Nat) : Int)) - 1
            = ((pre.length + j : Nat) : Int) by push_cast; omega]
          exact hc1 j (by omega)
        have hwrapj : (b1.getD j ⟨0, false, false, 0⟩).autowrapped = true := by
          rw [hj1]; exact hwrap
        constructor
        · intro cp
          have hy : y + 1 - 1 = y := by omega
          have := txt_prev_cross ty row1 _ (y + 1) cp (by rw [hy]; exact hrow1) hw1
            (by rw [hwP]; push_cast; omega) hlastcell hwrapj (hnd _ (hm1 j (by omega)))
          rw [show ((0 : Nat) : Int) = 0 by rfl, this, hy, hof _ (hm1 j (by omega)),
            ← hw1, hwP]
          congr 2
          push_cast; omega
        · intro cp
          have hlast2 : cellAt row1.cells (row1.w - 1)
              = some (b1.getD j ⟨0, false, false, 0⟩) := by
            rw [hw1]; exact hlastcell
          have := txt_next_cross ty row1 row2 _ _ ((pre.length + j : Nat) : Int) y cp hrow1
            (by rw [hwP]; push_cast; omega) (by rw [hwP]; push_cast; omega) (by omega)
            hlast2 hwrapj hrow2 (by omega) (hc2 0 hn2) (hnd _ (hm2 0 hn2))
          rw [this, hof _ (hm2 0 hn2)]
          rfl
      · obtain ⟨j2, hj2⟩ : ∃ j2, j = b1.length + j2 := ⟨j - b1.length, by omega⟩
        have hidx : j + 1 = b1.length + (j2 + 1) := by omega
        rw [hidx, hj2, hget2 j2 (by omega), hget2 (j2 + 1) (by omega)]
        simp only
        constructor
        · intro cp
          have hx : (((j2 + 1 : Nat) : Int)) - 1 = ((j2 : Nat) : Int) := by
            push_cast; omega
          rw [txt_prev_cell ty row2 _ _ (y + 1) cp hrow2 (by rw [hx]; omega)
            (by rw [hx]; omega) (by rw [hx]; exact hc2 j2 (by omega))
            (hnd _ (hm2 j2 (by omega))), hx, hof _ (hm2 j2 (by omega))]
        · intro cp
          have hx : (((j2 : Nat) : Int)) + 1 = ((j2 + 1 : Nat) : Int) := by
            push_cast; omega
          rw [txt_next_cell ty row2 _ _ (y + 1) cp hrow2 (by rw [hx]; omega)
            (by rw [hx]; omega) (by rw [hx]; exact hc2 (j2 + 1) (by omega))
            (hnd _ (hm2 (j2 + 1) (by omega))), hx, hof _ (hm2 (j2 + 1) (by omega))]
  have hch : ∀ t ∈ row_toks ((pre.length : Nat) : Int) y b1 ++ row_toks 0 (y + 1) b2,
      token_char t.c := by
    intro t ht
    obtain ⟨cell, hmc, hceq⟩ := hmem t ht
    rw [hceq]; exact (hbody cell hmc).1
  have hne : ∀ t ∈ row_toks ((pre.length : Nat) : Int) y b1 ++ row_toks 0 (y + 1) b2,
      t.c ≠ e1 ∧ t.c ≠ e2 := by
    intro t ht
    obtain ⟨cell, hmc, hceq⟩ := hmem t ht
    rw [hceq]; exact ⟨(hbody cell hmc).2.2.1, (hbody cell hmc).2.2.2⟩
  have hfirst := hget1 0 hn1
  have hlastidx : b1.length + b2.length - 1 = b1.length + (b2.length - 1) := by omega
  have hlast := hget2 (b2.length - 1) (by omega)
  have hb' : back_end ty
      ((row_toks ((pre.length : Nat) : Int) y b1 ++ row_toks 0 (y + 1) b2).getD 0 ⟨0, 0, 0⟩).x
      ((row_toks ((pre.length : Nat) : Int) y b1 ++ row_toks 0 (y + 1) b2).getD 0 ⟨0, 0, 0⟩).y
      e1 e2 := by
    rw [hfirst]; exact hback
  have hf' : fwd_end ty
      ((row_toks ((pre.length : Nat) : Int) y b1 ++ row_toks 0 (y + 1) b2).getD
        ((row_toks ((pre.length : Nat) : Int) y b1 ++ row_toks 0 (y + 1) b2).length - 1)
        ⟨0, 0, 0⟩).x
      ((row_toks ((pre.length : Nat) : Int) y b1 ++ row_toks 0 (y + 1) b2).getD
        ((row_toks ((pre.length : Nat) : Int) y b1 ++ row_toks 0 (y + 1) b2).length - 1)
        ⟨0, 0, 0⟩).y e1 e2 := by
    rw [hlen, hlastidx, hlast]; exact hfwd
  constructor
  · intro i hi
    have hres := termio_link_find_token obj ty _ i lock hpty hw hh (by rw [hlen]; omega)
      hlinked hch (by rw [hmap]; exact hm) e1 e2 hne
      (by
        rw [hget1 i hi]
        simp only
        rw [txt_at_cell ty row1 _ _ y 0 hrow1 (by omega) (by rw [hwP]; push_cast; omega)
          (hc1 i hi) (hnd _ (hm1 i hi)), hof _ (hm1 i hi)])
      hb' hf' (by rw [hmap]; exact hv) fuel (by rw [hlen]; exact hfuel)
    rw [hget1 i hi, hfirst, hlen, hlastidx, hlast, hmap] at hres
    exact hres
  · intro j hj
    have hres := termio_link_find_token obj ty _ (b1.length + j) lock hpty hw hh
      (by rw [hlen]; omega) hlinked hch (by rw [hmap]; exact hm) e1 e2 hne
      (by
        rw [hget2 j hj]
        simp only
        rw [txt_at_cell ty row2 _ _ (y + 1) 0 hrow2 (by omega) (by omega)
          (hc2 j hj) (hnd _ (hm2 j hj)), hof _ (hm2 j hj)])
      hb' hf' (by rw [hmap]; exact hv) fuel (by rw [hlen]; exact hfuel)
    rw [hget2 j hj, hfirst, hlen, hlastidx, hlast, hmap] at hres
    exact hres

/-- C9 amended, at concrete inputs: on a screen of width 8 whose first row is a space
followed by `http://` with the autowrapped flag on its last cell and whose
second row starts with `a/b`, every seed of the first row inside the token and
every seed of the second row inside the token returns `http://a/b` with the
span from column 1 of row 0 to column 2 of row 1. -/
theorem termio_link_find_wrapped_witness :
    ((∀ i, i < 7 →
      termio_link_find (screen 8 2 [wrap_row1, wrap_row2]) 20 ((1 + i : Nat) : Int) (0 + 0) 0
        = Outcome.done ⟨some (bytes "http://a/b"), some ⟨1, 0 + 0, 2, 0 + 1 + 0⟩, 0⟩)
    ∧ (∀ j, j < 3 →
      termio_link_find (screen 8 2 [wrap_row1, wrap_row2]) 20 ((j : Nat) : Int) (0 + 1 + 0) 0
        = Outcome.done ⟨some (bytes "http://a/b"), some ⟨1, 0 + 0, 2, 0 + 1 + 0⟩, 0⟩))
    ∧ termio_link_find (screen 8 2 [wrap_row1, wrap_row2]) 20 3 0 0
        = Outcome.done ⟨some (bytes "http://a/b"), some ⟨1, 0, 2, 1⟩, 0⟩
    ∧ termio_link_find (screen 8 2 [wrap_row1, wrap_row2]) 20 1 1 0
        = Outcome.done ⟨some (bytes "http://a/b"), some ⟨1, 0, 2, 1⟩, 0⟩ :=
  ⟨termio_link_find_wrapped (screen 8 2 [wrap_row1, wrap_row2])
      (screen_pty 8 [wrap_row1, wrap_row2]) 0 20 0 wrap_row1 wrap_row2
      [mkcell 32] ((bytes "http:/").map mkcell ++ [Termcell.mk 47 false true 0])
      ((bytes "a/b").map mkcell) ((bytes "     ").map mkcell) 0 0
      rfl (by decide) (by decide) rfl rfl rfl rfl (by decide) rfl rfl rfl (by decide)
      (by decide) (by decide)
      (fun _ => ⟨_, rfl, Or.inr (Or.inl ⟨rfl, by decide, rfl, rfl, rfl,
        ⟨_, rfl, Or.inl (by decide)⟩⟩)⟩)
      (fun _ => ⟨_, rfl, Or.inr (Or.inr ⟨by decide, Or.inl rfl⟩)⟩)
      (by decide) (by decide) (by decide),
    by decide, by decide⟩

/-! ## A token ending at a hard row edge (C10) -/

theorem set_row_cellrow_ne (ty : Termpty) (r k : Int) (v : Option Cellrow) (h : k ≠ r) :
    (ty.set_row r v).cellrow k = ty.cellrow k := by
  simp only [Termpty.set_row]
  rw [if_neg h]

theorem txt_prev_at_set_row (ty : Termpty) (x y r : Int) (v : Option Cellrow) (cp : Nat)
    (h : y < r) :
    _txt_prev_at (ty.set_row r v) x y cp = _txt_prev_at ty x y cp := by
  unfold _txt_prev_at
  rw [set_row_cellrow_ne ty r (y - 1) v (by omega), set_row_cellrow_ne ty r y v (by omega)]
  rfl

theorem prev_tail_y (cells : List Termcell) (cell : Termcell) (x y : Int) (cp : Nat) (t : Txt)
    (h : prev_tail cells cell x y cp = some t) : t.y = y := by
  unfold prev_tail at h
  split_ifs at h
  · cases h; rfl
  · split at h
    · cases h
    · cases h
      unfold Txt.ofCell
      split_ifs <;> rfl
  · cases h
    unfold Txt.ofCell
    split_ifs <;> rfl

theorem txt_prev_at_y_le (ty : Termpty) (x y : Int) (cp : Nat) (t : Txt)
    (h : _txt_prev_at ty x y cp = some t) : t.y ≤ y := by
  unfold _txt_prev_at at h
  split_ifs at h
  · split at h
    · cases h; simp only [Txt.bad]; omega
    · split_ifs at h
      · cases h; simp only [Txt.bad]; omega
      · cases h; simp only [Txt.empty]; omega
      · split at h
        · cases h
        · split_ifs at h
          · cases h; simp only [Txt.empty]; omega
          · have := prev_tail_y _ _ _ _ _ _ h
            omega
  · split at h
    · cases h; simp only [Txt.bad]; omega
    · split_ifs at h
      · cases h; simp only [Txt.bad]; omega
      · cases h; simp only [Txt.empty]; omega
      · split at h
        · cases h
        · have := prev_tail_y _ _ _ _ _ _ h
          omega

theorem back_end_set_row (ty : Termpty) (x y r : Int) (v : Option Cellrow) (e1 e2 : Nat)
    (hr : y < r) (h : back_end ty x y e1 e2) : back_end (ty.set_row r v) x y e1 e2 := by
  intro cp
  obtain ⟨t, ht, hcase⟩ := h cp
  have hty := txt_prev_at_y_le ty x y cp t ht
  refine ⟨t, by rw [txt_prev_at_set_row ty x y r v cp hr]; exact ht, ?_⟩
  rcases hcase with hc | hc | hc
  · exact Or.inl hc
  · obtain ⟨h1, h2, h3, h4, h5, t2, ht2, h6⟩ := hc
    refine Or.inr (Or.inl ⟨h1, h2, h3, h4, h5, t2, ?_, h6⟩)
    rw [txt_prev_at_set_row ty t.x t.y r v t.codepoint (by omega)]
    exact ht2
  · exact Or.inr (Or.inr hc)

theorem termio_link_find_of_scan (obj : Termio) (ty : Termpty) (fuel : Nat) (cx cy lock : Int)
    (st : LinkSt) (hpty : obj.pty = some ty) (hw : 0 < obj.w) (hh : 0 < obj.h)
    (hscan : link_scan ty fuel cx (cy - obj.scroll) = Outcome.done (some st)) :
    termio_link_find obj fuel cx cy lock
      = Outcome.done (link_out obj obj.scroll st (termpty_backlog_lock lock)) := by
  have hsz : ¬ (obj.w ≤ 0 ∨ obj.h ≤ 0) := by omega
  unfold termio_link_find
  rw [hpty]
  simp only
  rw [if_neg hsz, hscan]

/-- The scan seeded on any cell of a token that lies in one row and is
delimited on both sides collects the text of the token and the positions of
its first and last cell. -/
theorem row_scan_token (ty : Termpty) (fuel : Nat) (y : Int) (row : Cellrow)
    (pre body post : List Termcell) (e1 e2 : Nat) (i : Nat)
    (hrow : ty.cellrow y = some row) (hcells : row.cells = pre ++ (body ++ post))
    (hwidth : ((pre.length + body.length : Nat) : Int) ≤ row.w)
    (hbody : ∀ b ∈ body, token_char b.codepoint ∧ b.link_id = 0
      ∧ b.codepoint ≠ e1 ∧ b.codepoint ≠ e2)
    (hback : back_end ty ((pre.length : Nat) : Int) y e1 e2)
    (hfwd : fwd_end ty ((pre.length + (body.length - 1) : Nat) : Int) y e1 e2)
    (hm : no_walk_past (body.map Termcell.codepoint))
    (hi : i < body.length) (hfuel : body.length < fuel) :
    ∃ st, link_scan ty fuel ((pre.length + i : Nat) : Int) y = Outcome.done (some st)
      ∧ st.sb = utf8_of (body.map Termcell.codepoint)
      ∧ st.x1 = ((pre.length : Nat) : Int) ∧ st.y1 = y
      ∧ st.x2 = ((pre.length + (body.length - 1) : Nat) : Int) ∧ st.y2 = y := by
  have hlen := row_toks_length ((pre.length : Nat) : Int) y body
  have hget : ∀ j, j < body.length →
      (row_toks ((pre.length : Nat) : Int) y body).getD j ⟨0, 0, 0⟩
        = ⟨((pre.length + j : Nat) : Int), y,
            (body.getD j ⟨0, false, false, 0⟩).codepoint⟩ := by
    intro j hj
    rw [row_toks_getD _ _ _ _ hj]
    simp only [Tok.mk.injEq, and_true]
    push_cast
    rfl
  have hbj : ∀ j, j < body.length →
      token_char (body.getD j ⟨0, false, false, 0⟩).codepoint
        ∧ (body.getD j ⟨0, false, false, 0⟩).link_id = 0 := by
    intro j hj
    have hmem : body.getD j ⟨0, false, false, 0⟩ ∈ body := by
      rw [List.getD_eq_getElem _ _ hj]; exact List.getElem_mem hj
    exact ⟨(hbody _ hmem).1, (hbody _ hmem).2.1⟩
  have hofc : ∀ j, j < body.length → ∀ x : Int,
      Txt.ofCell (body.getD j ⟨0, false, false, 0⟩) x y
        = ⟨0, x, y, codepoint_to_utf8 (body.getD j ⟨0, false, false, 0⟩).codepoint,
            (body.getD j ⟨0, false, false, 0⟩).codepoint⟩ := by
    intro j hj x
    exact ofCell_tok _ x y (hbj j hj).1.2.1 (hbj j hj).2
  have hnd : ∀ j, j < body.length →
      ¬ ((body.getD j ⟨0, false, false, 0⟩).codepoint = 0
        ∧ (body.getD j ⟨0, false, false, 0⟩).dblwidth = true) := by
    intro j hj hh
    exact (hbj j hj).1.2.1 hh.1
  have hcellj : ∀ j, j < body.length →
      cellAt row.cells ((pre.length + j : Nat) : Int)
        = some (body.getD j ⟨0, false, false, 0⟩) := by
    intro j hj
    rw [hcells, cellAt_append_right, List.get?_eq_getElem?, List.getElem?_append_left hj,
      List.getD_eq_getElem _ _ hj, List.getElem?_eq_getElem hj]
  have hres := link_scan_token ty (row_toks ((pre.length : Nat) : Int) y body) i
    (by rw [hlen]; exact hi) ?_ ?_ ?_ e1 e2 ?_ ?_ ?_ ?_ fuel (by rw [hlen]; exact hfuel)
  · rw [hget i hi, hget 0 (by omega), hlen, hget (body.length - 1) (by omega),
      row_toks_map_c] at hres
    simp only at hres
    rw [show pre.length + 0 = pre.length by omega] at hres
    exact hres
  · -- linked
    intro j hj
    rw [hlen] at hj
    rw [hget j (by omega), hget (j + 1) hj]
    simp only
    constructor
    · intro cp
      have hx : (((pre.length + (j + 1) : Nat) : Int)) - 1 = ((pre.length + j : Nat) : Int) := by
        push_cast; omega
      have := txt_prev_cell ty row _ ((pre.length + (j + 1) : Nat) : Int) y cp hrow
        (by rw [hx]; omega) (by rw [hx]; push_cast at hwidth ⊢; omega)
        (by rw [hx]; exact hcellj j (by omega)) (hnd j (by omega))
      rw [this, hx, hofc j (by omega)]
    · intro cp
      have hx : (((pre.length + j : Nat) : Int)) + 1 = ((pre.length + (j + 1) : Nat) : Int) := by
        push_cast; omega
      have := txt_next_cell ty row _ ((pre.length + j : Nat) : Int) y cp hrow
        (by rw [hx]; omega) (by rw [hx]; push_cast at hwidth ⊢; omega)
        (by rw [hx]; exact hcellj (j + 1) hj) (hnd (j + 1) hj)
      rw [this, hx, hofc (j + 1) hj]
  · -- token characters
    intro t ht
    obtain ⟨cell, hmem, hceq⟩ := row_toks_mem _ _ _ _ ht
    rw [hceq]
    exact (hbody cell hmem).1
  · -- no walk past
    rw [row_toks_map_c]
    exact hm
  · -- not a closing delimiter
    intro t ht
    obtain ⟨cell, hmem, hceq⟩ := row_toks_mem _ _ _ _ ht
    rw [hceq]
    exact ⟨(hbody cell hmem).2.2.1, (hbody cell hmem).2.2.2⟩
  · -- seed
    rw [hget i hi]
    simp only
    rw [txt_at_cell ty row _ _ y 0 hrow (by omega) (by push_cast at hwidth ⊢; omega)
      (hcellj i hi) (hnd i hi), hofc i hi]
  · -- start of the token
    rw [hget 0 (by omega)]
    simp only
    rw [show pre.length + 0 = pre.length by omega]
    exact hback
  · -- end of the token
    rw [hlen, hget (body.length - 1) (by omega)]
    exact hfwd

theorem body_text_length (body : List Termcell) (h : 0 < body.length)
    (hbody : ∀ b ∈ body, codepoint_to_utf8 b.codepoint ≠ []) :
    ¬ (utf8_of (body.map Termcell.codepoint)).length = 0 := by
  intro h0
  have hnil : body.map Termcell.codepoint ≠ [] := by
    intro hn
    have : body.length = 0 := by simpa using congrArg List.length hn
    omega
  refine utf8_of_ne_nil _ hnil ?_ (List.length_eq_zero.1 h0)
  intro c hc
  obtain ⟨b, hb, rfl⟩ := List.mem_map.1 hc
  exact hbody b hb

/-! ## Relative file tokens (C11) -/

/-- C11 fails: the row ` a/b ` (the token `a/b` between two spaces) with the
working directory `/home/u` gives NULL for every seed inside the token, because
`link_is_file` accepts only the starts `/`, `~/`, `./` and `../`, and `a/b` is
no e-mail address and no URL either. -/
theorem termio_link_find_bare_relative :
    link_is_file (some (bytes "a/b")) = false
    ∧ termio_link_find (screen_cwd 5 1 [textrow " a/b "] (bytes "/home/u")) 20 1 0 0
        = Outcome.done ⟨none, none, 0⟩
    ∧ termio_link_find (screen_cwd 5 1 [textrow " a/b "] (bytes "/home/u")) 20 2 0 0
        = Outcome.done ⟨none, none, 0⟩
    ∧ termio_link_find (screen_cwd 5 1 [textrow " a/b "] (bytes "/home/u")) 20 3 0 0
        = Outcome.done ⟨none, none, 0⟩ := by
  decide

/-- C11, amended: when the cells around the seed spell a relative file token
that `link_is_file` accepts and that starts neither with `/` nor with `~/`
(such as `./a/b`), delimited on both sides, and the working directory of the
host is `cwd`, `termio_link_find` returns `cwd`, a `/` and the token joined by
`eina_str_join` (for `/home/u` and `./a/b` the string `/home/u/./a/b`), with
the span of the token. -/
theorem termio_link_find_relative (obj : Termio) (ty : Termpty) (lock : Int) (fuel : Nat)
    (y : Int) (row : Cellrow) (pre body post : List Termcell) (cwd : List Nat)
    (e1 e2 : Nat) (i : Nat)
    (hpty : obj.pty = some ty) (hw : 0 < obj.w) (hh : 0 < obj.h)
    (hcwd : obj.cwd = some cwd)
    (hrow : ty.cellrow y = some row) (hcells : row.cells = pre ++ (body ++ post))
    (hwidth : ((pre.length + body.length : Nat) : Int) ≤ row.w)
    (hbody : ∀ b ∈ body, token_char b.codepoint ∧ b.link_id = 0
      ∧ b.codepoint ≠ e1 ∧ b.codepoint ≠ e2)
    (hback : back_end ty ((pre.length : Nat) : Int) y e1 e2)
    (hfwd : fwd_end ty ((pre.length + (body.length - 1) : Nat) : Int) y e1 e2)
    (hm : no_walk_past (body.map Termcell.codepoint))
    (hfile : link_is_file (some (utf8_of (body.map Termcell.codepoint))) = true)
    (hrel : charAt (utf8_of (body.map Termcell.codepoint)) 0 ≠ 47)
    (hhome : ¬ (charAt (utf8_of (body.map Termcell.codepoint)) 0 = 126
      ∧ charAt (utf8_of (body.map Termcell.codepoint)) 1 = 47))
    (hi : i < body.length) (hfuel : body.length < fuel) :
    termio_link_find obj fuel ((pre.length + i : Nat) : Int) (y + obj.scroll) lock
      = Outcome.done ⟨some (eina_str_join PATH_MAX 47 cwd
            (utf8_of (body.map Termcell.codepoint))),
          some ⟨((pre.length : Nat) : Int), y + obj.scroll,
            ((pre.length + (body.length - 1) : Nat) : Int), y + obj.scroll⟩, lock⟩ := by
  obtain ⟨st, hscan, s1, s2, s3, s4, s5⟩ :=
    row_scan_token ty fuel y row pre body post e1 e2 i hrow hcells hwidth hbody hback hfwd hm
      hi hfuel
  have hlen := body_text_length body (by omega) (fun b hb => (hbody b hb).1.1)
  have hlock : termpty_backlog_unlock (termpty_backlog_lock lock) = lock := by
    simp [termpty_backlog_unlock, termpty_backlog_lock]
  rw [termio_link_find_of_scan obj ty fuel _ _ lock st hpty hw hh
    (by rw [show y + obj.scroll - obj.scroll = y by omega]; exact hscan)]
  unfold link_out
  rw [s1, s2, s3, s4, s5, hlock]
  simp only [ne_eq]
  rw [if_pos hlen, if_pos (Or.inl hfile), if_pos ⟨hfile, hrel⟩]
  unfold _local_path_get
  rw [if_neg hrel, if_neg hhome]
  unfold _cwd_path_get
  rw [hcwd]

/-- C11 amended, at concrete inputs: the row ` ./a/b ` with the working
directory `/home/u` gives `/home/u/./a/b` with the span from column 1 to
column 5, for every seed inside the token. -/
theorem termio_link_find_relative_witness :
    termio_link_find (screen_cwd 7 1 [textrow " ./a/b "] (bytes "/home/u")) 20
        ((1 + 2 : Nat) : Int) (0 + 0) 0
      = Outcome.done ⟨some (bytes "/home/u/./a/b"), some ⟨1, 0, 5, 0⟩, 0⟩
    ∧ (∀ i < 5, termio_link_find (screen_cwd 7 1 [textrow " ./a/b "] (bytes "/home/u")) 20
        ((1 + i : Nat) : Int) 0 0
      = Outcome.done ⟨some (bytes "/home/u/./a/b"), some ⟨1, 0, 5, 0⟩, 0⟩) :=
  ⟨termio_link_find_relative (screen_cwd 7 1 [textrow " ./a/b "] (bytes "/home/u"))
      (screen_pty 7 [textrow " ./a/b "]) 0 20 0 (textrow " ./a/b ")
      [mkcell 32] ((bytes "./a/b").map mkcell) [mkcell 32] (bytes "/home/u") 0 0 2
      rfl (by decide) (by decide) rfl rfl rfl (by decide) (by decide)
      (fun _ => ⟨_, rfl, Or.inr (Or.inl ⟨rfl, by decide, rfl, rfl, rfl,
        ⟨_, rfl, Or.inl (by decide)⟩⟩)⟩)
      (fun _ => ⟨_, rfl, Or.inr (Or.inr ⟨by decide, Or.inl rfl⟩)⟩)
      (by decide) (by decide) (by decide) (by decide) (by decide) (by decide),
    by decide⟩

/-! ## Validation of the assembled buffer (C12) -/

theorem link_out_none (obj : Termio) (sc : Int) (st : LinkSt) (lock : Int)
    (h1 : link_is_file (some st.sb) = false) (h2 : link_is_email (some st.sb) = false)
    (h3 : link_is_url (some st.sb) = false) :
    link_out obj sc st lock = ⟨none, none, termpty_backlog_unlock lock⟩ := by
  unfold link_out
  simp only [h1, h2, h3, Bool.false_eq_true, or_self, if_false, ite_self]

theorem link_out_some (obj : Termio) (sc : Int) (st : LinkSt) (lock : Int) (s : List Nat)
    (h : (link_out obj sc st lock).s = some s) :
    st.sb.length ≠ 0 ∧ (link_is_file (some st.sb) = true ∨ link_is_email (some st.sb) = true
      ∨ link_is_url (some st.sb) = true) := by
  by_cases h1 : st.sb.length = 0
  · simp [link_out, h1] at h
  · by_cases h2 : link_is_file (some st.sb) = true ∨ link_is_email (some st.sb) = true
        ∨ link_is_url (some st.sb) = true
    · exact ⟨h1, h2⟩
    · simp [link_out, h2] at h

theorem classifiers_nil :
    link_is_file (some []) = false ∧ link_is_email (some []) = false
      ∧ link_is_url (some []) = false := by
  decide

theorem link_out_raw (obj : Termio) (sc : Int) (st : LinkSt) (lock : Int)
    (h : (link_is_file (some st.sb) = true ∧ charAt st.sb 0 = 47)
      ∨ (link_is_file (some st.sb) = false
          ∧ (link_is_email (some st.sb) = true ∨ link_is_url (some st.sb) = true))) :
    (link_out obj sc st lock).s = some st.sb := by
  have hlen : st.sb.length ≠ 0 := by
    intro h0
    have hnil := List.length_eq_zero.1 h0
    rw [hnil] at h
    obtain ⟨c1, c2, c3⟩ := classifiers_nil
    rcases h with ⟨h1, _⟩ | ⟨_, h2 | h2⟩
    · rw [c1] at h1; cases h1
    · rw [c2] at h2; cases h2
    · rw [c3] at h2; cases h2
  unfold link_out
  rw [if_pos hlen]
  rcases h with ⟨h1, h2⟩ | ⟨h1, h2⟩
  · simp only [h1, true_or, if_true, h2, ne_eq, not_true_eq_false, and_false, if_false]
  · simp only [h1, Bool.false_eq_true, false_or, false_and, if_false, h2, if_true]

/-- C12 fails in its last sentence: the buffer `./a@b.c` satisfies
`link_is_email` (and `link_is_file`), yet the returned string is not the buffer
but the resolved path `/home/u/./a@b.c`; likewise `~/a@b.c` is resolved against
the home directory. -/
theorem termio_link_find_email_resolved :
    scan_sb (link_scan (screen_pty 9 [textrow " ./a@b.c "]) 20 3 0) = some (bytes "./a@b.c")
    ∧ link_is_email (some (bytes "./a@b.c")) = true
    ∧ termio_link_find (screen_cwd 9 1 [textrow " ./a@b.c "] (bytes "/home/u")) 20 3 0 0
        = Outcome.done ⟨some (bytes "/home/u/./a@b.c"), some ⟨1, 0, 7, 0⟩, 0⟩
    ∧ bytes "/home/u/./a@b.c" ≠ bytes "./a@b.c" := by
  decide

/-- C12, amended: for every grid and seed, `termio_link_find` returns a token
only if the scan assembled a non-empty buffer that satisfies `link_is_file`,
`link_is_email` or `link_is_url`; if the buffer satisfies none of the three it
returns NULL and does not write the span; and when the buffer is a file token
starting with `/`, or is no file token and is an e-mail or URL token, the
returned string is exactly the buffer. -/
theorem termio_link_find_validation (obj : Termio) (ty : Termpty) (fuel : Nat)
    (cx cy lock : Int) (r : LinkRet) (hpty : obj.pty = some ty)
    (hret : termio_link_find obj fuel cx cy lock = Outcome.done r) :
    (∀ s, r.s = some s →
      ∃ st, link_scan ty fuel cx (cy - obj.scroll) = Outcome.done (some st)
        ∧ st.sb.length ≠ 0
        ∧ (link_is_file (some st.sb) = true ∨ link_is_email (some st.sb) = true
            ∨ link_is_url (some st.sb) = true))
    ∧ (∀ st, link_scan ty fuel cx (cy - obj.scroll) = Outcome.done (some st) →
        link_is_file (some st.sb) = false → link_is_email (some st.sb) = false →
        link_is_url (some st.sb) = false → r.s = none ∧ r.span = none)
    ∧ (∀ st, link_scan ty fuel cx (cy - obj.scroll) = Outcome.done (some st) →
        0 < obj.w → 0 < obj.h →
        ((link_is_file (some st.sb) = true ∧ charAt st.sb 0 = 47)
          ∨ (link_is_file (some st.sb) = false
              ∧ (link_is_email (some st.sb) = true ∨ link_is_url (some st.sb) = true))) →
        r.s = some st.sb) := by
  unfold termio_link_find at hret
  rw [hpty] at hret
  simp only at hret
  by_cases hsz : obj.w ≤ 0 ∨ obj.h ≤ 0
  · rw [if_pos hsz] at hret
    cases hret
    refine ⟨?_, ?_, ?_⟩
    · intro s hs; cases hs
    · intro _ _ _ _ _; exact ⟨rfl, rfl⟩
    · intro _ _ h1 h2 _; omega
  · rw [if_neg hsz] at hret
    rcases hscan : link_scan ty fuel cx (cy - obj.scroll) with o | _ | _
    · rcases o with _ | st
      · rw [hscan] at hret
        cases hret
        refine ⟨?_, ?_, ?_⟩
        · intro s hs; cases hs
        · intro _ h; cases h
        · intro _ h; cases h
      · rw [hscan] at hret
        simp only at hret
        cases hret
        refine ⟨?_, ?_, ?_⟩
        · intro s hs
          exact ⟨st, rfl, link_out_some obj _ st _ s hs⟩
        · intro st1 h h1 h2 h3
          cases h
          rw [link_out_none obj _ st _ h1 h2 h3]
          exact ⟨rfl, rfl⟩
        · intro st1 h _ _ hv
          cases h
          exact link_out_raw obj _ st _ hv
    · rw [hscan] at hret; cases hret
    · rw [hscan] at hret; cases hret

/-- C12 amended, at concrete inputs: in the row ` x@y.z ` the returned string is
the buffer `x@y.z`; in the row ` a/b ` the buffer `a/b` satisfies none of the
three tests and the result is NULL with no span written. -/
theorem termio_link_find_validation_witness :
    ((∀ s, (⟨some (bytes "x@y.z"), some ⟨1, 0, 5, 0⟩, 0⟩ : LinkRet).s = some s →
      ∃ st, link_scan (screen_pty 7 [textrow " x@y.z "]) 20 2 (0 - 0) = Outcome.done (some st)
        ∧ st.sb.length ≠ 0
        ∧ (link_is_file (some st.sb) = true ∨ link_is_email (some st.sb) = true
            ∨ link_is_url (some st.sb) = true))
    ∧ (∀ st, link_scan (screen_pty 7 [textrow " x@y.z "]) 20 2 (0 - 0)
          = Outcome.done (some st) →
        link_is_file (some st.sb) = false → link_is_email (some st.sb) = false →
        link_is_url (some st.sb) = false →
        (⟨some (bytes "x@y.z"), some ⟨1, 0, 5, 0⟩, 0⟩ : LinkRet).s = none
          ∧ (⟨some (bytes "x@y.z"), some ⟨1, 0, 5, 0⟩, 0⟩ : LinkRet).span = none)
    ∧ (∀ st, link_scan (screen_pty 7 [textrow " x@y.z "]) 20 2 (0 - 0)
          = Outcome.done (some st) →
        0 < (screen 7 1 [textrow " x@y.z "]).w → 0 < (screen 7 1 [textrow " x@y.z "]).h →
        ((link_is_file (some st.sb) = true ∧ charAt st.sb 0 = 47)
          ∨ (link_is_file (some st.sb) = false
              ∧ (link_is_email (some st.sb) = true ∨ link_is_url (some st.sb) = true))) →
        (⟨some (bytes "x@y.z"), some ⟨1, 0, 5, 0⟩, 0⟩ : LinkRet).s = some st.sb))
    ∧ scan_sb (link_scan (screen_pty 7 [textrow " x@y.z "]) 20 2 0) = some (bytes "x@y.z")
    ∧ termio_link_find (screen 7 1 [textrow " x@y.z "]) 20 2 0 0
        = Outcome.done ⟨some (bytes "x@y.z"), some ⟨1, 0, 5, 0⟩, 0⟩
    ∧ scan_sb (link_scan (screen_pty 5 [textrow " a/b "]) 20 2 0) = some (bytes "a/b")
    ∧ termio_link_find (screen 5 1 [textrow " a/b "]) 20 2 0 0
        = Outcome.done ⟨none, none, 0⟩ :=
  ⟨termio_link_find_validation (screen 7 1 [textrow " x@y.z "])
      (screen_pty 7 [textrow " x@y.z "]) 20 2 0 0 ⟨some (bytes "x@y.z"), some ⟨1, 0, 5, 0⟩, 0⟩
      rfl (by decide),
    by decide, by decide, by decide, by decide⟩

/-! ## Shared lemmas: which cell a successful step of the walker reads -/

theorem ofCell_regular (c : Termcell) (x y : Int) (t : Txt) (h : Txt.ofCell c x y = t)
    (h0 : t.res = 0) (hl : t.txt.length ≠ 0) :
    t = ⟨0, x, y, codepoint_to_utf8 c.codepoint, c.codepoint⟩ ∧ c.codepoint ≠ 0
      ∧ c.link_id = 0 := by
  unfold Txt.ofCell at h
  by_cases hc : c.codepoint = 0 ∨ c.link_id ≠ 0
  · rw [if_pos hc] at h
    subst h
    exact absurd rfl hl
  · rw [if_neg hc] at h
    refine ⟨h.symm, fun e => hc (Or.inl e), ?_⟩
    by_contra e
    exact hc (Or.inr e)

theorem Txt.bad_res (x y : Int) (cp : Nat) : (Txt.bad x y cp).res ≠ 0 := by
  show (-1 : Int) ≠ 0
  decide

theorem cellAt_nonneg (cells : List Termcell) (x : Int) (c : Termcell)
    (h : cellAt cells x = some c) : 0 ≤ x := by
  unfold cellAt at h
  by_contra hx
  rw [if_neg hx] at h
  cases h

theorem prev_tail_shape (cells : List Termcell) (cell : Termcell) (x y : Int) (cp : Nat)
    (t : Txt) (h : prev_tail cells cell x y cp = some t) (hcell : cellAt cells x = some cell)
    (h0 : t.res = 0) (hl : t.txt.length ≠ 0) :
    ∃ c, cellAt cells t.x = some c
      ∧ t = ⟨0, t.x, y, codepoint_to_utf8 c.codepoint, c.codepoint⟩
      ∧ c.codepoint ≠ 0 ∧ c.link_id = 0
      ∧ (t.x = x ∨ (t.x = x - 1 ∧ cell.codepoint = 0 ∧ cell.dblwidth = true)) := by
  unfold prev_tail at h
  by_cases hd : cell.codepoint = 0 ∧ cell.dblwidth = true
  · rw [if_pos hd] at h
    by_cases hx : x - 1 < 0
    · rw [if_pos hx] at h
      cases h
      exact absurd h0 (Txt.bad_res _ _ _)
    · rw [if_neg hx] at h
      rcases hc1 : cellAt cells (x - 1) with _ | cell1
      · rw [hc1] at h; cases h
      · rw [hc1] at h
        simp only [Option.some.injEq] at h
        obtain ⟨e, n0, nl⟩ := ofCell_regular cell1 (x - 1) y t h h0 hl
        have hx1 : t.x = x - 1 := by rw [e]
        refine ⟨cell1, by rw [hx1]; exact hc1, ?_, n0, nl, Or.inr ⟨hx1, hd.1, hd.2⟩⟩
        rw [hx1]; exact e
  · rw [if_neg hd] at h
    simp only [Option.some.injEq] at h
    obtain ⟨e, n0, nl⟩ := ofCell_regular cell x y t h h0 hl
    have hx1 : t.x = x := by rw [e]
    refine ⟨cell, by rw [hx1]; exact hcell, ?_, n0, nl, Or.inl hx1⟩
    rw [hx1]; exact e

theorem txt_prev_at_shape (ty : Termpty) (x y : Int) (cp : Nat) (t : Txt)
    (h : _txt_prev_at ty x y cp = some t) (h0 : t.res = 0) (hl : t.txt.length ≠ 0) :
    ∃ row c, ty.cellrow t.y = some row ∧ cellAt row.cells t.x = some c
      ∧ t = ⟨0, t.x, t.y, codepoint_to_utf8 c.codepoint, c.codepoint⟩
      ∧ c.codepoint ≠ 0 ∧ c.link_id = 0
      ∧ ((0 ≤ x - 1 ∧ t.y = y ∧ x - 1 < row.w
            ∧ (t.x = x - 1 ∨ (t.x = x - 2 ∧ ∃ hf, cellAt row.cells (x - 1) = some hf
                ∧ hf.codepoint = 0 ∧ hf.dblwidth = true)))
          ∨ (x - 1 < 0 ∧ t.y = y - 1 ∧ ty.w ≤ row.w
            ∧ (t.x = ty.w - 1 ∨ (t.x = ty.w - 2 ∧ ∃ hf, cellAt row.cells (ty.w - 1) = some hf
                ∧ hf.codepoint = 0 ∧ hf.dblwidth = true)))) := by
  unfold _txt_prev_at at h
  by_cases hx : x - 1 < 0
  · rw [if_pos hx] at h
    rcases hrow : ty.cellrow (y - 1) with _ | row
    · rw [hrow] at h; cases h; exact absurd h0 (Txt.bad_res _ _ _)
    · rw [hrow] at h
      simp only at h
      by_cases hw0 : row.w = 0
      · rw [if_pos hw0] at h; cases h; exact absurd h0 (Txt.bad_res _ _ _)
      · rw [if_neg hw0] at h
        by_cases hge : ty.w - 1 ≥ row.w
        · rw [if_pos hge] at h; cases h; exact absurd rfl hl
        · rw [if_neg hge] at h
          rcases hcell : cellAt row.cells (ty.w - 1) with _ | cell
          · rw [hcell] at h; cases h
          · rw [hcell] at h
            simp only at h
            by_cases hstop : (cell.autowrapped = false ∧ y - 1 ≥ 0) ∨ row.w < ty.w
            · rw [if_pos hstop] at h; cases h; exact absurd rfl hl
            · rw [if_neg hstop] at h
              obtain ⟨c, hc, e, n0, nl, hpos⟩ :=
                prev_tail_shape row.cells cell (ty.w - 1) (y - 1) cp t h hcell h0 hl
              have hy : t.y = y - 1 := by rw [e]
              refine ⟨row, c, by rw [hy]; exact hrow, hc, by rw [hy]; exact e, n0, nl,
                Or.inr ⟨hx, hy, by omega, ?_⟩⟩
              rcases hpos with hp | ⟨hp, hh1, hh2⟩
              · exact Or.inl hp
              · exact Or.inr ⟨by omega, cell, hcell, hh1, hh2⟩
  · rw [if_neg hx] at h
    rcases hrow : ty.cellrow y with _ | row
    · rw [hrow] at h; cases h; exact absurd h0 (Txt.bad_res _ _ _)
    · rw [hrow] at h
      simp only at h
      by_cases hw0 : row.w = 0
      · rw [if_pos hw0] at h; cases h; exact absurd h0 (Txt.bad_res _ _ _)
      · rw [if_neg hw0] at h
        by_cases hge : x - 1 ≥ row.w
        · rw [if_pos hge] at h; cases h; exact absurd rfl hl
        · rw [if_neg hge] at h
          rcases hcell : cellAt row.cells (x - 1) with _ | cell
          · rw [hcell] at h; cases h
          · rw [hcell] at h
            simp only at h
            obtain ⟨c, hc, e, n0, nl, hpos⟩ :=
              prev_tail_shape row.cells cell (x - 1) y cp t h hcell h0 hl
            have hy : t.y = y := by rw [e]
            refine ⟨row, c, by rw [hy]; exact hrow, hc, by rw [hy]; exact e, n0, nl,
              Or.inl ⟨by omega, hy, by omega, ?_⟩⟩
            rcases hpos with hp | ⟨hp, hh1, hh2⟩
            · exact Or.inl hp
            · exact Or.inr ⟨by omega, cell, hcell, hh1, hh2⟩

theorem next_tail_shape (ty : Termpty) (cells : List Termcell) (w x y : Int) (cp : Nat)
    (t : Txt) (h : next_tail ty cells w x y cp = some t) (h0 : t.res = 0)
    (hl : t.txt.length ≠ 0) :
    ∃ c, cellAt cells x = some c
      ∧ t = ⟨0, x, y, codepoint_to_utf8 c.codepoint, c.codepoint⟩
      ∧ c.codepoint ≠ 0 ∧ c.link_id = 0 := by
  unfold next_tail at h
  rcases hcell : cellAt cells x with _ | cell
  · rw [hcell] at h; cases h
  · rw [hcell] at h
    simp only at h
    by_cases hd : cell.codepoint = 0 ∧ cell.dblwidth = true
    · rw [if_pos hd] at h
      by_cases hx : x + 1 ≥ w
      · rw [if_pos hx] at h
        rcases hlast : cellAt cells (w - 1) with _ | last
        · rw [hlast] at h; cases h
        · rw [hlast] at h
          simp only at h
          by_cases hs : last.autowrapped = false ∧ w = ty.w
          · rw [if_pos hs] at h; cases h; exact absurd rfl hl
          · rw [if_neg hs] at h; cases h; exact absurd h0 (Txt.bad_res _ _ _)
      · rw [if_neg hx] at h; cases h; exact absurd h0 (Txt.bad_res _ _ _)
    · rw [if_neg hd] at h
      simp only [Option.some.injEq] at h
      obtain ⟨e, n0, nl⟩ := ofCell_regular cell x y t h h0 hl
      exact ⟨cell, rfl, e, n0, nl⟩

theorem txt_next_at_shape (ty : Termpty) (x y : Int) (cp : Nat) (t : Txt)
    (h : _txt_next_at ty x y cp = some t) (h0 : t.res = 0) (hl : t.txt.length ≠ 0) :
    ∃ row c, ty.cellrow t.y = some row ∧ cellAt row.cells t.x = some c
      ∧ t = ⟨0, t.x, t.y, codepoint_to_utf8 c.codepoint, c.codepoint⟩
      ∧ c.codepoint ≠ 0 ∧ c.link_id = 0
      ∧ ((t.y = y ∧ t.x = x + 1 ∧ x + 1 < row.w)
          ∨ (t.y = y + 1 ∧ t.x = 0 ∧ row.w ≠ 0
            ∧ ∃ row0, ty.cellrow y = some row0 ∧ row0.w ≠ 0 ∧ row0.w ≤ x + 1
              ∧ (x + 1 ≤ ty.w → ∃ last, cellAt row0.cells (row0.w - 1) = some last
                  ∧ last.autowrapped = true))) := by
  unfold _txt_next_at at h
  obtain ⟨o, hrow⟩ : ∃ o, ty.cellrow y = o := ⟨_, rfl⟩
  rw [hrow] at h
  rcases o with _ | row
  · cases h; exact absurd h0 (Txt.bad_res _ _ _)
  · simp only at h
    by_cases hw0 : row.w = 0
    · rw [if_pos hw0] at h; cases h; exact absurd h0 (Txt.bad_res _ _ _)
    · rw [if_neg hw0] at h
      by_cases hge : x + 1 ≥ row.w
      · rw [if_pos hge] at h
        have hgo : ∀ (hwrap : x + 1 ≤ ty.w → ∃ last, cellAt row.cells (row.w - 1) = some last
            ∧ last.autowrapped = true),
            (match ty.cellrow (y + 1) with
              | none => some (Txt.bad 0 (y + 1) cp)
              | some row1 =>
                if row1.w = 0 then some (Txt.bad 0 (y + 1) cp)
                else next_tail ty row1.cells row1.w 0 (y + 1) cp) = some t →
            ∃ row c, ty.cellrow t.y = some row ∧ cellAt row.cells t.x = some c
              ∧ t = ⟨0, t.x, t.y, codepoint_to_utf8 c.codepoint, c.codepoint⟩
              ∧ c.codepoint ≠ 0 ∧ c.link_id = 0
              ∧ ((t.y = y ∧ t.x = x + 1 ∧ x + 1 < row.w)
                  ∨ (t.y = y + 1 ∧ t.x = 0 ∧ row.w ≠ 0
                    ∧ ∃ row0, ty.cellrow y = some row0 ∧ row0.w ≠ 0 ∧ row0.w ≤ x + 1
                      ∧ (x + 1 ≤ ty.w → ∃ last, cellAt row0.cells (row0.w - 1) = some last
                          ∧ last.autowrapped = true))) := by
          intro hwrap hg
          rcases hrow1 : ty.cellrow (y + 1) with _ | row1
          · rw [hrow1] at hg; cases hg; exact absurd h0 (Txt.bad_res _ _ _)
          · rw [hrow1] at hg
            simp only at hg
            by_cases hw1 : row1.w = 0
            · rw [if_pos hw1] at hg; cases hg; exact absurd h0 (Txt.bad_res _ _ _)
            · rw [if_neg hw1] at hg
              obtain ⟨c, hc, e, n0, nl⟩ := next_tail_shape ty row1.cells row1.w 0 (y + 1) cp t
                hg h0 hl
              have hx1 : t.x = 0 := by rw [e]
              have hy1 : t.y = y + 1 := by rw [e]
              refine ⟨row1, c, by rw [hy1]; exact hrow1, by rw [hx1]; exact hc, ?_, n0, nl,
                Or.inr ⟨hy1, hx1, hw1, row, hrow, hw0, by omega, hwrap⟩⟩
              rw [hx1, hy1]; exact e
        by_cases hle : x + 1 ≤ ty.w
        · rw [if_pos hle] at h
          rcases hlast : cellAt row.cells (row.w - 1) with _ | last
          · rw [hlast] at h; cases h
          · rw [hlast] at h
            simp only at h
            by_cases haw : last.autowrapped = false
            · rw [if_pos haw] at h; cases h; exact absurd rfl hl
            · rw [if_neg haw] at h
              refine hgo (fun _ => ⟨last, hlast, ?_⟩) h
              rcases hb : last.autowrapped with _ | _
              · exact absurd hb haw
              · rfl
        · rw [if_neg hle] at h
          exact hgo (fun hc => absurd hc hle) h
      · rw [if_neg hge] at h
        obtain ⟨c, hc, e, n0, nl⟩ := next_tail_shape ty row.cells row.w (x + 1) y cp t h h0 hl
        have hx1 : t.x = x + 1 := by rw [e]
        have hy1 : t.y = y := by rw [e]
        refine ⟨row, c, by rw [hy1]; exact hrow, by rw [hx1]; exact hc, ?_, n0, nl,
          Or.inl ⟨hy1, hx1, by omega⟩⟩
        rw [hx1, hy1]; exact e

theorem txt_at_shape (ty : Termpty) (x y : Int) (cp : Nat) (t : Txt)
    (h : _txt_at ty x y cp = some t) (h0 : t.res = 0) (hl : t.txt.length ≠ 0) :
    ∃ row c, ty.cellrow y = some row ∧ t.y = y ∧ x < row.w ∧ cellAt row.cells t.x = some c
      ∧ t = ⟨0, t.x, y, codepoint_to_utf8 c.codepoint, c.codepoint⟩
      ∧ c.codepoint ≠ 0 ∧ c.link_id = 0
      ∧ (t.x = x ∨ (t.x = x - 1 ∧ ∃ hf, cellAt row.cells x = some hf
          ∧ hf.codepoint = 0 ∧ hf.dblwidth = true)) := by
  unfold _txt_at at h
  rcases hrow : ty.cellrow y with _ | row
  · rw [hrow] at h; cases h; exact absurd h0 (Txt.bad_res _ _ _)
  · rw [hrow] at h
    simp only at h
    by_cases hw0 : row.w = 0
    · rw [if_pos hw0] at h; cases h; exact absurd h0 (Txt.bad_res _ _ _)
    · rw [if_neg hw0] at h
      by_cases hge : x ≥ row.w
      · rw [if_pos hge] at h; cases h; exact absurd rfl hl
      · rw [if_neg hge] at h
        rcases hcell : cellAt row.cells x with _ | cell
        · rw [hcell] at h; cases h
        · rw [hcell] at h
          have hp : prev_tail row.cells cell x y cp = some t := h
          obtain ⟨c, hc, e, n0, nl, hpos⟩ := prev_tail_shape row.cells cell x y cp t hp hcell h0 hl
          have hy : t.y = y := by rw [e]
          refine ⟨row, c, rfl, hy, by omega, hc, e, n0, nl, ?_⟩
          rcases hpos with hp1 | ⟨hp1, hh1, hh2⟩
          · exact Or.inl hp1
          · exact Or.inr ⟨hp1, cell, hcell, hh1, hh2⟩

/-! ## The cells of the span spell the returned string (C13) -/

/-- The two ways lines 440-491 of the backward loop end: the loop is left with
the last text skipped again, or the text stays and the span start moves. -/
theorem goback_rest_cases (st : LinkSt) (sb : List Nat) (t : Txt) :
    (∃ st1, goback_rest st sb t = Iter.brk st1 ∧ st1.sb = ty_sb_lskip sb t.txt.length
        ∧ st1.x1 = st.x1 ∧ st1.y1 = st.y1 ∧ st1.x2 = st.x2 ∧ st1.y2 = st.y2
        ∧ st1.escaped = st.escaped ∧ st1.was_protocol = st.was_protocol)
    ∨ (∃ st1, goback_rest st sb t = Iter.cont st1 ∧ st1.sb = sb
        ∧ st1.x1 = t.x ∧ st1.y1 = t.y ∧ st1.x2 = st.x2 ∧ st1.y2 = st.y2
        ∧ st1.escaped = st.escaped
        ∧ (st1.was_protocol = true → link_is_protocol (some sb) = true)) := by
  unfold goback_rest
  simp only
  by_cases h1 : ((endmatch_of t.codepoint).getD (st.endmatch1, st.endmatch2)).1 ≠ 0
  · rw [if_pos h1]
    exact Or.inl ⟨_, rfl, rfl, rfl, rfl, rfl, rfl, rfl, rfl⟩
  · rw [if_neg h1]
    by_cases h2 : link_is_protocol (some sb) = false
    · rw [if_pos h2]
      by_cases h3 : st.was_protocol = true
      · rw [if_pos h3]
        exact Or.inl ⟨_, rfl, rfl, rfl, rfl, rfl, rfl, rfl, rfl⟩
      · rw [if_neg h3]
        refine Or.inr ⟨_, rfl, rfl, rfl, rfl, rfl, rfl, rfl, ?_⟩
        intro hh
        exact absurd hh h3
    · rw [if_neg h2]
      refine Or.inr ⟨_, rfl, rfl, rfl, rfl, rfl, rfl, rfl, ?_⟩
      intro _
      rcases hb : link_is_protocol (some sb) with _ | _
      · exact absurd hb h2
      · rfl

theorem screen_pty_row_mem (w : Int) (rows : List Cellrow) (y : Int) (row : Cellrow)
    (h : (screen_pty w rows).cellrow y = some row) : row ∈ rows := by
  simp only [screen_pty] at h
  by_cases hy : 0 ≤ y
  · rw [if_pos hy] at h
    exact List.get?_mem h
  · rw [if_neg hy] at h
    cases h

theorem back_end_of_absent (ty : Termpty) (y : Int) (h : ty.cellrow (y - 1) = none) :
    back_end ty 0 y 0 0 := by
  intro cp
  refine ⟨Txt.bad (ty.w - 1) (y - 1) cp, ?_, Or.inl ⟨Or.inl (Txt.bad_res _ _ _), rfl, rfl⟩⟩
  unfold _txt_prev_at
  rw [if_pos (by omega), h]

/-- C14 fails: the URL `http://a` occupies the topmost row from column 0 and no
row exists above it, so `_txt_prev_at` returns -1 at the first backward step,
yet the token is returned; and when the last cell of the only row carries the
autowrapped flag, `_txt_next_at` returns -1 at the end of the row, and the
token is returned as well. -/
theorem termio_link_find_boundary_returns :
    (screen_pty 9 [textrow "http://a "]).cellrow (-1) = none
    ∧ (_txt_prev_at (screen_pty 9 [textrow "http://a "]) 0 0 0).map Txt.res = some (-1)
    ∧ termio_link_find (screen 9 1 [textrow "http://a "]) 20 3 0 0
        = Outcome.done ⟨some (bytes "http://a"), some ⟨0, 0, 7, 0⟩, 0⟩
    ∧ (_txt_next_at (screen_pty 8 [lone_row]) 7 0 0).map Txt.res = some (-1)
    ∧ termio_link_find (screen 8 1 [lone_row]) 20 3 0 0
        = Outcome.done ⟨some (bytes "http://a"), some ⟨0, 0, 7, 0⟩, 0⟩ := by
  decide

/-- C14, amended: when `_txt_prev_at` returns a non-zero value in the backward
loop, the loop is left with the buffer and `(x1, y1)` as they are and the
forward loop runs on them; when `_txt_next_at` returns a non-zero value in the
forward loop, the loop is left with the buffer and `(x2, y2)` as they are and
the buffer goes to validation; in particular a token that starts at column 0
of a row with no row above it, ends at a delimiter and passes the validation
is returned, for every seed inside it. -/
theorem termio_link_find_boundary_ends_phase :
    (∀ (ty : Termpty) (st : LinkSt) (n : Nat) (t : Txt),
      _txt_prev_at ty st.x1 st.y1 st.codepoint = some t → t.res ≠ 0 →
      link_goback ty (n + 1) st = Outcome.done { st with codepoint := t.codepoint })
    ∧ (∀ (ty : Termpty) (st : LinkSt) (n : Nat) (t : Txt),
      _txt_next_at ty st.x2 st.y2 st.codepoint = some t → t.res ≠ 0 →
      link_goforward ty (n + 1) st = Outcome.done { st with codepoint := t.codepoint })
    ∧ (∀ (obj : Termio) (ty : Termpty) (lock : Int) (fuel : Nat) (y : Int) (row : Cellrow)
        (body post : List Termcell) (i : Nat),
      obj.pty = some ty → 0 < obj.w → 0 < obj.h →
      ty.cellrow y = some row → ty.cellrow (y - 1) = none →
      row.cells = body ++ post → ((body.length : Nat) : Int) ≤ row.w →
      (∀ b ∈ body, token_char b.codepoint ∧ b.link_id = 0) →
      fwd_end ty ((body.length - 1 : Nat) : Int) y 0 0 →
      no_walk_past (body.map Termcell.codepoint) →
      returned_raw (utf8_of (body.map Termcell.codepoint)) →
      i < body.length → body.length < fuel →
      termio_link_find obj fuel ((i : Nat) : Int) (y + obj.scroll) lock
        = Outcome.done ⟨some (utf8_of (body.map Termcell.codepoint)),
            some ⟨0, y + obj.scroll, ((body.length - 1 : Nat) : Int), y + obj.scroll⟩,
            lock⟩) := by
  refine ⟨?_, ?_, ?_⟩
  · intro ty st n t h hres
    rw [link_goback_succ]
    unfold goback_iter
    rw [h]
    simp only
    rw [if_pos (Or.inl hres)]
  · intro ty st n t h hres
    rw [link_goforward_succ]
    unfold goforward_iter
    rw [h]
    simp only
    rw [if_pos (Or.inl hres)]
  · intro obj ty lock fuel y row body post i hpty hw hh hrow habove hcells hwidth hbody
      hfwd hm hv hi hfuel
    have hb0 : ∀ b ∈ body, token_char b.codepoint ∧ b.link_id = 0
        ∧ b.codepoint ≠ 0 ∧ b.codepoint ≠ 0 := by
      intro b hb
      exact ⟨(hbody b hb).1, (hbody b hb).2, (hbody b hb).1.2.1, (hbody b hb).1.2.1⟩
    obtain ⟨st, hscan, s1, s2, s3, s4, s5⟩ :=
      row_scan_token ty fuel y row [] body post 0 0 i hrow (by simpa using hcells)
        (by simpa using hwidth) hb0 (by simpa using back_end_of_absent ty y habove)
        (by simpa using hfwd) hm hi hfuel
    have hlen := body_text_length body (by omega) (fun b hb => (hbody b hb).1.1)
    have hlock : termpty_backlog_unlock (termpty_backlog_lock lock) = lock := by
      simp [termpty_backlog_unlock, termpty_backlog_lock]
    have hseed : ((i : Nat) : Int) = (([] : List Termcell).length + i : Nat) := by simp
    rw [hseed, termio_link_find_of_scan obj ty fuel _ _ lock st hpty hw hh
      (by rw [show y + obj.scroll - obj.scroll = y by omega]; exact hscan)]
    unfold link_out
    rw [s1, s2, s3, s4, s5, hlock]
    obtain ⟨hv1, hv2⟩ := hv
    simp only [ne_eq]
    rw [if_pos hlen, if_pos hv1]
    have hn : ¬ (link_is_file (some (utf8_of (body.map Termcell.codepoint))) = true
        ∧ ¬ charAt (utf8_of (body.map Termcell.codepoint)) 0 = 47) := by
      intro hh1; exact hh1.2 (hv2 hh1.1)
    rw [if_neg hn]
    simp

/-- C14 amended, at a concrete input: `http://a` in the topmost row from
column 0, followed by a space, with no row above: the seed on column 3 gives
`http://a`. -/
theorem termio_link_find_boundary_ends_phase_witness :
    termio_link_find (screen 9 1 [textrow "http://a "]) 20 ((3 : Nat) : Int) (0 + 0) 0
      = Outcome.done ⟨some (bytes "http://a"), some ⟨0, 0, 7, 0⟩, 0⟩ :=
  termio_link_find_boundary_ends_phase.2.2 (screen 9 1 [textrow "http://a "])
    (screen_pty 9 [textrow "http://a "]) 0 20 0 (textrow "http://a ")
    ((bytes "http://a").map mkcell) [mkcell 32] 3
    rfl (by decide) (by decide) rfl rfl rfl (by decide) (by decide)
    (fun _ => ⟨_, rfl, Or.inr (Or.inr ⟨by decide, Or.inl rfl⟩)⟩)
    (by decide) (by decide) (by decide) (by decide)

/-! ## The backlog lock counter (C15) -/

theorem link_out_lock (obj : Termio) (sc : Int) (st : LinkSt) (lock : Int) :
    (link_out obj sc st lock).lock = termpty_backlog_unlock lock := by
  unfold link_out
  simp only
  split_ifs <;> rfl

theorem color_out_lock (sc : Int) (st : ColorSt) (lock : Int) :
    (color_out sc st lock).lock = termpty_backlog_unlock lock := by
  unfold color_out
  split <;> rfl

/-- C15 at the failing input: with a non-NULL pty and a viewport of width 0 the
two span finders jump to `end` before `termpty_backlog_lock` and call
`termpty_backlog_unlock` there, so a counter that is 0 before the call is -1
after it; this holds for every widget whose width or height is not positive,
whereas with a positive size every returning call leaves the counter as it
was. -/
theorem termio_find_early_exit_unlocks :
    termio_link_find (screen 0 0 []) 20 0 0 0 = Outcome.done ⟨none, none, -1⟩
    ∧ termio_color_find (screen 0 0 []) 20 0 0 0 = Outcome.done ⟨false, none, none, -1⟩
    ∧ (∀ (obj : Termio) (ty : Termpty) (fuel : Nat) (cx cy lock : Int),
        obj.pty = some ty → obj.w ≤ 0 ∨ obj.h ≤ 0 →
        termio_link_find obj fuel cx cy lock = Outcome.done ⟨none, none, lock - 1⟩
          ∧ termio_color_find obj fuel cx cy lock
              = Outcome.done ⟨false, none, none, lock - 1⟩)
    ∧ (∀ (obj : Termio) (ty : Termpty) (fuel : Nat) (cx cy lock : Int) (r : LinkRet),
        obj.pty = some ty → 0 < obj.w → 0 < obj.h →
        termio_link_find obj fuel cx cy lock = Outcome.done r → r.lock = lock)
    ∧ (∀ (obj : Termio) (ty : Termpty) (fuel : Nat) (cx cy lock : Int) (r : ColorRet),
        obj.pty = some ty → 0 < obj.w → 0 < obj.h →
        termio_color_find obj fuel cx cy lock = Outcome.done r → r.lock = lock) := by
  have hlock : ∀ lock : Int, termpty_backlog_unlock (termpty_backlog_lock lock) = lock := by
    intro lock
    simp [termpty_backlog_unlock, termpty_backlog_lock]
  refine ⟨by decide, by decide, ?_, ?_, ?_⟩
  · intro obj ty fuel cx cy lock hpty hsz
    constructor
    · unfold termio_link_find
      rw [hpty]
      simp only
      rw [if_pos hsz]
      rfl
    · unfold termio_color_find
      rw [hpty]
      simp only
      rw [if_pos hsz]
      rfl
  · intro obj ty fuel cx cy lock r hpty hw hh hret
    have hsz : ¬ (obj.w ≤ 0 ∨ obj.h ≤ 0) := by omega
    unfold termio_link_find at hret
    rw [hpty] at hret
    simp only at hret
    rw [if_neg hsz] at hret
    rcases hscan : link_scan ty fuel cx (cy - obj.scroll) with o | _ | _
    · rcases o with _ | st
      · rw [hscan] at hret
        simp only [Outcome.done.injEq] at hret
        rw [← hret]
        exact hlock lock
      · rw [hscan] at hret
        simp only [Outcome.done.injEq] at hret
        rw [← hret, link_out_lock]
        exact hlock lock
    · rw [hscan] at hret; cases hret
    · rw [hscan] at hret; cases hret
  · intro obj ty fuel cx cy lock r hpty hw hh hret
    have hsz : ¬ (obj.w ≤ 0 ∨ obj.h ≤ 0) := by omega
    unfold termio_color_find at hret
    rw [hpty] at hret
    simp only at hret
    rw [if_neg hsz] at hret
    rcases hscan : color_scan ty fuel cx (cy - obj.scroll) with o | _ | _
    · rcases o with _ | st
      · rw [hscan] at hret
        simp only [Outcome.done.injEq] at hret
        rw [← hret]
        exact hlock lock
      · rw [hscan] at hret
        simp only [Outcome.done.injEq] at hret
        rw [← hret, color_out_lock]
        exact hlock lock
    · rw [hscan] at hret; cases hret
    · rw [hscan] at hret; cases hret

/-! ## Termination of the scan loops (C16) -/

theorem lex_lt (a a1 b b1 K : Nat) (ha : a1 < a) (hb : b1 < K) :
    a1 * K + b1 < a * K + b := by
  have h := Nat.mul_le_mul_right K (Nat.succ_le_of_lt ha)
  rw [Nat.succ_mul] at h
  omega

/-- Where a successful step backward lands: further left in the same row, or
in the row above at a column below the screen width. -/
theorem txt_prev_at_lt (ty : Termpty) (x y : Int) (cp : Nat) (t : Txt)
    (h : _txt_prev_at ty x y cp = some t) (h0 : t.res = 0) (hl : t.txt.length ≠ 0) :
    (∃ row, ty.cellrow t.y = some row) ∧ 0 ≤ t.x
      ∧ ((t.y = y ∧ t.x < x) ∨ (t.y = y - 1 ∧ t.x ≤ ty.w - 1)) := by
  obtain ⟨row, c, hrow, hc, _, _, _, hpos⟩ := txt_prev_at_shape ty x y cp t h h0 hl
  refine ⟨⟨row, hrow⟩, cellAt_nonneg _ _ _ hc, ?_⟩
  rcases hpos with ⟨_, hy, _, hp⟩ | ⟨_, hy, _, hp⟩
  · left
    rcases hp with hp | ⟨hp, _⟩ <;> exact ⟨hy, by omega⟩
  · right
    rcases hp with hp | ⟨hp, _⟩ <;> exact ⟨hy, by omega⟩

/-- Where a successful step forward lands: one column to the right in the same
row, or at column 0 of the row below. -/
theorem txt_next_at_gt (ty : Termpty) (x y : Int) (cp : Nat) (t : Txt)
    (h : _txt_next_at ty x y cp = some t) (h0 : t.res = 0) (hl : t.txt.length ≠ 0) :
    ∃ row, ty.cellrow t.y = some row
      ∧ ((t.y = y ∧ t.x = x + 1 ∧ t.x < row.w) ∨ (t.y = y + 1 ∧ t.x = 0)) := by
  obtain ⟨row, c, hrow, _, _, _, _, hpos⟩ := txt_next_at_shape ty x y cp t h h0 hl
  refine ⟨row, hrow, ?_⟩
  rcases hpos with ⟨hy, hx, hw⟩ | ⟨hy, hx, _⟩
  · exact Or.inl ⟨hy, hx, by omega⟩
  · exact Or.inr ⟨hy, hx⟩

/-- An iteration of the backward loop of `termio_link_find` that does not
leave the loop moves `(x1, y1)` strictly down in the lexicographic order of
`(y1, x1)` and leaves `(x2, y2)` alone. -/
theorem goback_iter_decreases (ty : Termpty) (st st1 : LinkSt)
    (h : goback_iter ty st = some (Iter.cont st1)) :
    (st1.y1 < st.y1 ∨ (st1.y1 = st.y1 ∧ st1.x1 < st.x1))
      ∧ (∃ row, ty.cellrow st1.y1 = some row) ∧ 0 ≤ st1.x1
      ∧ (st1.y1 = st.y1 ∨ st1.x1 ≤ ty.w - 1)
      ∧ st1.x2 = st.x2 ∧ st1.y2 = st.y2 := by
  unfold goback_iter at h
  obtain ⟨o, hp⟩ : ∃ o, _txt_prev_at ty st.x1 st.y1 st.codepoint = o := ⟨_, rfl⟩
  rw [hp] at h
  rcases o with _ | t
  · cases h
  · simp only at h
    by_cases hbad : t.res ≠ 0 ∨ t.txt.length = 0
    · rw [if_pos hbad] at h; cases h
    · rw [if_neg hbad] at h
      have h0 : t.res = 0 := by
        by_contra hh; exact hbad (Or.inl hh)
      have hl : t.txt.length ≠ 0 := fun hh => hbad (Or.inr hh)
      obtain ⟨_, p0, p1⟩ := txt_prev_at_lt ty _ _ _ t hp h0 hl
      by_cases hs : _isspace_unicode t.codepoint = true
      · rw [if_pos hs] at h
        obtain ⟨o2, hp2⟩ : ∃ o2, _txt_prev_at ty t.x t.y t.codepoint = o2 := ⟨_, rfl⟩
        rw [hp2] at h
        rcases o2 with _ | t2
        · cases h
        · simp only at h
          by_cases hc2 : t2.res ≠ 0 ∨ t2.txt.length = 0 ∨ t2.codepoint ≠ 92
          · rw [if_pos hc2] at h; cases h
          · rw [if_neg hc2] at h
            have g0 : t2.res = 0 := by
              by_contra hh; exact hc2 (Or.inl hh)
            have gl : t2.txt.length ≠ 0 := fun hh => hc2 (Or.inr (Or.inl hh))
            obtain ⟨q, q0, q1⟩ := txt_prev_at_lt ty _ _ _ t2 hp2 g0 gl
            simp only [Option.some.injEq] at h
            rcases goback_rest_cases st (ty_sb_prepend st.sb t.txt) t2 with
              ⟨s1, e, _⟩ | ⟨s1, e, _, a2, a3, a4, a5, _⟩
            · rw [e] at h; cases h
            · rw [e] at h
              cases h
              rw [a2, a3]
              refine ⟨?_, q, q0, ?_, a4, a5⟩
              · rcases p1 with ⟨p1, p2⟩ | ⟨p1, p2⟩ <;> rcases q1 with ⟨q1, q2⟩ | ⟨q1, q2⟩ <;>
                  omega
              · rcases p1 with ⟨p1, p2⟩ | ⟨p1, p2⟩ <;> rcases q1 with ⟨q1, q2⟩ | ⟨q1, q2⟩ <;>
                  omega
      · rw [if_neg hs] at h
        simp only [Option.some.injEq] at h
        rcases goback_rest_cases st (ty_sb_prepend st.sb t.txt) t with
          ⟨s1, e, _⟩ | ⟨s1, e, _, a2, a3, a4, a5, _⟩
        · rw [e] at h; cases h
        · rw [e] at h
          cases h
          rw [a2, a3]
          obtain ⟨p, _, _⟩ := txt_prev_at_lt ty _ _ _ t hp h0 hl
          refine ⟨?_, p, p0, ?_, a4, a5⟩
          · rcases p1 with ⟨p1, p2⟩ | ⟨p1, p2⟩ <;> omega
          · rcases p1 with ⟨p1, p2⟩ | ⟨p1, p2⟩ <;> omega

/-- An iteration of the forward loop of `termio_link_find` that does not leave
the loop, the `continue` after a backslash included, moves `(x2, y2)` strictly
up in the lexicographic order of `(y2, x2)`. -/
theorem goforward_iter_increases (ty : Termpty) (st st1 : LinkSt)
    (h : goforward_iter ty st = some (Iter.cont st1)) :
    (st.y2 < st1.y2 ∨ (st1.y2 = st.y2 ∧ st.x2 < st1.x2))
      ∧ ∃ row, ty.cellrow st1.y2 = some row
        ∧ ((st1.y2 = st.y2 ∧ st1.x2 = st.x2 + 1 ∧ st1.x2 < row.w)
            ∨ (st1.y2 = st.y2 + 1 ∧ st1.x2 = 0)) := by
  unfold goforward_iter at h
  obtain ⟨o, hp⟩ : ∃ o, _txt_next_at ty st.x2 st.y2 st.codepoint = o := ⟨_, rfl⟩
  rw [hp] at h
  rcases o with _ | t
  · cases h
  · simp only at h
    by_cases hbad : t.res ≠ 0 ∨ t.txt.length = 0
    · rw [if_pos hbad] at h; cases h
    · rw [if_neg hbad] at h
      have h0 : t.res = 0 := by
        by_contra hh; exact hbad (Or.inl hh)
      have hl : t.txt.length ≠ 0 := fun hh => hbad (Or.inr hh)
      obtain ⟨row, hrow, hpos⟩ := txt_next_at_gt ty _ _ _ t hp h0 hl
      have key : st1.x2 = t.x ∧ st1.y2 = t.y := by
        by_cases hb : t.codepoint = 92
        · rw [if_pos hb] at h
          cases h
          exact ⟨rfl, rfl⟩
        · rw [if_neg hb] at h
          split_ifs at h <;> cases h <;> exact ⟨rfl, rfl⟩
      rw [key.1, key.2]
      refine ⟨?_, row, hrow, hpos⟩
      rcases hpos with ⟨p1, p2, _⟩ | ⟨p1, p2⟩
      · right; omega
      · left; omega

theorem present_in_range (ty : Termpty) (lo hi y : Int) (row : Cellrow)
    (hfin : ∀ y, y < lo ∨ hi < y → ty.cellrow y = none) (h : ty.cellrow y = some row) :
    lo ≤ y ∧ y ≤ hi := by
  by_contra hc
  have : y < lo ∨ hi < y := by omega
  rw [hfin y this] at h
  cases h

theorem finite_width_bound (ty : Termpty) (lo hi : Int)
    (hfin : ∀ y, y < lo ∨ hi < y → ty.cellrow y = none) :
    ∃ W : Int, 0 ≤ W ∧ ∀ y row, ty.cellrow y = some row → row.w ≤ W := by
  have key : ∀ n : Nat, ∃ W : Int, 0 ≤ W ∧
      ∀ y row, lo ≤ y → y < lo + n → ty.cellrow y = some row → row.w ≤ W := by
    intro n
    induction n with
    | zero => exact ⟨0, le_refl 0, fun y row h1 h2 _ => by omega⟩
    | succ n ih =>
      obtain ⟨W, hW0, hW⟩ := ih
      rcases hrow : ty.cellrow (lo + n) with _ | r
      · refine ⟨W, hW0, fun y row h1 h2 h3 => ?_⟩
        by_cases hy : y = lo + n
        · rw [hy, hrow] at h3; cases h3
        · exact hW y row h1 (by push_cast at h2; omega) h3
      · refine ⟨max W r.w, le_max_of_le_left hW0, fun y row h1 h2 h3 => ?_⟩
        by_cases hy : y = lo + n
        · rw [hy, hrow] at h3
          cases h3
          exact le_max_right _ _
        · exact le_trans (hW y row h1 (by push_cast at h2; omega) h3) (le_max_left _ _)
  obtain ⟨W, hW0, hW⟩ := key (hi - lo + 1).toNat
  refine ⟨W, hW0, fun y row h => ?_⟩
  obtain ⟨h1, h2⟩ := present_in_range ty lo hi y row hfin h
  exact hW y row h1 (by omega) h

theorem goback_iter_brk_keeps (ty : Termpty) (st st1 : LinkSt)
    (h : goback_iter ty st = some (Iter.brk st1)) : st1.x2 = st.x2 ∧ st1.y2 = st.y2 := by
  unfold goback_iter at h
  rcases hp : _txt_prev_at ty st.x1 st.y1 st.codepoint with _ | t
  · rw [hp] at h; cases h
  · rw [hp] at h
    simp only at h
    by_cases hbad : t.res ≠ 0 ∨ t.txt.length = 0
    · rw [if_pos hbad] at h; cases h; exact ⟨rfl, rfl⟩
    · rw [if_neg hbad] at h
      by_cases hs : _isspace_unicode t.codepoint = true
      · rw [if_pos hs] at h
        rcases hp2 : _txt_prev_at ty t.x t.y t.codepoint with _ | t2
        · rw [hp2] at h; cases h
        · rw [hp2] at h
          simp only at h
          by_cases hc2 : t2.res ≠ 0 ∨ t2.txt.length = 0 ∨ t2.codepoint ≠ 92
          · rw [if_pos hc2] at h; cases h; exact ⟨rfl, rfl⟩
          · rw [if_neg hc2] at h
            simp only [Option.some.injEq] at h
            rcases goback_rest_cases st (ty_sb_prepend st.sb t.txt) t2 with
              ⟨s1, e, _, _, _, a4, a5, _⟩ | ⟨s1, e, _⟩
            · rw [e] at h; cases h; exact ⟨a4, a5⟩
            · rw [e] at h; cases h
      · rw [if_neg hs] at h
        simp only [Option.some.injEq] at h
        rcases goback_rest_cases st (ty_sb_prepend st.sb t.txt) t with
          ⟨s1, e, _, _, _, a4, a5, _⟩ | ⟨s1, e, _⟩
        · rw [e] at h; cases h; exact ⟨a4, a5⟩
        · rw [e] at h; cases h

theorem link_goback_keeps (ty : Termpty) :
    ∀ (fuel : Nat) (st st1 : LinkSt), link_goback ty fuel st = Outcome.done st1 →
      st1.x2 = st.x2 ∧ st1.y2 = st.y2 := by
  intro fuel
  induction fuel with
  | zero => intro st st1 h; cases h
  | succ n ih =>
    intro st st1 h
    rw [link_goback_succ] at h
    rcases hit : goback_iter ty st with _ | it
    · rw [hit] at h; cases h
    · rw [hit] at h
      rcases it with s | s
      · simp only [Outcome.done.injEq] at h
        rw [← h]
        exact goback_iter_brk_keeps ty st s hit
      · obtain ⟨_, _, _, _, k1, k2⟩ := goback_iter_decreases ty st s hit
        obtain ⟨j1, j2⟩ := ih s st1 h
        exact ⟨by rw [j1, k1], by rw [j2, k2]⟩

theorem link_goback_mono (ty : Termpty) :
    ∀ (n : Nat) (st : LinkSt), link_goback ty n st ≠ Outcome.fuel →
      ∀ k, link_goback ty (n + k) st = link_goback ty n st := by
  intro n
  induction n with
  | zero => intro st h; exact absurd rfl h
  | succ n ih =>
    intro st h k
    rw [show n + 1 + k = (n + k) + 1 by omega, link_goback_succ, link_goback_succ]
    rw [link_goback_succ] at h
    rcases hit : goback_iter ty st with _ | it
    · rfl
    · rcases it with s | s
      · rfl
      · rw [hit] at h
        exact ih s h k

theorem link_goforward_mono (ty : Termpty) :
    ∀ (n : Nat) (st : LinkSt), link_goforward ty n st ≠ Outcome.fuel →
      ∀ k, link_goforward ty (n + k) st = link_goforward ty n st := by
  intro n
  induction n with
  | zero => intro st h; exact absurd rfl h
  | succ n ih =>
    intro st h k
    rw [show n + 1 + k = (n + k) + 1 by omega, link_goforward_succ, link_goforward_succ]
    rw [link_goforward_succ] at h
    rcases hit : goforward_iter ty st with _ | it
    · rfl
    · rcases it with s | s
      · rfl
      · rw [hit] at h
        exact ih s h k

/-- The backward loop of `termio_link_find` does not use up a fuel above the
measure `(y1 - lo) * K + x1`. -/
theorem link_goback_terminates (ty : Termpty) (lo hi : Int) (K : Nat)
    (hfin : ∀ y, y < lo ∨ hi < y → ty.cellrow y = none) (hK : ty.w ≤ (K : Int)) :
    ∀ (fuel : Nat) (st : LinkSt), 0 ≤ st.x1 → st.x1 < (K : Int) → lo ≤ st.y1 →
      (st.y1 - lo).toNat * K + st.x1.toNat < fuel → link_goback ty fuel st ≠ Outcome.fuel := by
  intro fuel
  induction fuel with
  | zero => intro st _ _ _ h; omega
  | succ n ih =>
    intro st hx0 hxK hy hm
    rw [link_goback_succ]
    rcases hit : goback_iter ty st with _ | it
    · simp
    · rcases it with s | s
      · simp
      · obtain ⟨hdec, ⟨row, hrow⟩, hs0, hsw, _, _⟩ := goback_iter_decreases ty st s hit
        obtain ⟨hlo, _⟩ := present_in_range ty lo hi _ row hfin hrow
        have hsK : s.x1 < (K : Int) := by
          rcases hsw with hsw | hsw
          · rcases hdec with hdec | hdec <;> omega
          · omega
        refine ih s hs0 hsK hlo ?_
        rcases hdec with hdec | ⟨hd1, hd2⟩
        · have := lex_lt (st.y1 - lo).toNat (s.y1 - lo).toNat st.x1.toNat s.x1.toNat K
            (by omega) (by omega)
          omega
        · rw [hd1]
          omega

/-- The forward loop of `termio_link_find` does not use up a fuel above the
measure `(hi - y2) * (W + 1) + (W - x2)`. -/
theorem link_goforward_terminates (ty : Termpty) (lo hi W : Int)
    (hfin : ∀ y, y < lo ∨ hi < y → ty.cellrow y = none) (hW0 : 0 ≤ W)
    (hW : ∀ y row, ty.cellrow y = some row → row.w ≤ W) :
    ∀ (fuel : Nat) (st : LinkSt), st.x2 ≤ W → st.y2 ≤ hi →
      (hi - st.y2).toNat * (W.toNat + 1) + (W - st.x2).toNat < fuel →
      link_goforward ty fuel st ≠ Outcome.fuel := by
  intro fuel
  induction fuel with
  | zero => intro st _ _ h; omega
  | succ n ih =>
    intro st hx hy hm
    rw [link_goforward_succ]
    rcases hit : goforward_iter ty st with _ | it
    · simp
    · rcases it with s | s
      · simp
      · obtain ⟨_, row, hrow, hpos⟩ := goforward_iter_increases ty st s hit
        obtain ⟨_, hhi⟩ := present_in_range ty lo hi _ row hfin hrow
        have hrw := hW _ _ hrow
        rcases hpos with ⟨p1, p2, p3⟩ | ⟨p1, p2⟩
        · refine ih s (by omega) hhi ?_
          rw [p1, p2]
          omega
        · refine ih s (by omega) hhi ?_
          have := lex_lt (hi - st.y2).toNat (hi - s.y2).toNat (W - st.x2).toNat
            (W - s.x2).toNat (W.toNat + 1) (by omega) (by omega)
          omega

theorem link_scan_unfold (ty : Termpty) (fuel : Nat) (cx cy : Int) :
    link_scan ty fuel cx cy =
      match _txt_at ty cx cy 0 with
      | none => Outcome.oob
      | some t =>
        if t.res ≠ 0 ∨ t.txt.length = 0 then Outcome.done none
        else if _isspace_unicode t.codepoint = true then Outcome.done none
        else
          match link_goback ty fuel (link_seed t cx cy) with
          | Outcome.oob => Outcome.oob
          | Outcome.fuel => Outcome.fuel
          | Outcome.done st1 =>
            match link_goforward ty fuel st1 with
            | Outcome.oob => Outcome.oob
            | Outcome.fuel => Outcome.fuel
            | Outcome.done st2 => Outcome.done (some st2) := rfl

/-- On a grid with finitely many present rows the scan of `termio_link_find`
needs only a bounded number of loop iterations: from some fuel on the result
is the same and is not the fuel outcome. -/
theorem link_scan_terminates (ty : Termpty) (cx cy : Int) (hfin : finite_rows ty) :
    ∃ N, ∀ fuel, N ≤ fuel →
      link_scan ty fuel cx cy = link_scan ty N cx cy
        ∧ link_scan ty N cx cy ≠ Outcome.fuel := by
  obtain ⟨lo, hi, hfin⟩ := hfin
  obtain ⟨W, hW0, hW⟩ := finite_width_bound ty lo hi hfin
  obtain ⟨K, hK, hKx⟩ : ∃ K : Nat, ty.w ≤ (K : Int) ∧ cx + 1 ≤ (K : Int) := by
    refine ⟨(max ty.w (cx + 1)).toNat, ?_, ?_⟩
    · have := le_max_left ty.w (cx + 1)
      omega
    · have := le_max_right ty.w (cx + 1)
      omega
  obtain ⟨N, hNb, hNf⟩ : ∃ N : Nat, (cy - lo).toNat * K + K ≤ N
      ∧ (hi - cy).toNat * (W.toNat + 1) + W.toNat + 1 ≤ N :=
    ⟨((cy - lo).toNat * K + K) + ((hi - cy).toNat * (W.toNat + 1) + W.toNat + 1),
      by omega, by omega⟩
  refine ⟨N, ?_⟩
  intro fuel hfuel
  obtain ⟨k, hk⟩ : ∃ k, fuel = N + k := ⟨fuel - N, by omega⟩
  rw [hk, link_scan_unfold, link_scan_unfold]
  rcases hp : _txt_at ty cx cy 0 with _ | t
  · exact ⟨rfl, by simp⟩
  · simp only
    by_cases hbad : t.res ≠ 0 ∨ t.txt.length = 0
    · rw [if_pos hbad, if_pos hbad]
      exact ⟨rfl, by simp⟩
    · rw [if_neg hbad, if_neg hbad]
      by_cases hs : _isspace_unicode t.codepoint = true
      · rw [if_pos hs, if_pos hs]
        exact ⟨rfl, by simp⟩
      · rw [if_neg hs, if_neg hs]
        have h0 : t.res = 0 := by
          by_contra hh; exact hbad (Or.inl hh)
        have hl : t.txt.length ≠ 0 := fun hh => hbad (Or.inr hh)
        obtain ⟨row, c, hrow, hy, hxw, hc, _, _, _, hpos⟩ := txt_at_shape ty cx cy 0 t hp h0 hl
        have ht0 := cellAt_nonneg _ _ _ hc
        have htx : t.x ≤ cx := by
          rcases hpos with hp1 | ⟨hp1, _⟩ <;> omega
        obtain ⟨hlo, hhi⟩ := present_in_range ty lo hi cy row hfin hrow
        have hrw := hW _ _ hrow
        have hb := link_goback_terminates ty lo hi K hfin hK N
          (link_seed t cx cy) ht0 (by show t.x < _; omega) (by show lo ≤ t.y; omega)
          (by
            show (t.y - lo).toNat * _ + t.x.toNat < _
            rw [hy]
            omega)
        rw [link_goback_mono ty _ _ hb k]
        rcases hres : link_goback ty N (link_seed t cx cy) with s1 | _ | _
        · simp only
          obtain ⟨k1, k2⟩ := link_goback_keeps ty _ _ s1 hres
          have k1' : s1.x2 = cx := k1
          have k2' : s1.y2 = cy := k2
          have hf := link_goforward_terminates ty lo hi W hfin hW0 hW N
            s1 (by omega) (by omega)
            (by
              rw [k1', k2']
              omega)
          rw [link_goforward_mono ty _ _ hf k]
          refine ⟨rfl, ?_⟩
          rcases hres2 : link_goforward ty N s1 with s2 | _ | _
          · simp
          · simp
          · exact absurd hres2 hf
        · exact ⟨rfl, by simp⟩
        · exact absurd hres hb

theorem color_goback_step (ty : Termpty) (n : Nat) (st : ColorSt) :
    color_goback ty (n + 1) st =
      match color_goback_iter ty st with
      | none => Outcome.oob
      | some (ColorIter.brk st1) => Outcome.done st1
      | some (ColorIter.cont st1) => color_goback ty n st1 := rfl

theorem color_goforward_step (ty : Termpty) (n : Nat) (st : ColorSt) :
    color_goforward ty (n + 1) st =
      match color_goforward_iter ty st with
      | none => Outcome.oob
      | some (ColorIter.brk st1) => Outcome.done st1
      | some (ColorIter.cont st1) => color_goforward ty n st1 := rfl

/-- An iteration of the backward loop of `termio_color_find` that does not
leave the loop moves `(x1, y1)` strictly down in the lexicographic order of
`(y1, x1)` and leaves `(x2, y2)` alone. -/
theorem color_goback_iter_decreases (ty : Termpty) (st st1 : ColorSt)
    (h : color_goback_iter ty st = some (ColorIter.cont st1)) :
    (st1.y1 < st.y1 ∨ (st1.y1 = st.y1 ∧ st1.x1 < st.x1))
      ∧ (∃ row, ty.cellrow st1.y1 = some row) ∧ 0 ≤ st1.x1
      ∧ (st1.y1 = st.y1 ∨ st1.x1 ≤ ty.w - 1)
      ∧ st1.x2 = st.x2 ∧ st1.y2 = st.y2 := by
  unfold color_goback_iter at h
  obtain ⟨o, hp⟩ : ∃ o, _txt_prev_at ty st.x1 st.y1 st.codepoint = o := ⟨_, rfl⟩
  rw [hp] at h
  rcases o with _ | t
  · cases h
  · simp only at h
    by_cases hbad : t.res ≠ 0 ∨ t.txt.length = 0
    · rw [if_pos hbad] at h; cases h
    · rw [if_neg hbad] at h
      have h0 : t.res = 0 := by
        by_contra hh; exact hbad (Or.inl hh)
      have hl : t.txt.length ≠ 0 := fun hh => hbad (Or.inr hh)
      obtain ⟨p, p0, p1⟩ := txt_prev_at_lt ty _ _ _ t hp h0 hl
      by_cases ha : _is_authorized_in_color t.codepoint = false
      · rw [if_pos ha] at h; cases h
      · rw [if_neg ha] at h
        cases h
        refine ⟨?_, p, p0, ?_, rfl, rfl⟩
        · rcases p1 with ⟨p1, p2⟩ | ⟨p1, p2⟩
          · exact Or.inr ⟨p1, p2⟩
          · exact Or.inl (by show t.y < st.y1; omega)
        · rcases p1 with ⟨p1, p2⟩ | ⟨p1, p2⟩
          · exact Or.inl p1
          · exact Or.inr p2

/-- An iteration of the forward loop of `termio_color_find` that does not
leave the loop moves `(x2, y2)` strictly up in the lexicographic order of
`(y2, x2)`. -/
theorem color_goforward_iter_increases (ty : Termpty) (st st1 : ColorSt)
    (h : color_goforward_iter ty st = some (ColorIter.cont st1)) :
    (st.y2 < st1.y2 ∨ (st1.y2 = st.y2 ∧ st.x2 < st1.x2))
      ∧ ∃ row, ty.cellrow st1.y2 = some row
        ∧ ((st1.y2 = st.y2 ∧ st1.x2 = st.x2 + 1 ∧ st1.x2 < row.w)
            ∨ (st1.y2 = st.y2 + 1 ∧ st1.x2 = 0)) := by
  unfold color_goforward_iter at h
  obtain ⟨o, hp⟩ : ∃ o, _txt_next_at ty st.x2 st.y2 st.codepoint = o := ⟨_, rfl⟩
  rw [hp] at h
  rcases o with _ | t
  · cases h
  · simp only at h
    by_cases hbad : t.res ≠ 0 ∨ t.txt.length = 0
    · rw [if_pos hbad] at h; cases h
    · rw [if_neg hbad] at h
      have h0 : t.res = 0 := by
        by_contra hh; exact hbad (Or.inl hh)
      have hl : t.txt.length ≠ 0 := fun hh => hbad (Or.inr hh)
      obtain ⟨row, hrow, hpos⟩ := txt_next_at_gt ty _ _ _ t hp h0 hl
      by_cases ha : _is_authorized_in_color t.codepoint = false
      · rw [if_pos ha] at h; cases h
      · rw [if_neg ha] at h
        cases h
        refine ⟨?_, row, hrow, hpos⟩
        rcases hpos with ⟨p1, p2, _⟩ | ⟨p1, p2⟩
        · exact Or.inr ⟨p1, by show st.x2 < t.x; omega⟩
        · exact Or.inl (by show st.y2 < t.y; omega)

theorem color_goback_iter_brk_keeps (ty : Termpty) (st st1 : ColorSt)
    (h : color_goback_iter ty st = some (ColorIter.brk st1)) :
    st1.x2 = st.x2 ∧ st1.y2 = st.y2 := by
  unfold color_goback_iter at h
  rcases hp : _txt_prev_at ty st.x1 st.y1 st.codepoint with _ | t
  · rw [hp] at h; cases h
  · rw [hp] at h
    simp only at h
    split_ifs at h <;> cases h <;> exact ⟨rfl, rfl⟩

theorem color_goback_keeps (ty : Termpty) :
    ∀ (fuel : Nat) (st st1 : ColorSt), color_goback ty fuel st = Outcome.done st1 →
      st1.x2 = st.x2 ∧ st1.y2 = st.y2 := by
  intro fuel
  induction fuel with
  | zero => intro st st1 h; cases h
  | succ n ih =>
    intro st st1 h
    rw [color_goback_step] at h
    rcases hit : color_goback_iter ty st with _ | it
    · rw [hit] at h; cases h
    · rw [hit] at h
      rcases it with s | s
      · simp only [Outcome.done.injEq] at h
        rw [← h]
        exact color_goback_iter_brk_keeps ty st s hit
      · obtain ⟨_, _, _, _, k1, k2⟩ := color_goback_iter_decreases ty st s hit
        obtain ⟨j1, j2⟩ := ih s st1 h
        exact ⟨by rw [j1, k1], by rw [j2, k2]⟩

theorem color_goback_mono (ty : Termpty) :
    ∀ (n : Nat) (st : ColorSt), color_goback ty n st ≠ Outcome.fuel →
      ∀ k, color_goback ty (n + k) st = color_goback ty n st := by
  intro n
  induction n with
  | zero => intro st h; exact absurd rfl h
  | succ n ih =>
    intro st h k
    rw [show n + 1 + k = (n + k) + 1 by omega, color_goback_step, color_goback_step]
    rw [color_goback_step] at h
    rcases hit : color_goback_iter ty st with _ | it
    · rfl
    · rcases it with s | s
      · rfl
      · rw [hit] at h
        exact ih s h k

theorem color_goforward_mono (ty : Termpty) :
    ∀ (n : Nat) (st : ColorSt), color_goforward ty n st ≠ Outcome.fuel →
      ∀ k, color_goforward ty (n + k) st = color_goforward ty n st := by
  intro n
  induction n with
  | zero => intro st h; exact absurd rfl h
  | succ n ih =>
    intro st h k
    rw [show n + 1 + k = (n + k) + 1 by omega, color_goforward_step, color_goforward_step]
    rw [color_goforward_step] at h
    rcases hit : color_goforward_iter ty st with _ | it
    · rfl
    · rcases it with s | s
      · rfl
      · rw [hit] at h
        exact ih s h k

theorem color_goback_terminates (ty : Termpty) (lo hi : Int) (K : Nat)
    (hfin : ∀ y, y < lo ∨ hi < y → ty.cellrow y = none) (hK : ty.w ≤ (K : Int)) :
    ∀ (fuel : Nat) (st : ColorSt), 0 ≤ st.x1 → st.x1 < (K : Int) → lo ≤ st.y1 →
      (st.y1 - lo).toNat * K + st.x1.toNat < fuel →
      color_goback ty fuel st ≠ Outcome.fuel := by
  intro fuel
  induction fuel with
  | zero => intro st _ _ _ h; omega
  | succ n ih =>
    intro st hx0 hxK hy hm
    rw [color_goback_step]
    rcases hit : color_goback_iter ty st with _ | it
    · simp
    · rcases it with s | s
      · simp
      · obtain ⟨hdec, ⟨row, hrow⟩, hs0, hsw, _, _⟩ := color_goback_iter_decreases ty st s hit
        obtain ⟨hlo, _⟩ := present_in_range ty lo hi _ row hfin hrow
        have hsK : s.x1 < (K : Int) := by
          rcases hsw with hsw | hsw
          · rcases hdec with hdec | hdec <;> omega
          · omega
        refine ih s hs0 hsK hlo ?_
        rcases hdec with hdec | ⟨hd1, hd2⟩
        · have := lex_lt (st.y1 - lo).toNat (s.y1 - lo).toNat st.x1.toNat s.x1.toNat K
            (by omega) (by omega)
          omega
        · rw [hd1]
          omega

theorem color_goforward_terminates (ty : Termpty) (lo hi W : Int)
    (hfin : ∀ y, y < lo ∨ hi < y → ty.cellrow y = none) (hW0 : 0 ≤ W)
    (hW : ∀ y row, ty.cellrow y = some row → row.w ≤ W) :
    ∀ (fuel : Nat) (st : ColorSt), st.x2 ≤ W → st.y2 ≤ hi →
      (hi - st.y2).toNat * (W.toNat + 1) + (W - st.x2).toNat < fuel →
      color_goforward ty fuel st ≠ Outcome.fuel := by
  intro fuel
  induction fuel with
  | zero => intro st _ _ h; omega
  | succ n ih =>
    intro st hx hy hm
    rw [color_goforward_step]
    rcases hit : color_goforward_iter ty st with _ | it
    · simp
    · rcases it with s | s
      · simp
      · obtain ⟨_, row, hrow, hpos⟩ := color_goforward_iter_increases ty st s hit
        obtain ⟨_, hhi⟩ := present_in_range ty lo hi _ row hfin hrow
        have hrw := hW _ _ hrow
        rcases hpos with ⟨p1, p2, p3⟩ | ⟨p1, p2⟩
        · refine ih s (by omega) hhi ?_
          rw [p1, p2]
          omega
        · refine ih s (by omega) hhi ?_
          have := lex_lt (hi - st.y2).toNat (hi - s.y2).toNat (W - st.x2).toNat
            (W - s.x2).toNat (W.toNat + 1) (by omega) (by omega)
          omega

theorem color_scan_unfold (ty : Termpty) (fuel : Nat) (cx cy : Int) :
    color_scan ty fuel cx cy =
      match _txt_at ty cx cy 0 with
      | none => Outcome.oob
      | some t =>
        if t.res ≠ 0 ∨ t.txt.length = 0 then Outcome.done none
        else if _is_authorized_in_color t.codepoint = false then Outcome.done none
        else
          match color_goback ty fuel (color_seed t cx cy) with
          | Outcome.oob => Outcome.oob
          | Outcome.fuel => Outcome.fuel
          | Outcome.done st1 =>
            match color_goforward ty fuel st1 with
            | Outcome.oob => Outcome.oob
            | Outcome.fuel => Outcome.fuel
            | Outcome.done st2 => Outcome.done (some st2) := rfl

/-- On a grid with finitely many present rows the scan of `termio_color_find`
needs only a bounded number of loop iterations. -/
theorem color_scan_terminates (ty : Termpty) (cx cy : Int) (hfin : finite_rows ty) :
    ∃ N, ∀ fuel, N ≤ fuel →
      color_scan ty fuel cx cy = color_scan ty N cx cy
        ∧ color_scan ty N cx cy ≠ Outcome.fuel := by
  obtain ⟨lo, hi, hfin⟩ := hfin
  obtain ⟨W, hW0, hW⟩ := finite_width_bound ty lo hi hfin
  obtain ⟨K, hK, hKx⟩ : ∃ K : Nat, ty.w ≤ (K : Int) ∧ cx + 1 ≤ (K : Int) := by
    refine ⟨(max ty.w (cx + 1)).toNat, ?_, ?_⟩
    · have := le_max_left ty.w (cx + 1)
      omega
    · have := le_max_right ty.w (cx + 1)
      omega
  obtain ⟨N, hNb, hNf⟩ : ∃ N : Nat, (cy - lo).toNat * K + K ≤ N
      ∧ (hi - cy).toNat * (W.toNat + 1) + W.toNat + 1 ≤ N :=
    ⟨((cy - lo).toNat * K + K) + ((hi - cy).toNat * (W.toNat + 1) + W.toNat + 1),
      by omega, by omega⟩
  refine ⟨N, ?_⟩
  intro fuel hfuel
  obtain ⟨k, hk⟩ : ∃ k, fuel = N + k := ⟨fuel - N, by omega⟩
  rw [hk, color_scan_unfold, color_scan_unfold]
  rcases hp : _txt_at ty cx cy 0 with _ | t
  · exact ⟨rfl, by simp⟩
  · simp only
    by_cases hbad : t.res ≠ 0 ∨ t.txt.length = 0
    · rw [if_pos hbad, if_pos hbad]
      exact ⟨rfl, by simp⟩
    · rw [if_neg hbad, if_neg hbad]
      by_cases hs : _is_authorized_in_color t.codepoint = false
      · rw [if_pos hs, if_pos hs]
        exact ⟨rfl, by simp⟩
      · rw [if_neg hs, if_neg hs]
        have h0 : t.res = 0 := by
          by_contra hh; exact hbad (Or.inl hh)
        have hl : t.txt.length ≠ 0 := fun hh => hbad (Or.inr hh)
        obtain ⟨row, c, hrow, hy, hxw, hc, _, _, _, hpos⟩ := txt_at_shape ty cx cy 0 t hp h0 hl
        have ht0 := cellAt_nonneg _ _ _ hc
        have htx : t.x ≤ cx := by
          rcases hpos with hp1 | ⟨hp1, _⟩ <;> omega
        obtain ⟨hlo, hhi⟩ := present_in_range ty lo hi cy row hfin hrow
        have hrw := hW _ _ hrow
        have hb := color_goback_terminates ty lo hi K hfin hK N
          (color_seed t cx cy) ht0 (by show t.x < _; omega) (by show lo ≤ t.y; omega)
          (by
            show (t.y - lo).toNat * _ + t.x.toNat < _
            rw [hy]
            omega)
        rw [color_goback_mono ty _ _ hb k]
        rcases hres : color_goback ty N (color_seed t cx cy) with s1 | _ | _
        · simp only
          obtain ⟨k1, k2⟩ := color_goback_keeps ty _ _ s1 hres
          have k1' : s1.x2 = cx := k1
          have k2' : s1.y2 = cy := k2
          have hf := color_goforward_terminates ty lo hi W hfin hW0 hW N
            s1 (by omega) (by omega)
            (by
              rw [k1', k2']
              omega)
          rw [color_goforward_mono ty _ _ hf k]
          refine ⟨rfl, ?_⟩
          rcases hres2 : color_goforward ty N s1 with s2 | _ | _
          · simp
          · simp
          · exact absurd hres2 hf
        · exact ⟨rfl, by simp⟩
        · exact absurd hres hb

theorem finite_rows_screen (w : Int) (rows : List Cellrow) : finite_rows (screen_pty w rows) := by
  refine ⟨0, (rows.length : Int) - 1, ?_⟩
  intro y hy
  simp only [screen_pty]
  by_cases h0 : 0 ≤ y
  · rw [if_pos h0, List.get?_eq_getElem?, List.getElem?_eq_none]
    omega
  · rw [if_neg h0]

/-- C16: on every grid with finitely many present rows `termio_link_find` and
`termio_color_find` terminate: an iteration of a backward loop that does not
leave the loop moves `(y1, x1)` strictly down in the lexicographic order, an
iteration of a forward loop that does not leave the loop (the `continue` after
a backslash included) moves `(y2, x2)` strictly up, and from some loop bound
on each function gives one and the same result, which is not the exhaustion
of the bound. -/
theorem termio_find_terminates (obj : Termio) (ty : Termpty) (cx cy lock : Int)
    (hpty : obj.pty = some ty) (hfin : finite_rows ty) :
    (∀ st st1, goback_iter ty st = some (Iter.cont st1) →
      st1.y1 < st.y1 ∨ (st1.y1 = st.y1 ∧ st1.x1 < st.x1))
    ∧ (∀ st st1, goforward_iter ty st = some (Iter.cont st1) →
      st.y2 < st1.y2 ∨ (st1.y2 = st.y2 ∧ st.x2 < st1.x2))
    ∧ (∀ st st1, color_goback_iter ty st = some (ColorIter.cont st1) →
      st1.y1 < st.y1 ∨ (st1.y1 = st.y1 ∧ st1.x1 < st.x1))
    ∧ (∀ st st1, color_goforward_iter ty st = some (ColorIter.cont st1) →
      st.y2 < st1.y2 ∨ (st1.y2 = st.y2 ∧ st.x2 < st1.x2))
    ∧ (∃ N r, r ≠ Outcome.fuel ∧
        ∀ fuel, N ≤ fuel → termio_link_find obj fuel cx cy lock = r)
    ∧ (∃ N r, r ≠ Outcome.fuel ∧
        ∀ fuel, N ≤ fuel → termio_color_find obj fuel cx cy lock = r) := by
  refine ⟨fun st st1 h => (goback_iter_decreases ty st st1 h).1,
    fun st st1 h => (goforward_iter_increases ty st st1 h).1,
    fun st st1 h => (color_goback_iter_decreases ty st st1 h).1,
    fun st st1 h => (color_goforward_iter_increases ty st st1 h).1, ?_, ?_⟩
  · obtain ⟨N, hN⟩ := link_scan_terminates ty cx (cy - obj.scroll) hfin
    have hstable : ∀ fuel, N ≤ fuel →
        termio_link_find obj fuel cx cy lock = termio_link_find obj N cx cy lock := by
      intro fuel hfuel
      unfold termio_link_find
      rw [hpty]
      simp only
      rw [(hN fuel hfuel).1]
    refine ⟨N, termio_link_find obj N cx cy lock, ?_, hstable⟩
    have hne := (hN N (le_refl N)).2
    unfold termio_link_find
    rw [hpty]
    simp only
    by_cases hsz : obj.w ≤ 0 ∨ obj.h ≤ 0
    · rw [if_pos hsz]; simp
    · rw [if_neg hsz]
      rcases hs : link_scan ty N cx (cy - obj.scroll) with o | _ | _
      · rcases o with _ | st <;> simp
      · simp
      · exact absurd hs hne
  · obtain ⟨N, hN⟩ := color_scan_terminates ty cx (cy - obj.scroll) hfin
    have hstable : ∀ fuel, N ≤ fuel →
        termio_color_find obj fuel cx cy lock = termio_color_find obj N cx cy lock := by
      intro fuel hfuel
      unfold termio_color_find
      rw [hpty]
      simp only
      rw [(hN fuel hfuel).1]
    refine ⟨N, termio_color_find obj N cx cy lock, ?_, hstable⟩
    have hne := (hN N (le_refl N)).2
    unfold termio_color_find
    rw [hpty]
    simp only
    by_cases hsz : obj.w ≤ 0 ∨ obj.h ≤ 0
    · rw [if_pos hsz]; simp
    · rw [if_neg hsz]
      rcases hs : color_scan ty N cx (cy - obj.scroll) with o | _ | _
      · rcases o with _ | st <;> simp
      · simp
      · exact absurd hs hne

/-- C16, at a concrete input: on the two-row screen holding the soft-wrapped
`http://a/b` both span finders seeded on column 3 of row 0 reach a result that
no longer depends on the loop bound; with the bound 20 the link finder returns
the token. -/
theorem termio_find_terminates_witness :
    (∃ N r, r ≠ Outcome.fuel ∧ ∀ fuel, N ≤ fuel →
        termio_link_find (screen 8 2 [wrap_row1, wrap_row2]) fuel 3 0 0 = r)
    ∧ (∃ N r, r ≠ Outcome.fuel ∧ ∀ fuel, N ≤ fuel →
        termio_color_find (screen 8 2 [wrap_row1, wrap_row2]) fuel 3 0 0 = r)
    ∧ termio_link_find (screen 8 2 [wrap_row1, wrap_row2]) 20 3 0 0
        = Outcome.done ⟨some (bytes "http://a/b"), some ⟨1, 0, 2, 1⟩, 0⟩ :=
  ⟨(termio_find_terminates (screen 8 2 [wrap_row1, wrap_row2])
      (screen_pty 8 [wrap_row1, wrap_row2]) 3 0 0 rfl (finite_rows_screen 8 _)).2.2.2.2.1,
    (termio_find_terminates (screen 8 2 [wrap_row1, wrap_row2])
      (screen_pty 8 [wrap_row1, wrap_row2]) 3 0 0 rfl (finite_rows_screen 8 _)).2.2.2.2.2,
    by decide⟩

/-! ## The delimiter set of the forward loop (C17) -/

/-- C17 fails for the parentheses: `(` is an opening delimiter of the pairing
table and `)` its closing delimiter, but neither is a case of the forward
`switch`; for the cells `http://a(b` seeded on `h` the forward scan reads `(`,
appends it and goes on, and the token is `http://a(b`. -/
theorem forward_scan_passes_paren :
    endmatch_of 40 = some (41, 41)
    ∧ forward_delim 40 = false ∧ forward_delim 41 = false
    ∧ termio_link_find (screen 10 1 [textrow "http://a(b"]) 20 0 0 0
        = Outcome.done ⟨some (bytes "http://a(b"), some ⟨0, 0, 9, 0⟩, 0⟩ := by
  decide

/-- C17, amended: every codepoint of the pairing table of the backward loop,
opening or closing, other than `(` and `)` is a case of the forward `switch`;
reading such a codepoint leaves the forward loop at once with the buffer as it
is, whatever the expected terminators are; `(` and `)`, like any codepoint
other than the backslash, leave the loop with the buffer as it is when they are
an expected terminator, and otherwise the loop goes on over them.  For the cells `http://a<b` seeded on `h` the token is
`http://a`, and seeded inside `(http://a)b` it is `http://a`. -/
theorem forward_delim_stops :
    (∀ e ∈ endmatch_table, (e.1 ≠ 40 → forward_delim e.1 = true)
      ∧ (e.2.1 ≠ 41 → forward_delim e.2.1 = true)
      ∧ (e.2.2 ≠ 41 → forward_delim e.2.2 = true))
    ∧ (∀ (ty : Termpty) (st : LinkSt) (n : Nat) (t : Txt),
        _txt_next_at ty st.x2 st.y2 st.codepoint = some t → t.res = 0 → t.txt.length ≠ 0 →
        forward_delim t.codepoint = true →
        ∃ st1, link_goforward ty (n + 1) st = Outcome.done st1 ∧ st1.sb = st.sb)
    ∧ (∀ (ty : Termpty) (st : LinkSt) (n : Nat) (t : Txt),
        _txt_next_at ty st.x2 st.y2 st.codepoint = some t → t.res = 0 → t.txt.length ≠ 0 →
        t.codepoint ≠ 92 → t.codepoint = st.endmatch1 ∨ t.codepoint = st.endmatch2 →
        ∃ st1, link_goforward ty (n + 1) st = Outcome.done st1 ∧ st1.sb = st.sb)
    ∧ (∀ (ty : Termpty) (st : LinkSt) (t : Txt),
        _txt_next_at ty st.x2 st.y2 st.codepoint = some t → t.res = 0 → t.txt.length ≠ 0 →
        t.codepoint = 40 ∨ t.codepoint = 41 →
        t.codepoint ≠ st.endmatch1 → t.codepoint ≠ st.endmatch2 →
        ∃ st1, goforward_iter ty st = some (Iter.cont st1) ∧ st1.x2 = t.x ∧ st1.y2 = t.y)
    ∧ termio_link_find (screen 10 1 [textrow "http://a<b"]) 20 0 0 0
        = Outcome.done ⟨some (bytes "http://a"), some ⟨0, 0, 7, 0⟩, 0⟩
    ∧ termio_link_find (screen 11 1 [textrow "(http://a)b"]) 20 1 0 0
        = Outcome.done ⟨some (bytes "http://a"), some ⟨1, 0, 8, 0⟩, 0⟩ := by
  refine ⟨by decide, ?_, ?_, ?_, by decide, by decide⟩
  · intro ty st n t h h0 hl hd
    have hbad : ¬ (t.res ≠ 0 ∨ t.txt.length = 0) := by
      intro hh
      rcases hh with hh | hh
      · exact hh h0
      · exact hl hh
    have h92 : t.codepoint ≠ 92 := by
      intro hh
      rw [hh] at hd
      revert hd
      decide
    rw [link_goforward_succ]
    unfold goforward_iter
    rw [h]
    simp only
    rw [if_neg hbad, if_neg h92]
    by_cases hstop : _isspace_unicode t.codepoint = true ∨ t.codepoint = st.endmatch1
        ∨ t.codepoint = st.endmatch2
    · rw [if_pos hstop]
      refine ⟨_, rfl, ?_⟩
      split_ifs <;> rfl
    · rw [if_neg hstop, if_pos hd]
      refine ⟨_, rfl, ?_⟩
      split_ifs <;> rfl
  · intro ty st n t h h0 hl h92 hm
    have hbad : ¬ (t.res ≠ 0 ∨ t.txt.length = 0) := by
      intro hh
      rcases hh with hh | hh
      · exact hh h0
      · exact hl hh
    rw [link_goforward_succ]
    unfold goforward_iter
    rw [h]
    simp only
    rw [if_neg hbad, if_neg h92, if_pos (Or.inr hm)]
    refine ⟨_, rfl, ?_⟩
    split_ifs <;> rfl
  · intro ty st t h h0 hl hp n1 n2
    have hbad : ¬ (t.res ≠ 0 ∨ t.txt.length = 0) := by
      intro hh
      rcases hh with hh | hh
      · exact hh h0
      · exact hl hh
    have h92 : t.codepoint ≠ 92 := by
      rcases hp with hp | hp <;> rw [hp] <;> decide
    have hsp : _isspace_unicode t.codepoint = false := by
      rcases hp with hp | hp <;> rw [hp] <;> decide
    have hfd : forward_delim t.codepoint = false := by
      rcases hp with hp | hp <;> rw [hp] <;> decide
    have hstop : ¬ (_isspace_unicode t.codepoint = true ∨ t.codepoint = st.endmatch1
        ∨ t.codepoint = st.endmatch2) := by
      intro hh
      rcases hh with hh | hh | hh
      · rw [hsp] at hh; cases hh
      · exact n1 hh
      · exact n2 hh
    unfold goforward_iter
    rw [h]
    simp only
    rw [if_neg hbad, if_neg h92, if_neg hstop]
    simp only [hfd, Bool.false_eq_true, if_false]
    split_ifs <;> exact ⟨_, rfl, rfl, rfl⟩

/-! ## The escape of the forward loop (C18) -/

/-- C18 at the failing input: in the row `./a\ b` seeded on `a` the forward loop
sets `escaped` on the backslash, moves `x2` onto the space that follows and
leaves the loop there, so the buffer is `./a` and the result `/home/u/./a` with
`x2 = 4`, not a token that includes `b`; in general a whitespace or an expected
terminator read by the forward loop leaves the loop with the buffer as it is,
whether `escaped` is set or not.  The backward loop does go on over the escaped
space: seeded on `b` the buffer is `./a b`. -/
theorem forward_escape_still_stops :
    scan_sb (link_scan (screen_pty 8 [esc_space_row]) 20 2 0) = some (bytes "./a")
    ∧ termio_link_find (screen_cwd 8 1 [esc_space_row] (bytes "/home/u")) 20 2 0 0
        = Outcome.done ⟨some (bytes "/home/u/./a"), some ⟨0, 0, 4, 0⟩, 0⟩
    ∧ scan_sb (link_scan (screen_pty 8 [esc_space_row]) 20 5 0) = some (bytes "./a b")
    ∧ (∀ (ty : Termpty) (st : LinkSt) (n : Nat) (t : Txt),
        _txt_next_at ty st.x2 st.y2 st.codepoint = some t → t.res = 0 → t.txt.length ≠ 0 →
        t.codepoint ≠ 92 →
        _isspace_unicode t.codepoint = true ∨ t.codepoint = st.endmatch1
          ∨ t.codepoint = st.endmatch2 →
        ∃ st1, link_goforward ty (n + 1) st = Outcome.done st1 ∧ st1.sb = st.sb) := by
  refine ⟨by decide, by decide, by decide, ?_⟩
  intro ty st n t h h0 hl h92 hm
  have hbad : ¬ (t.res ≠ 0 ∨ t.txt.length = 0) := by
    intro hh
    rcases hh with hh | hh
    · exact hh h0
    · exact hl hh
  rw [link_goforward_succ]
  unfold goforward_iter
  rw [h]
  simp only
  rw [if_neg hbad, if_neg h92, if_pos hm]
  refine ⟨_, rfl, ?_⟩
  split_ifs <;> rfl

/-! ## A seed on a delimiter (C19) -/

theorem forward_delim_not_space (c : Nat) (h : forward_delim c = true) :
    _isspace_unicode c = false := by
  have hall : ∀ d ∈ [34, 39, 96, 60, 62, 91, 93, 123, 125, 124, 0xab, 0xbb,
      0x2018, 0x2019, 0x201b, 0x201c, 0x201d, 0x201e, 0x2039, 0x203a,
      0x2308, 0x2309, 0x230a, 0x230b, 0x231c, 0x231d, 0x231e, 0x231f,
      0x2329, 0x232a, 0x27e6, 0x27e7, 0x27e8, 0x27e9], _isspace_unicode d = false := by
    decide
  exact hall c (of_decide_eq_true h)

/-- C19 fails: in the row `"a@b.c` the seed cell in column 0 holds the double
quote, a member of the delimiter set; the quote starts the buffer, the buffer
`"a@b.c` satisfies `link_is_email`, and it is returned. -/
theorem termio_link_find_seed_on_quote :
    forward_delim 34 = true ∧ endmatch_of 34 = some (34, 34)
    ∧ (_txt_at (screen_pty 8 [quote_mail_row]) 0 0 0).map Txt.codepoint = some 34
    ∧ termio_link_find (screen 8 1 [quote_mail_row]) 20 0 0 0
        = Outcome.done ⟨some (34 :: bytes "a@b.c"), some ⟨0, 0, 5, 0⟩, 0⟩ := by
  decide

/-- C19, amended: a seed cell that holds a codepoint of the delimiter set is
not rejected at the seed (only an absent, empty or whitespace seed is): the
scan goes on with the delimiter as the first text of the buffer, and a token is
returned when the scanned buffer passes the validation; `termio_link_find`
returns no token whenever the buffer has length zero at the label `out`.
Seeded on the opening quote of `"http://a/b"` the buffer is the quote followed
by `http://a/b`, which fails the validation, and the result is NULL. -/
theorem seed_delimiter_scanned :
    (∀ (ty : Termpty) (fuel : Nat) (cx cy : Int) (t : Txt),
      _txt_at ty cx cy 0 = some t → t.res = 0 → t.txt.length ≠ 0 →
      forward_delim t.codepoint = true ∨ (endmatch_of t.codepoint).isSome = true →
      link_scan ty fuel cx cy ≠ Outcome.done none
        ∧ link_scan ty fuel cx cy =
            (match link_goback ty fuel (link_seed t cx cy) with
              | Outcome.oob => Outcome.oob
              | Outcome.fuel => Outcome.fuel
              | Outcome.done st1 =>
                match link_goforward ty fuel st1 with
                | Outcome.oob => Outcome.oob
                | Outcome.fuel => Outcome.fuel
                | Outcome.done st2 => Outcome.done (some st2))
        ∧ (link_seed t cx cy).sb = t.txt)
    ∧ (∀ (obj : Termio) (sc : Int) (st : LinkSt) (lock : Int), st.sb.length = 0 →
        (link_out obj sc st lock).s = none ∧ (link_out obj sc st lock).span = none)
    ∧ scan_sb (link_scan (screen_pty 12 [quoted_row]) 20 0 0)
        = some (34 :: bytes "http://a/b")
    ∧ termio_link_find (screen 12 1 [quoted_row]) 20 0 0 0 = Outcome.done ⟨none, none, 0⟩ := by
  refine ⟨?_, ?_, by decide, by decide⟩
  · intro ty fuel cx cy t h h0 hl hd
    have hbad : ¬ (t.res ≠ 0 ∨ t.txt.length = 0) := by
      intro hh
      rcases hh with hh | hh
      · exact hh h0
      · exact hl hh
    have hs : ¬ (_isspace_unicode t.codepoint = true) := by
      have : _isspace_unicode t.codepoint = false := by
        rcases hd with hd | hd
        · exact forward_delim_not_space _ hd
        · rcases he : endmatch_of t.codepoint with _ | ⟨e1, e2⟩
          · rw [he] at hd; cases hd
          · exact (endmatch_of_props _ _ _ he).2.2.1
      rw [this]
      decide
    have heq : link_scan ty fuel cx cy =
        (match link_goback ty fuel (link_seed t cx cy) with
          | Outcome.oob => Outcome.oob
          | Outcome.fuel => Outcome.fuel
          | Outcome.done st1 =>
            match link_goforward ty fuel st1 with
            | Outcome.oob => Outcome.oob
            | Outcome.fuel => Outcome.fuel
            | Outcome.done st2 => Outcome.done (some st2)) := by
      rw [link_scan_unfold, h]
      simp only
      rw [if_neg hbad, if_neg hs]
    refine ⟨?_, heq, by simp [link_seed, ty_sb_add]⟩
    rw [heq]
    rcases link_goback ty fuel (link_seed t cx cy) with s1 | _ | _
    · simp only
      rcases link_goforward ty fuel s1 with s2 | _ | _ <;> simp
    · simp
    · simp
  · intro obj sc st lock hlen
    unfold link_out
    have : ¬ st.sb.length ≠ 0 := by simp [hlen]
    rw [if_neg this]
    exact ⟨rfl, rfl⟩

/-! ## Walking past the start of a URI scheme (C20) -/

theorem utf8_of_head (cs : List Nat) (b : Nat) (rest : List Nat)
    (h : utf8_of cs = b :: rest) : b < 128 ∨ 192 ≤ b := by
  induction cs with
  | nil => simp [utf8_of] at h
  | cons c cs ih =>
    simp only [utf8_of, codepoint_to_utf8] at h
    split_ifs at h with h1 h2 h3 h4
    · simp only [List.singleton_append, List.cons.injEq] at h
      omega
    · simp only [List.cons_append, List.cons.injEq] at h
      omega
    · simp only [List.cons_append, List.cons.injEq] at h
      omega
    · simp only [List.cons_append, List.cons.injEq] at h
      omega
    · exact ih (by simpa using h)

/-- C23 at the failing input: in the row holding a backslash, U+2003 and
`h://a@b.c`, seeded on `c`, the backward loop reaches `h://a@b.c`, which
satisfies `link_is_protocol`, prepends the three bytes of U+2003, reads the
backslash before it, and trims with the length of the backslash (1) instead of
the length of U+2003 (3): the bytes `0x80 0x83` stay at the start of the
buffer and of the returned string, which is no concatenation of whole encoded
codepoints.  In general, on that path the buffer loses as many bytes as the
text of the backslash has, one, whatever the length of the whitespace. -/
theorem termio_link_find_splits_codepoint :
    codepoint_to_utf8 8195 = [226, 128, 131]
    ∧ scan_sb (link_scan (screen_pty 12 [em_space_row]) 20 10 0)
        = some (128 :: 131 :: bytes "h://a@b.c")
    ∧ termio_link_find (screen 12 1 [em_space_row]) 20 10 0 0
        = Outcome.done ⟨some (128 :: 131 :: bytes "h://a@b.c"), some ⟨2, 0, 10, 0⟩, 0⟩
    ∧ ¬ whole_codepoints (128 :: 131 :: bytes "h://a@b.c")
    ∧ (∀ (ty : Termpty) (st : LinkSt) (t t2 : Txt),
        _txt_prev_at ty st.x1 st.y1 st.codepoint = some t → t.res = 0 → t.txt.length ≠ 0 →
        _isspace_unicode t.codepoint = true →
        _txt_prev_at ty t.x t.y t.codepoint = some t2 → t2.res = 0 → t2.txt.length ≠ 0 →
        t2.codepoint = 92 →
        st.was_protocol = true → link_is_protocol (some (ty_sb_prepend st.sb t.txt)) = false →
        t2.txt.length = 1
        ∧ ∃ st1, goback_iter ty st = some (Iter.brk st1)
            ∧ st1.sb = ty_sb_lskip (ty_sb_prepend st.sb t.txt) 1 ∧ st1.x1 = st.x1) := by
  refine ⟨by decide, by decide, by decide, ?_, ?_⟩
  · rintro ⟨cs, hcs⟩
    have h := utf8_of_head cs 128 _ hcs.symm
    omega
  · intro ty st t t2 h h0 hl hs h2 h20 h2l h92 hwas hnp
    have hlen : t2.txt.length = 1 := by
      rcases txt_prev_at_wf ty t.x t.y t.codepoint t2 h2 with hw | ⟨_, _, hw⟩
      · rw [hw] at h2l
        exact absurd rfl h2l
      · rw [hw, h92]
        rfl
    refine ⟨hlen, ?_⟩
    have hbad : ¬ (t.res ≠ 0 ∨ t.txt.length = 0) := by
      intro hh
      rcases hh with hh | hh
      · exact hh h0
      · exact hl hh
    have hbad2 : ¬ (t2.res ≠ 0 ∨ t2.txt.length = 0 ∨ t2.codepoint ≠ 92) := by
      intro hh
      rcases hh with hh | hh | hh
      · exact hh h20
      · exact h2l hh
      · exact hh h92
    unfold goback_iter
    rw [h]
    simp only
    rw [if_neg hbad, if_pos hs, h2]
    simp only
    rw [if_neg hbad2]
    unfold goback_rest
    simp only [hnp, hwas, hlen, if_true]
    split_ifs <;> exact ⟨_, rfl, rfl, rfl⟩

/-! ## Link-tagged cells (C21) -/

theorem cellAt_in_range (cells : List Termcell) (i : Int) (h0 : 0 ≤ i)
    (h : i < cells.length) : ∃ c, cellAt cells i = some c := by
  have hlt : i.toNat < cells.length := by omega
  unfold cellAt
  rw [if_pos h0, List.get?_eq_getElem?]
  exact ⟨cells[i.toNat], List.getElem?_eq_getElem hlt⟩

theorem cellAt_take (cells : List Termcell) (n i : Int) (h : i < n) :
    cellAt (cells.take n.toNat) i = cellAt cells i := by
  unfold cellAt
  by_cases h0 : 0 ≤ i
  · rw [if_pos h0, if_pos h0, List.get?_eq_getElem?, List.get?_eq_getElem?,
      List.getElem?_take_of_lt (by omega)]
  · rw [if_neg h0, if_neg h0]

theorem rows_hold_trim (ty : Termpty) (hr : rows_hold ty) : rows_hold ty.trim := by
  intro y row hrow
  simp only [Termpty.trim] at hrow
  rcases h : ty.cellrow y with _ | row0
  · rw [h] at hrow
    cases hrow
  · rw [h] at hrow
    simp only [Option.map_some', Option.some.injEq] at hrow
    subst hrow
    have hh := hr y row0 h
    simp only [Cellrow.trim, List.length_take]
    omega

theorem prev_tail_trim (row : Cellrow) (cell : Termcell) (x y : Int) (cp : Nat)
    (hx : x < row.w) :
    prev_tail row.trim.cells cell x y cp = prev_tail row.cells cell x y cp := by
  unfold prev_tail
  simp only [Cellrow.trim]
  rw [cellAt_take row.cells row.w (x - 1) (by omega)]

theorem prev_tail_total (row : Cellrow) (hh : 0 ≤ row.w ∧ row.w ≤ row.cells.length)
    (cell : Termcell) (x y : Int) (cp : Nat) (hx : x < row.w) :
    ∃ t, prev_tail row.cells cell x y cp = some t := by
  unfold prev_tail
  by_cases hd : cell.codepoint = 0 ∧ cell.dblwidth = true
  · rw [if_pos hd]
    by_cases hx1 : x - 1 < 0
    · rw [if_pos hx1]
      exact ⟨_, rfl⟩
    · rw [if_neg hx1]
      obtain ⟨c1, hc1⟩ := cellAt_in_range row.cells (x - 1) (by omega) (by omega)
      rw [hc1]
      exact ⟨_, rfl⟩
  · rw [if_neg hd]
    exact ⟨_, rfl⟩

theorem next_tail_trim (ty : Termpty) (row : Cellrow) (x y : Int) (cp : Nat)
    (hx : x < row.w) :
    next_tail ty.trim row.trim.cells row.w x y cp = next_tail ty row.cells row.w x y cp := by
  unfold next_tail
  simp only [Cellrow.trim, Termpty.trim]
  rw [cellAt_take row.cells row.w x hx, cellAt_take row.cells row.w (row.w - 1) (by omega)]

theorem next_tail_total (ty : Termpty) (row : Cellrow)
    (hh : 0 ≤ row.w ∧ row.w ≤ row.cells.length) (x y : Int) (cp : Nat) (hx0 : 0 ≤ x)
    (hx : x < row.w) : ∃ t, next_tail ty row.cells row.w x y cp = some t := by
  unfold next_tail
  obtain ⟨c, hc⟩ := cellAt_in_range row.cells x hx0 (by omega)
  obtain ⟨last, hlast⟩ := cellAt_in_range row.cells (row.w - 1) (by omega) (by omega)
  rw [hc]
  simp only
  by_cases hd : c.codepoint = 0 ∧ c.dblwidth = true
  · rw [if_pos hd]
    by_cases hend : x + 1 ≥ row.w
    · rw [if_pos hend, hlast]
      simp only
      split_ifs <;> exact ⟨_, rfl⟩
    · rw [if_neg hend]
      exact ⟨_, rfl⟩
  · rw [if_neg hd]
    exact ⟨_, rfl⟩

theorem txt_at_trim (ty : Termpty) (x y : Int) (cp : Nat) :
    _txt_at ty.trim x y cp = _txt_at ty x y cp := by
  unfold _txt_at
  simp only [Termpty.trim]
  rcases ty.cellrow y with _ | row
  · rfl
  · simp only [Option.map_some', Cellrow.trim]
    by_cases hw : row.w = 0
    · rw [if_pos hw, if_pos hw]
    · rw [if_neg hw, if_neg hw]
      by_cases hge : x ≥ row.w
      · rw [if_pos hge, if_pos hge]
      · rw [if_neg hge, if_neg hge, cellAt_take row.cells row.w x (by omega),
          cellAt_take row.cells row.w (x - 1) (by omega)]

theorem txt_at_total (ty : Termpty) (hr : rows_hold ty) (x y : Int) (cp : Nat)
    (hx : 0 ≤ x) : ∃ t, _txt_at ty x y cp = some t := by
  unfold _txt_at
  obtain ⟨o, hrow⟩ : ∃ o, ty.cellrow y = o := ⟨_, rfl⟩
  rw [hrow]
  rcases o with _ | row
  · exact ⟨_, rfl⟩
  · have hh := hr y row hrow
    simp only
    by_cases hw : row.w = 0
    · rw [if_pos hw]
      exact ⟨_, rfl⟩
    · rw [if_neg hw]
      by_cases hge : x ≥ row.w
      · rw [if_pos hge]
        exact ⟨_, rfl⟩
      · rw [if_neg hge]
        obtain ⟨c, hc⟩ := cellAt_in_range row.cells x hx (by omega)
        rw [hc]
        simp only
        by_cases hd : c.codepoint = 0 ∧ c.dblwidth = true
        · rw [if_pos hd]
          by_cases hx1 : x - 1 < 0
          · rw [if_pos hx1]
            exact ⟨_, rfl⟩
          · rw [if_neg hx1]
            obtain ⟨c1, hc1⟩ := cellAt_in_range row.cells (x - 1) (by omega) (by omega)
            rw [hc1]
            exact ⟨_, rfl⟩
        · rw [if_neg hd]
          exact ⟨_, rfl⟩

theorem txt_prev_at_trim (ty : Termpty) (x y : Int) (cp : Nat) :
    _txt_prev_at ty.trim x y cp = _txt_prev_at ty x y cp := by
  unfold _txt_prev_at
  simp only [Termpty.trim]
  by_cases hx : x - 1 < 0
  · rw [if_pos hx, if_pos hx]
    rcases ty.cellrow (y - 1) with _ | row
    · rfl
    · simp only [Option.map_some']
      have hw1 : row.trim.w = row.w := rfl
      rw [hw1]
      by_cases hw : row.w = 0
      · rw [if_pos hw, if_pos hw]
      · rw [if_neg hw, if_neg hw]
        by_cases hge : ty.w - 1 ≥ row.w
        · rw [if_pos hge, if_pos hge]
        · rw [if_neg hge, if_neg hge]
          have hc : cellAt row.trim.cells (ty.w - 1) = cellAt row.cells (ty.w - 1) :=
            cellAt_take row.cells row.w (ty.w - 1) (by omega)
          rw [hc]
          rcases cellAt row.cells (ty.w - 1) with _ | c
          · rfl
          · simp only
            rw [prev_tail_trim row c (ty.w - 1) (y - 1) cp (by omega)]
  · rw [if_neg hx, if_neg hx]
    rcases ty.cellrow y with _ | row
    · rfl
    · simp only [Option.map_some']
      have hw1 : row.trim.w = row.w := rfl
      rw [hw1]
      by_cases hw : row.w = 0
      · rw [if_pos hw, if_pos hw]
      · rw [if_neg hw, if_neg hw]
        by_cases hge : x - 1 ≥ row.w
        · rw [if_pos hge, if_pos hge]
        · rw [if_neg hge, if_neg hge]
          have hc : cellAt row.trim.cells (x - 1) = cellAt row.cells (x - 1) :=
            cellAt_take row.cells row.w (x - 1) (by omega)
          rw [hc]
          rcases cellAt row.cells (x - 1) with _ | c
          · rfl
          · simp only
            rw [prev_tail_trim row c (x - 1) y cp (by omega)]

theorem txt_prev_at_total (ty : Termpty) (hr : rows_hold ty) (hw1 : 1 ≤ ty.w) (x y : Int)
    (cp : Nat) : ∃ t, _txt_prev_at ty x y cp = some t := by
  unfold _txt_prev_at
  by_cases hx : x - 1 < 0
  · rw [if_pos hx]
    obtain ⟨o, hrow⟩ : ∃ o, ty.cellrow (y - 1) = o := ⟨_, rfl⟩
    rw [hrow]
    rcases o with _ | row
    · exact ⟨_, rfl⟩
    · have hh := hr (y - 1) row hrow
      simp only
      by_cases hw : row.w = 0
      · rw [if_pos hw]
        exact ⟨_, rfl⟩
      · rw [if_neg hw]
        by_cases hge : ty.w - 1 ≥ row.w
        · rw [if_pos hge]
          exact ⟨_, rfl⟩
        · rw [if_neg hge]
          obtain ⟨c, hc⟩ := cellAt_in_range row.cells (ty.w - 1) (by omega) (by omega)
          rw [hc]
          simp only
          by_cases hs : (c.autowrapped = false ∧ y - 1 ≥ 0) ∨ row.w < ty.w
          · rw [if_pos hs]
            exact ⟨_, rfl⟩
          · rw [if_neg hs]
            exact prev_tail_total row hh c (ty.w - 1) (y - 1) cp (by omega)
  · rw [if_neg hx]
    obtain ⟨o, hrow⟩ : ∃ o, ty.cellrow y = o := ⟨_, rfl⟩
    rw [hrow]
    rcases o with _ | row
    · exact ⟨_, rfl⟩
    · have hh := hr y row hrow
      simp only
      by_cases hw : row.w = 0
      · rw [if_pos hw]
        exact ⟨_, rfl⟩
      · rw [if_neg hw]
        by_cases hge : x - 1 ≥ row.w
        · rw [if_pos hge]
          exact ⟨_, rfl⟩
        · rw [if_neg hge]
          obtain ⟨c, hc⟩ := cellAt_in_range row.cells (x - 1) (by omega) (by omega)
          rw [hc]
          simp only
          exact prev_tail_total row hh c (x - 1) y cp (by omega)

theorem txt_next_at_trim (ty : Termpty) (hr : rows_hold ty) (x y : Int) (cp : Nat) :
    _txt_next_at ty.trim x y cp = _txt_next_at ty x y cp := by
  unfold _txt_next_at
  simp only
  obtain ⟨o, hrow⟩ : ∃ o, ty.cellrow y = o := ⟨_, rfl⟩
  obtain ⟨o1, hrow1⟩ : ∃ o, ty.cellrow (y + 1) = o := ⟨_, rfl⟩
  have ht : ty.trim.cellrow y = o.map Cellrow.trim := by
    rw [← hrow]
    rfl
  have ht1 : ty.trim.cellrow (y + 1) = o1.map Cellrow.trim := by
    rw [← hrow1]
    rfl
  have htw : ty.trim.w = ty.w := rfl
  rw [ht, hrow, ht1, hrow1, htw]
  rcases o with _ | row
  · rfl
  · have hh := hr y row hrow
    simp only [Option.map_some']
    have hw1 : row.trim.w = row.w := rfl
    rw [hw1]
    by_cases hw : row.w = 0
    · rw [if_pos hw, if_pos hw]
    · rw [if_neg hw, if_neg hw]
      by_cases hge : x + 1 ≥ row.w
      · rw [if_pos hge, if_pos hge]
        have hc : cellAt row.trim.cells (row.w - 1) = cellAt row.cells (row.w - 1) :=
          cellAt_take row.cells row.w (row.w - 1) (by omega)
        rw [hc]
        rcases o1 with _ | row1
        · rfl
        · have hh1 := hr (y + 1) row1 hrow1
          simp only [Option.map_some']
          have hw2 : row1.trim.w = row1.w := rfl
          rw [hw2]
          by_cases hw0 : row1.w = 0
          · simp only [hw0, if_true]
          · simp only [hw0, if_false, next_tail_trim ty row1 0 (y + 1) cp (by omega)]
      · rw [if_neg hge, if_neg hge, next_tail_trim ty row (x + 1) y cp (by omega)]

theorem txt_next_at_total (ty : Termpty) (hr : rows_hold ty) (x y : Int) (cp : Nat)
    (hx : 0 ≤ x) : ∃ t, _txt_next_at ty x y cp = some t := by
  have hgo : ∃ t, (match ty.cellrow (y + 1) with
      | none => some (Txt.bad 0 (y + 1) cp)
      | some row1 =>
        if row1.w = 0 then some (Txt.bad 0 (y + 1) cp)
        else next_tail ty row1.cells row1.w 0 (y + 1) cp) = some t := by
    obtain ⟨o, hrow1⟩ : ∃ o, ty.cellrow (y + 1) = o := ⟨_, rfl⟩
    rw [hrow1]
    rcases o with _ | row1
    · exact ⟨_, rfl⟩
    · have hh := hr (y + 1) row1 hrow1
      simp only
      by_cases hw : row1.w = 0
      · rw [if_pos hw]
        exact ⟨_, rfl⟩
      · rw [if_neg hw]
        exact next_tail_total ty row1 hh 0 (y + 1) cp (le_refl 0) (by omega)
  unfold _txt_next_at
  simp only
  obtain ⟨o, hrow⟩ : ∃ o, ty.cellrow y = o := ⟨_, rfl⟩
  rw [hrow]
  rcases o with _ | row
  · exact ⟨_, rfl⟩
  · have hh := hr y row hrow
    simp only
    by_cases hw : row.w = 0
    · rw [if_pos hw]
      exact ⟨_, rfl⟩
    · rw [if_neg hw]
      by_cases hge : x + 1 ≥ row.w
      · rw [if_pos hge]
        obtain ⟨last, hlast⟩ := cellAt_in_range row.cells (row.w - 1) (by omega) (by omega)
        rw [hlast]
        simp only
        by_cases hle : x + 1 ≤ ty.w
        · rw [if_pos hle]
          by_cases ha : last.autowrapped = false
          · rw [if_pos ha]
            exact ⟨_, rfl⟩
          · rw [if_neg ha]
            exact hgo
        · rw [if_neg hle]
          exact hgo
      · rw [if_neg hge]
        exact next_tail_total ty row hh (x + 1) y cp (by omega) (by omega)

theorem goback_iter_brk_x1 (ty : Termpty) (st st1 : LinkSt)
    (h : goback_iter ty st = some (Iter.brk st1)) : st1.x1 = st.x1 := by
  unfold goback_iter at h
  rcases hp : _txt_prev_at ty st.x1 st.y1 st.codepoint with _ | t
  · rw [hp] at h; cases h
  · rw [hp] at h
    simp only at h
    by_cases hbad : t.res ≠ 0 ∨ t.txt.length = 0
    · rw [if_pos hbad] at h; cases h; rfl
    · rw [if_neg hbad] at h
      by_cases hs : _isspace_unicode t.codepoint = true
      · rw [if_pos hs] at h
        rcases hp2 : _txt_prev_at ty t.x t.y t.codepoint with _ | t2
        · rw [hp2] at h; cases h
        · rw [hp2] at h
          simp only at h
          by_cases hc2 : t2.res ≠ 0 ∨ t2.txt.length = 0 ∨ t2.codepoint ≠ 92
          · rw [if_pos hc2] at h; cases h; rfl
          · rw [if_neg hc2] at h
            simp only [Option.some.injEq] at h
            rcases goback_rest_cases st (ty_sb_prepend st.sb t.txt) t2 with
              ⟨s1, e, _, a2, _⟩ | ⟨s1, e, _⟩
            · rw [e] at h; cases h; exact a2
            · rw [e] at h; cases h
      · rw [if_neg hs] at h
        simp only [Option.some.injEq] at h
        rcases goback_rest_cases st (ty_sb_prepend st.sb t.txt) t with
          ⟨s1, e, _, a2, _⟩ | ⟨s1, e, _⟩
        · rw [e] at h; cases h; exact a2
        · rw [e] at h; cases h

/-- An iteration of the backward loop of `termio_link_find` keeps `x1 ≥ 0` and
`x2 ≥ 0`, however it ends. -/
theorem goback_iter_nonneg (ty : Termpty) (st : LinkSt) (it : Iter)
    (h : goback_iter ty st = some it) (h1 : 0 ≤ st.x1) (h2 : 0 ≤ st.x2) :
    ∀ st1, (it = Iter.brk st1 ∨ it = Iter.cont st1) → 0 ≤ st1.x1 ∧ 0 ≤ st1.x2 := by
  intro st1 hit
  rcases hit with hit | hit
  · rw [hit] at h
    have e1 := goback_iter_brk_x1 ty st st1 h
    have e2 := (goback_iter_brk_keeps ty st st1 h).1
    omega
  · rw [hit] at h
    obtain ⟨_, _, p, _, e2, _⟩ := goback_iter_decreases ty st st1 h
    omega

/-- An iteration of the forward loop of `termio_link_find` keeps `x1 ≥ 0` and
`x2 ≥ 0`, however it ends. -/
theorem goforward_iter_nonneg (ty : Termpty) (st : LinkSt) (it : Iter)
    (h : goforward_iter ty st = some it) (h1 : 0 ≤ st.x1) (h2 : 0 ≤ st.x2) :
    ∀ st1, (it = Iter.brk st1 ∨ it = Iter.cont st1) → 0 ≤ st1.x1 ∧ 0 ≤ st1.x2 := by
  intro st1 hit
  unfold goforward_iter at h
  obtain ⟨o, hp⟩ : ∃ o, _txt_next_at ty st.x2 st.y2 st.codepoint = o := ⟨_, rfl⟩
  rw [hp] at h
  rcases o with _ | t
  · cases h
  · simp only at h
    by_cases hbad : t.res ≠ 0 ∨ t.txt.length = 0
    · rw [if_pos hbad] at h
      cases h
      rcases hit with hit | hit <;> cases hit
      exact ⟨h1, h2⟩
    · rw [if_neg hbad] at h
      have h0 : t.res = 0 := by
        by_contra hh; exact hbad (Or.inl hh)
      have hl : t.txt.length ≠ 0 := fun hh => hbad (Or.inr hh)
      obtain ⟨row, _, hpos⟩ := txt_next_at_gt ty _ _ _ t hp h0 hl
      have ht : 0 ≤ t.x := by
        rcases hpos with ⟨_, p, _⟩ | ⟨_, p⟩ <;> omega
      by_cases hb : t.codepoint = 92
      · rw [if_pos hb] at h
        cases h
        rcases hit with hit | hit <;> cases hit
        exact ⟨h1, ht⟩
      · rw [if_neg hb] at h
        split_ifs at h <;> cases h <;> rcases hit with hit | hit <;> cases hit <;>
          first
            | exact ⟨h1, h2⟩
            | exact ⟨h1, ht⟩

theorem goback_iter_total (ty : Termpty) (hr : rows_hold ty) (hw1 : 1 ≤ ty.w)
    (st : LinkSt) : ∃ it, goback_iter ty st = some it := by
  unfold goback_iter
  obtain ⟨t, ht⟩ := txt_prev_at_total ty hr hw1 st.x1 st.y1 st.codepoint
  rw [ht]
  simp only
  by_cases hbad : t.res ≠ 0 ∨ t.txt.length = 0
  · rw [if_pos hbad]
    exact ⟨_, rfl⟩
  · rw [if_neg hbad]
    by_cases hs : _isspace_unicode t.codepoint = true
    · rw [if_pos hs]
      obtain ⟨t2, ht2⟩ := txt_prev_at_total ty hr hw1 t.x t.y t.codepoint
      rw [ht2]
      simp only
      split_ifs <;> exact ⟨_, rfl⟩
    · rw [if_neg hs]
      exact ⟨_, rfl⟩

theorem goforward_iter_total (ty : Termpty) (hr : rows_hold ty) (st : LinkSt)
    (h2 : 0 ≤ st.x2) : ∃ it, goforward_iter ty st = some it := by
  unfold goforward_iter
  obtain ⟨t, ht⟩ := txt_next_at_total ty hr st.x2 st.y2 st.codepoint h2
  rw [ht]
  simp only
  split_ifs <;> exact ⟨_, rfl⟩

theorem link_goback_safe (ty : Termpty) (hr : rows_hold ty) (hw1 : 1 ≤ ty.w) :
    ∀ (fuel : Nat) (st : LinkSt), 0 ≤ st.x1 → 0 ≤ st.x2 →
      link_goback ty fuel st ≠ Outcome.oob
      ∧ ∀ st1, link_goback ty fuel st = Outcome.done st1 → 0 ≤ st1.x1 ∧ 0 ≤ st1.x2 := by
  intro fuel
  induction fuel with
  | zero =>
    intro st _ _
    exact ⟨(fun h => by cases h), fun st1 h => by cases h⟩
  | succ n ih =>
    intro st h1 h2
    obtain ⟨it, hit⟩ := goback_iter_total ty hr hw1 st
    have hnn := goback_iter_nonneg ty st it hit h1 h2
    rw [link_goback_succ, hit]
    rcases it with s | s
    · refine ⟨(fun h => by cases h), fun st1 h => ?_⟩
      simp only [Outcome.done.injEq] at h
      rw [← h]
      exact hnn s (Or.inl rfl)
    · obtain ⟨p1, p2⟩ := hnn s (Or.inr rfl)
      exact ih s p1 p2

theorem link_goforward_safe (ty : Termpty) (hr : rows_hold ty) :
    ∀ (fuel : Nat) (st : LinkSt), 0 ≤ st.x1 → 0 ≤ st.x2 →
      link_goforward ty fuel st ≠ Outcome.oob
      ∧ ∀ st1, link_goforward ty fuel st = Outcome.done st1 → 0 ≤ st1.x1 ∧ 0 ≤ st1.x2 := by
  intro fuel
  induction fuel with
  | zero =>
    intro st _ _
    exact ⟨(fun h => by cases h), fun st1 h => by cases h⟩
  | succ n ih =>
    intro st h1 h2
    obtain ⟨it, hit⟩ := goforward_iter_total ty hr st h2
    have hnn := goforward_iter_nonneg ty st it hit h1 h2
    rw [link_goforward_succ, hit]
    rcases it with s | s
    · refine ⟨(fun h => by cases h), fun st1 h => ?_⟩
      simp only [Outcome.done.injEq] at h
      rw [← h]
      exact hnn s (Or.inl rfl)
    · obtain ⟨p1, p2⟩ := hnn s (Or.inr rfl)
      exact ih s p1 p2

theorem link_scan_safe (ty : Termpty) (hr : rows_hold ty) (hw1 : 1 ≤ ty.w) (fuel : Nat)
    (cx cy : Int) (hcx : 0 ≤ cx) :
    link_scan ty fuel cx cy ≠ Outcome.oob
    ∧ ∀ st, link_scan ty fuel cx cy = Outcome.done (some st) → 0 ≤ st.x1 ∧ 0 ≤ st.x2 := by
  obtain ⟨t, ht⟩ := txt_at_total ty hr cx cy 0 hcx
  rw [link_scan_unfold, ht]
  simp only
  by_cases hbad : t.res ≠ 0 ∨ t.txt.length = 0
  · rw [if_pos hbad]
    exact ⟨(fun h => by cases h), fun st h => by cases h⟩
  · rw [if_neg hbad]
    by_cases hs : _isspace_unicode t.codepoint = true
    · rw [if_pos hs]
      exact ⟨(fun h => by cases h), fun st h => by cases h⟩
    · rw [if_neg hs]
      have h0 : t.res = 0 := by
        by_contra hh; exact hbad (Or.inl hh)
      have hl : t.txt.length ≠ 0 := fun hh => hbad (Or.inr hh)
      obtain ⟨row, c, _, _, _, hc, _⟩ := txt_at_shape ty cx cy 0 t ht h0 hl
      have htx : 0 ≤ t.x := cellAt_nonneg _ _ _ hc
      obtain ⟨b1, b2⟩ := link_goback_safe ty hr hw1 fuel (link_seed t cx cy) htx hcx
      rcases hb : link_goback ty fuel (link_seed t cx cy) with s1 | _ | _
      · obtain ⟨q1, q2⟩ := b2 s1 hb
        obtain ⟨f1, f2⟩ := link_goforward_safe ty hr fuel s1 q1 q2
        simp only
        rcases hf : link_goforward ty fuel s1 with s2 | _ | _
        · refine ⟨(fun h => by cases h), fun st h => ?_⟩
          simp only [Outcome.done.injEq, Option.some.injEq] at h
          rw [← h]
          exact f2 s2 hf
        · exact absurd hf f1
        · exact ⟨(fun h => by cases h), fun st h => by cases h⟩
      · exact absurd hb b1
      · exact ⟨(fun h => by cases h), fun st h => by cases h⟩

theorem goback_iter_trim (ty : Termpty) : goback_iter ty.trim = goback_iter ty := by
  funext st
  unfold goback_iter
  simp only [txt_prev_at_trim]

theorem goforward_iter_trim (ty : Termpty) (hr : rows_hold ty) :
    goforward_iter ty.trim = goforward_iter ty := by
  funext st
  unfold goforward_iter
  simp only [txt_next_at_trim ty hr]

theorem link_goback_trim (ty : Termpty) : link_goback ty.trim = link_goback ty := by
  funext fuel
  induction fuel with
  | zero => rfl
  | succ n ih =>
    funext st
    rw [link_goback_succ, link_goback_succ, goback_iter_trim, ih]

theorem link_goforward_trim (ty : Termpty) (hr : rows_hold ty) :
    link_goforward ty.trim = link_goforward ty := by
  funext fuel
  induction fuel with
  | zero => rfl
  | succ n ih =>
    funext st
    rw [link_goforward_succ, link_goforward_succ, goforward_iter_trim ty hr, ih]

theorem link_scan_trim (ty : Termpty) (hr : rows_hold ty) :
    link_scan ty.trim = link_scan ty := by
  funext fuel cx cy
  rw [link_scan_unfold, link_scan_unfold, txt_at_trim, link_goback_trim,
    link_goforward_trim ty hr]

/-- An iteration of the backward loop of `termio_color_find` keeps `x1 ≥ 0` and
`x2 ≥ 0`, however it ends. -/
theorem color_goback_iter_nonneg (ty : Termpty) (st : ColorSt) (it : ColorIter)
    (h : color_goback_iter ty st = some it) (h1 : 0 ≤ st.x1) (h2 : 0 ≤ st.x2) :
    ∀ st1, (it = ColorIter.brk st1 ∨ it = ColorIter.cont st1) →
      0 ≤ st1.x1 ∧ 0 ≤ st1.x2 := by
  intro st1 hit
  rcases hit with hit | hit
  · rw [hit] at h
    have e2 := (color_goback_iter_brk_keeps ty st st1 h).1
    have e1 : st1.x1 = st.x1 := by
      unfold color_goback_iter at h
      rcases hp : _txt_prev_at ty st.x1 st.y1 st.codepoint with _ | t
      · rw [hp] at h; cases h
      · rw [hp] at h
        simp only at h
        split_ifs at h <;> cases h <;> rfl
    omega
  · rw [hit] at h
    obtain ⟨_, _, p, _, e2, _⟩ := color_goback_iter_decreases ty st st1 h
    omega

/-- An iteration of the forward loop of `termio_color_find` keeps `x1 ≥ 0` and
`x2 ≥ 0`, however it ends. -/
theorem color_goforward_iter_nonneg (ty : Termpty) (st : ColorSt) (it : ColorIter)
    (h : color_goforward_iter ty st = some it) (h1 : 0 ≤ st.x1) (h2 : 0 ≤ st.x2) :
    ∀ st1, (it = ColorIter.brk st1 ∨ it = ColorIter.cont st1) →
      0 ≤ st1.x1 ∧ 0 ≤ st1.x2 := by
  intro st1 hit
  unfold color_goforward_iter at h
  obtain ⟨o, hp⟩ : ∃ o, _txt_next_at ty st.x2 st.y2 st.codepoint = o := ⟨_, rfl⟩
  rw [hp] at h
  rcases o with _ | t
  · cases h
  · simp only at h
    by_cases hbad : t.res ≠ 0 ∨ t.txt.length = 0
    · rw [if_pos hbad] at h
      cases h
      rcases hit with hit | hit <;> cases hit
      exact ⟨h1, h2⟩
    · rw [if_neg hbad] at h
      have h0 : t.res = 0 := by
        by_contra hh; exact hbad (Or.inl hh)
      have hl : t.txt.length ≠ 0 := fun hh => hbad (Or.inr hh)
      obtain ⟨row, _, hpos⟩ := txt_next_at_gt ty _ _ _ t hp h0 hl
      have ht : 0 ≤ t.x := by
        rcases hpos with ⟨_, p, _⟩ | ⟨_, p⟩ <;> omega
      split_ifs at h <;> cases h <;> rcases hit with hit | hit <;> cases hit <;>
        first
          | exact ⟨h1, h2⟩
          | exact ⟨h1, ht⟩

theorem color_goback_iter_total (ty : Termpty) (hr : rows_hold ty) (hw1 : 1 ≤ ty.w)
    (st : ColorSt) : ∃ it, color_goback_iter ty st = some it := by
  unfold color_goback_iter
  obtain ⟨t, ht⟩ := txt_prev_at_total ty hr hw1 st.x1 st.y1 st.codepoint
  rw [ht]
  simp only
  split_ifs <;> exact ⟨_, rfl⟩

theorem color_goforward_iter_total (ty : Termpty) (hr : rows_hold ty) (st : ColorSt)
    (h2 : 0 ≤ st.x2) : ∃ it, color_goforward_iter ty st = some it := by
  unfold color_goforward_iter
  obtain ⟨t, ht⟩ := txt_next_at_total ty hr st.x2 st.y2 st.codepoint h2
  rw [ht]
  simp only
  split_ifs <;> exact ⟨_, rfl⟩

theorem color_goback_safe (ty : Termpty) (hr : rows_hold ty) (hw1 : 1 ≤ ty.w) :
    ∀ (fuel : Nat) (st : ColorSt), 0 ≤ st.x1 → 0 ≤ st.x2 →
      color_goback ty fuel st ≠ Outcome.oob
      ∧ ∀ st1, color_goback ty fuel st = Outcome.done st1 → 0 ≤ st1.x1 ∧ 0 ≤ st1.x2 := by
  intro fuel
  induction fuel with
  | zero =>
    intro st _ _
    exact ⟨(fun h => by cases h), fun st1 h => by cases h⟩
  | succ n ih =>
    intro st h1 h2
    obtain ⟨it, hit⟩ := color_goback_iter_total ty hr hw1 st
    have hnn := color_goback_iter_nonneg ty st it hit h1 h2
    rw [color_goback_step, hit]
    rcases it with s | s
    · refine ⟨(fun h => by cases h), fun st1 h => ?_⟩
      simp only [Outcome.done.injEq] at h
      rw [← h]
      exact hnn s (Or.inl rfl)
    · obtain ⟨p1, p2⟩ := hnn s (Or.inr rfl)
      exact ih s p1 p2

theorem color_goforward_safe (ty : Termpty) (hr : rows_hold ty) :
    ∀ (fuel : Nat) (st : ColorSt), 0 ≤ st.x1 → 0 ≤ st.x2 →
      color_goforward ty fuel st ≠ Outcome.oob
      ∧ ∀ st1, color_goforward ty fuel st = Outcome.done st1 →
          0 ≤ st1.x1 ∧ 0 ≤ st1.x2 := by
  intro fuel
  induction fuel with
  | zero =>
    intro st _ _
    exact ⟨(fun h => by cases h), fun st1 h => by cases h⟩
  | succ n ih =>
    intro st h1 h2
    obtain ⟨it, hit⟩ := color_goforward_iter_total ty hr st h2
    have hnn := color_goforward_iter_nonneg ty st it hit h1 h2
    rw [color_goforward_step, hit]
    rcases it with s | s
    · refine ⟨(fun h => by cases h), fun st1 h => ?_⟩
      simp only [Outcome.done.injEq] at h
      rw [← h]
      exact hnn s (Or.inl rfl)
    · obtain ⟨p1, p2⟩ := hnn s (Or.inr rfl)
      exact ih s p1 p2

theorem color_scan_safe (ty : Termpty) (hr : rows_hold ty) (hw1 : 1 ≤ ty.w) (fuel : Nat)
    (cx cy : Int) (hcx : 0 ≤ cx) :
    color_scan ty fuel cx cy ≠ Outcome.oob
    ∧ ∀ st, color_scan ty fuel cx cy = Outcome.done (some st) → 0 ≤ st.x1 ∧ 0 ≤ st.x2 := by
  obtain ⟨t, ht⟩ := txt_at_total ty hr cx cy 0 hcx
  rw [color_scan_unfold, ht]
  simp only
  by_cases hbad : t.res ≠ 0 ∨ t.txt.length = 0
  · rw [if_pos hbad]
    exact ⟨(fun h => by cases h), fun st h => by cases h⟩
  · rw [if_neg hbad]
    by_cases hs : _is_authorized_in_color t.codepoint = false
    · rw [if_pos hs]
      exact ⟨(fun h => by cases h), fun st h => by cases h⟩
    · rw [if_neg hs]
      have h0 : t.res = 0 := by
        by_contra hh; exact hbad (Or.inl hh)
      have hl : t.txt.length ≠ 0 := fun hh => hbad (Or.inr hh)
      obtain ⟨row, c, _, _, _, hc, _⟩ := txt_at_shape ty cx cy 0 t ht h0 hl
      have htx : 0 ≤ t.x := cellAt_nonneg _ _ _ hc
      obtain ⟨b1, b2⟩ := color_goback_safe ty hr hw1 fuel (color_seed t cx cy) htx hcx
      rcases hb : color_goback ty fuel (color_seed t cx cy) with s1 | _ | _
      · obtain ⟨q1, q2⟩ := b2 s1 hb
        obtain ⟨f1, f2⟩ := color_goforward_safe ty hr fuel s1 q1 q2
        simp only
        rcases hf : color_goforward ty fuel s1 with s2 | _ | _
        · refine ⟨(fun h => by cases h), fun st h => ?_⟩
          simp only [Outcome.done.injEq, Option.some.injEq] at h
          rw [← h]
          exact f2 s2 hf
        · exact absurd hf f1
        · exact ⟨(fun h => by cases h), fun st h => by cases h⟩
      · exact absurd hb b1
      · exact ⟨(fun h => by cases h), fun st h => by cases h⟩

theorem color_goback_iter_trim (ty : Termpty) :
    color_goback_iter ty.trim = color_goback_iter ty := by
  funext st
  unfold color_goback_iter
  simp only [txt_prev_at_trim]

theorem color_goforward_iter_trim (ty : Termpty) (hr : rows_hold ty) :
    color_goforward_iter ty.trim = color_goforward_iter ty := by
  funext st
  unfold color_goforward_iter
  simp only [txt_next_at_trim ty hr]

theorem color_goback_trim (ty : Termpty) : color_goback ty.trim = color_goback ty := by
  funext fuel
  induction fuel with
  | zero => rfl
  | succ n ih =>
    funext st
    rw [color_goback_step, color_goback_step, color_goback_iter_trim, ih]

theorem color_goforward_trim (ty : Termpty) (hr : rows_hold ty) :
    color_goforward ty.trim = color_goforward ty := by
  funext fuel
  induction fuel with
  | zero => rfl
  | succ n ih =>
    funext st
    rw [color_goforward_step, color_goforward_step, color_goforward_iter_trim ty hr, ih]

theorem color_scan_trim (ty : Termpty) (hr : rows_hold ty) :
    color_scan ty.trim = color_scan ty := by
  funext fuel cx cy
  rw [color_scan_unfold, color_scan_unfold, txt_at_trim, color_goback_trim,
    color_goforward_trim ty hr]

theorem trim_row_exact (ty : Termpty) (hr : rows_hold ty) (y : Int) (row : Cellrow)
    (h : ty.trim.cellrow y = some row) : (row.cells.length : Int) = row.w := by
  simp only [Termpty.trim] at h
  rcases h0 : ty.cellrow y with _ | row0
  · rw [h0] at h
    cases h
  · rw [h0] at h
    simp only [Option.map_some', Option.some.injEq] at h
    subst h
    have hh := hr y row0 h0
    simp only [Cellrow.trim, List.length_take]
    omega

theorem cellAt_index (cells : List Termcell) (i : Int) (c : Termcell)
    (h : cellAt cells i = some c) : 0 ≤ i ∧ i < cells.length := by
  have h0 := cellAt_nonneg cells i c h
  unfold cellAt at h
  rw [if_pos h0, List.get?_eq_getElem?] at h
  have hlt := (List.getElem?_eq_some_iff.1 h).1
  omega

theorem rows_hold_screen (w : Int) (rows : List Cellrow)
    (h : ∀ row ∈ rows, 0 ≤ row.w ∧ row.w ≤ row.cells.length) :
    rows_hold (screen_pty w rows) := by
  intro y row hrow
  exact h row (screen_pty_row_mem w rows y row hrow)

theorem link_out_span (obj : Termio) (sc : Int) (st : LinkSt) (lock : Int) (sp : Span)
    (h : (link_out obj sc st lock).span = some sp) : sp.x1 = st.x1 ∧ sp.x2 = st.x2 := by
  unfold link_out at h
  simp only at h
  split_ifs at h <;> cases h <;> exact ⟨rfl, rfl⟩

theorem color_out_span (sc : Int) (st : ColorSt) (lock : Int) (sp : Span)
    (h : (color_out sc st lock).span = some sp) : sp.x1 = st.x1 ∧ sp.x2 = st.x2 := by
  unfold color_out at h
  split at h
  · cases h
  · cases h
    exact ⟨rfl, rfl⟩

/-- C22: on a grid whose present rows each hold at least `w` cells for their
width `w` (a count, so `0 ≤ w`), with a screen width of at least 1 and a seed
column `cx ≥ 0`, no call of `_txt_at`, `_txt_prev_at` or `_txt_next_at` reads a
cell outside `[0, w)` of the row it reads: every read of the three walkers
finds a cell, and the walkers and both span finders behave the same on the
grid whose rows are cut to exactly their first `w` cells, where a read finds a
cell only at an index in `[0, w)`.  `termio_link_find` and `termio_color_find`
therefore never read out of range, every iteration of their loops keeps
`x1 ≥ 0` and `x2 ≥ 0`, and so do the spans they return. -/
theorem termio_find_reads_in_row (obj : Termio) (ty : Termpty) (fuel : Nat)
    (cx cy lock : Int) (hpty : obj.pty = some ty) (hr : rows_hold ty) (hw1 : 1 ≤ ty.w)
    (hcx : 0 ≤ cx) :
    (∀ y row i c, ty.trim.cellrow y = some row → cellAt row.cells i = some c →
      0 ≤ i ∧ i < row.w)
    ∧ (∀ x y cp, 0 ≤ x → (∃ t, _txt_at ty x y cp = some t)
        ∧ _txt_at ty.trim x y cp = _txt_at ty x y cp)
    ∧ (∀ x y cp, (∃ t, _txt_prev_at ty x y cp = some t)
        ∧ _txt_prev_at ty.trim x y cp = _txt_prev_at ty x y cp)
    ∧ (∀ x y cp, 0 ≤ x → (∃ t, _txt_next_at ty x y cp = some t)
        ∧ _txt_next_at ty.trim x y cp = _txt_next_at ty x y cp)
    ∧ (∀ st it st1, 0 ≤ st.x1 → 0 ≤ st.x2 →
        (goback_iter ty st = some it ∨ goforward_iter ty st = some it) →
        (it = Iter.brk st1 ∨ it = Iter.cont st1) → 0 ≤ st1.x1 ∧ 0 ≤ st1.x2)
    ∧ (∀ st it st1, 0 ≤ st.x1 → 0 ≤ st.x2 →
        (color_goback_iter ty st = some it ∨ color_goforward_iter ty st = some it) →
        (it = ColorIter.brk st1 ∨ it = ColorIter.cont st1) → 0 ≤ st1.x1 ∧ 0 ≤ st1.x2)
    ∧ termio_link_find obj fuel cx cy lock ≠ Outcome.oob
    ∧ termio_link_find (obj.with_pty ty.trim) fuel cx cy lock
        = termio_link_find obj fuel cx cy lock
    ∧ (∀ s sp l, termio_link_find obj fuel cx cy lock = Outcome.done ⟨s, some sp, l⟩ →
        0 ≤ sp.x1 ∧ 0 ≤ sp.x2)
    ∧ termio_color_find obj fuel cx cy lock ≠ Outcome.oob
    ∧ termio_color_find (obj.with_pty ty.trim) fuel cx cy lock
        = termio_color_find obj fuel cx cy lock
    ∧ (∀ f c sp l, termio_color_find obj fuel cx cy lock = Outcome.done ⟨f, c, some sp, l⟩ →
        0 ≤ sp.x1 ∧ 0 ≤ sp.x2) := by
  obtain ⟨ls1, ls2⟩ := link_scan_safe ty hr hw1 fuel cx (cy - obj.scroll) hcx
  obtain ⟨cs1, cs2⟩ := color_scan_safe ty hr hw1 fuel cx (cy - obj.scroll) hcx
  refine ⟨?_, ?_, ?_, ?_, ?_, ?_, ?_, ?_, ?_, ?_, ?_, ?_⟩
  · intro y row i c hrow hc
    have hlen := trim_row_exact ty hr y row hrow
    have hi := cellAt_index row.cells i c hc
    omega
  · intro x y cp hx
    exact ⟨txt_at_total ty hr x y cp hx, txt_at_trim ty x y cp⟩
  · intro x y cp
    exact ⟨txt_prev_at_total ty hr hw1 x y cp, txt_prev_at_trim ty x y cp⟩
  · intro x y cp hx
    exact ⟨txt_next_at_total ty hr x y cp hx, txt_next_at_trim ty hr x y cp⟩
  · intro st it st1 h1 h2 hit
    rcases hit with hit | hit
    · exact goback_iter_nonneg ty st it hit h1 h2 st1
    · exact goforward_iter_nonneg ty st it hit h1 h2 st1
  · intro st it st1 h1 h2 hit
    rcases hit with hit | hit
    · exact color_goback_iter_nonneg ty st it hit h1 h2 st1
    · exact color_goforward_iter_nonneg ty st it hit h1 h2 st1
  · unfold termio_link_find
    rw [hpty]
    simp only
    split_ifs
    · intro h; cases h
    · rcases hs : link_scan ty fuel cx (cy - obj.scroll) with o | _ | _
      · rcases o with _ | st <;> (intro h; cases h)
      · exact absurd hs ls1
      · intro h; cases h
  · unfold termio_link_find
    rw [hpty]
    simp only [Termio.with_pty, link_scan_trim ty hr]
    rfl
  · intro s sp l h
    unfold termio_link_find at h
    rw [hpty] at h
    simp only at h
    split_ifs at h
    · cases h
    · rcases hs : link_scan ty fuel cx (cy - obj.scroll) with o | _ | _
      · rw [hs] at h
        rcases o with _ | st
        · cases h
        · simp only [Outcome.done.injEq] at h
          obtain ⟨e1, e2⟩ := link_out_span obj obj.scroll st (termpty_backlog_lock lock) sp
            (by rw [h])
          obtain ⟨p1, p2⟩ := ls2 st hs
          omega
      · rw [hs] at h; cases h
      · rw [hs] at h; cases h
  · unfold termio_color_find
    rw [hpty]
    simp only
    split_ifs
    · intro h; cases h
    · rcases hs : color_scan ty fuel cx (cy - obj.scroll) with o | _ | _
      · rcases o with _ | st <;> (intro h; cases h)
      · exact absurd hs cs1
      · intro h; cases h
  · unfold termio_color_find
    rw [hpty]
    simp only [Termio.with_pty, color_scan_trim ty hr]
  · intro f c sp l h
    unfold termio_color_find at h
    rw [hpty] at h
    simp only at h
    split_ifs at h
    · cases h
    · rcases hs : color_scan ty fuel cx (cy - obj.scroll) with o | _ | _
      · rw [hs] at h
        rcases o with _ | st
        · cases h
        · simp only [Outcome.done.injEq] at h
          obtain ⟨e1, e2⟩ := color_out_span obj.scroll st (termpty_backlog_lock lock) sp
            (by rw [h])
          obtain ⟨p1, p2⟩ := cs2 st hs
          omega
      · rw [hs] at h; cases h
      · rw [hs] at h; cases h

/-- C22, at a concrete input: the row `http://a/b` of width 10 holds fifteen
cells; seeded on column 3 `termio_link_find` reads no cell out of range,
returns the token with the span from column 0 to column 9, and does the same
on the row cut to its first ten cells. -/
theorem termio_find_reads_in_row_witness :
    rows_hold (screen_pty 10 [padded_row])
    ∧ (1 : Int) ≤ (screen_pty 10 [padded_row]).w
    ∧ termio_link_find (screen 10 1 [padded_row]) 20 3 0 0 ≠ Outcome.oob
    ∧ termio_link_find ((screen 10 1 [padded_row]).with_pty (screen_pty 10 [padded_row]).trim)
        20 3 0 0 = termio_link_find (screen 10 1 [padded_row]) 20 3 0 0
    ∧ termio_link_find (screen 10 1 [padded_row]) 20 3 0 0
        = Outcome.done ⟨some (bytes "http://a/b"), some ⟨0, 0, 9, 0⟩, 0⟩ :=
  have hr : rows_hold (screen_pty 10 [padded_row]) :=
    rows_hold_screen 10 [padded_row] (by decide)
  ⟨hr, by decide,
    (termio_find_reads_in_row (screen 10 1 [padded_row]) (screen_pty 10 [padded_row]) 20 3 0 0
      rfl hr (by decide) (by decide)).2.2.2.2.2.2.1,
    (termio_find_reads_in_row (screen 10 1 [padded_row]) (screen_pty 10 [padded_row]) 20 3 0 0
      rfl hr (by decide) (by decide)).2.2.2.2.2.2.2.1,
    by decide⟩

/-! ## The hard row edge, for every seed of the row (C10) -/

end Termiolink
